import Mathlib

/-! Search initiation for the hypergraph pattern matcher.

A shallow embedding of `opencog/query/InitiateSearchCB.cc`: the starter
finder, thinnest-clause selection, the four search strategies, the choice
driver and the search loop, followed by theorems about them.

Handles are `Option Atom` (`none` is `Handle::UNDEFINED`).  Reference
parameters and member fields that a method writes are returned in a record.
A C++ exception or a null dereference is an `Except.error`.
-/

namespace InitiateSearch

/-! ## Atoms -/

/-- Node types.  Only `VARIABLE_NODE` and `GLOB_NODE` are named by the planner;
every other node type (ConceptNode, PredicateNode, ...) is `other n`. -/
inductive NodeType where
  | VARIABLE_NODE
  | GLOB_NODE
  | other (n : Nat)
  deriving DecidableEq, Repr

/-- Link types.  The planner names `CHOICE_LINK` and the three quotation
types; every other link type (ListLink, EvaluationLink, ...) is `other n`. -/
inductive LinkType where
  | CHOICE_LINK
  | QUOTE_LINK
  | UNQUOTE_LINK
  | LOCAL_QUOTE_LINK
  | other (n : Nat)
  deriving DecidableEq, Repr

/-- The type tag of an atom (`Type` in the source). -/
inductive AtomType where
  | node (t : NodeType)
  | link (t : LinkType)
  deriving DecidableEq, Repr

/-- An atom is a named node or a link with an ordered outgoing set. -/
inductive Atom where
  | node (t : NodeType) (name : String)
  | link (t : LinkType) (out : List Atom)
  deriving Repr

mutual
/-- Structural equality test on atoms. -/
def Atom.decEq : (a b : Atom) → Decidable (a = b)
  | .node t n, .node t2 n2 =>
    if h : t = t2 ∧ n = n2 then isTrue (by rw [h.1, h.2])
    else isFalse (by intro e; injection e with e1 e2; exact h ⟨e1, e2⟩)
  | .node _ _, .link _ _ => isFalse (by intro e; injection e)
  | .link _ _, .node _ _ => isFalse (by intro e; injection e)
  | .link t o, .link t2 o2 =>
    match (inferInstance : Decidable (t = t2)), Atom.decEqList o o2 with
    | isTrue h1, isTrue h2 => isTrue (by rw [h1, h2])
    | isFalse h1, _ => isFalse (by intro e; injection e with e1 e2; exact h1 e1)
    | _, isFalse h2 => isFalse (by intro e; injection e with e1 e2; exact h2 e2)
/-- Structural equality test on outgoing sets. -/
def Atom.decEqList : (a b : List Atom) → Decidable (a = b)
  | [], [] => isTrue rfl
  | [], _ :: _ => isFalse (by intro e; injection e)
  | _ :: _, [] => isFalse (by intro e; injection e)
  | x :: xs, y :: ys =>
    match Atom.decEq x y, Atom.decEqList xs ys with
    | isTrue h1, isTrue h2 => isTrue (by rw [h1, h2])
    | isFalse h1, _ => isFalse (by intro e; injection e with e1 e2; exact h1 e1)
    | _, isFalse h2 => isFalse (by intro e; injection e with e1 e2; exact h2 e2)
end

instance : DecidableEq Atom := Atom.decEq

/-- A handle is an atom or `Handle::UNDEFINED`. -/
abbrev Handle := Option Atom

/-- The type tag, `h->get_type()`. -/
def Atom.get_type : Atom → AtomType
  | .node t _ => .node t
  | .link t _ => .link t

/-- The outgoing set, `h->getOutgoingSet()`; empty for a node. -/
def Atom.getOutgoingSet : Atom → List Atom
  | .node _ _ => []
  | .link _ out => out

/-- The test `VARIABLE_NODE != t and GLOB_NODE != t` on a node type. -/
def NodeType.isConstant (t : NodeType) : Bool :=
  decide (NodeType.VARIABLE_NODE ≠ t) && decide (NodeType.GLOB_NODE ≠ t)

/-- Modelled from the spec: `Quotation::is_quotation_type` lives in
`Quotation.h`, which is not among the sources; the quote-wrapping link types
are QuoteLink, UnquoteLink and LocalQuoteLink. -/
def is_quotation_type : LinkType → Bool
  | .QUOTE_LINK => true
  | .UNQUOTE_LINK => true
  | .LOCAL_QUOTE_LINK => true
  | _ => false

/-- The largest `size_t`. -/
def SIZE_MAX : Nat := 2 ^ 64 - 1

/-! ## The hypergraph -/

/-- The read-only hypergraph.  `getIncomingSet h` is the incoming set of `h`,
`atoms` lists every atom held.  Both are stored in memory, so their sizes stay
below `SIZE_MAX`. -/
structure AtomSpace where
  atoms : List Atom
  getIncomingSet : Atom → List Atom
  atoms_bound : atoms.length < SIZE_MAX
  incoming_bound : ∀ h, (getIncomingSet h).length < SIZE_MAX

/-- The value of `h->getIncomingSetSize()`. -/
def AtomSpace.getIncomingSetSize (as : AtomSpace) (h : Atom) : Nat :=
  (as.getIncomingSet h).length

/-- The value of `get_incoming_set(h, t)`: the incoming links of exactly type `t`. -/
def AtomSpace.get_incoming_set (as : AtomSpace) (h : Atom) (t : AtomType) : List Atom :=
  (as.getIncomingSet h).filter (fun l => decide (l.get_type = t))

/-- The value of `_as->get_num_atoms_of_type(t)`. -/
def AtomSpace.get_num_atoms_of_type (as : AtomSpace) (t : AtomType) : Nat :=
  (as.atoms.filter (fun a => decide (a.get_type = t))).length

/-- The atoms appended by `_as->get_handles_by_type(set, t)`. -/
def AtomSpace.get_handles_by_type (as : AtomSpace) (t : AtomType) : List Atom :=
  as.atoms.filter (fun a => decide (a.get_type = t))

/-! ## Planner data -/

/-- One starting neighbourhood (`struct Choice`). -/
structure Choice where
  clause : Handle
  best_start : Handle
  start_term : Handle
  deriving DecidableEq, Repr

/-- What can go wrong besides a plain `false`. -/
inductive Err where
  /-- `getOutgoingAtom(0)` on a link without outgoing atoms. -/
  | invalid_outgoing_index
  /-- Dereference of an undefined handle. -/
  | null_handle
  /-- The guard of the degenerate variable search fired. -/
  | infinite_loop (count : Nat)
  /-- The fatal "There were no variables!" error. -/
  | no_variables
  /-- The expansion loop of `jit_analyze` did not finish within the fuel given. -/
  | out_of_fuel
  deriving DecidableEq, Repr

instance {ε α : Type} [DecidableEq ε] [DecidableEq α] : DecidableEq (Except ε α)
  | .ok a, .ok b =>
    if h : a = b then isTrue (by rw [h])
    else isFalse (by intro e; injection e with e1; exact h e1)
  | .error a, .error b =>
    if h : a = b then isTrue (by rw [h])
    else isFalse (by intro e; injection e with e1; exact h e1)
  | .ok _, .error _ => isFalse (by intro e; injection e)
  | .error _, .ok _ => isFalse (by intro e; injection e)

/-- The values `find_starter` leaves behind: the returned handle, the three
reference parameters, and the member `_choices`. -/
structure Found where
  ret : Handle
  depth : Nat
  startrm : Handle
  width : Nat
  choices : List Choice
  deriving DecidableEq, Repr

/-! ## The starter finder -/

mutual
/-- The method `find_starter_recursive(h, depth, startrm, width)`.  `dyn` is
`*_dynamic`, `curr` is `_curr_clause`, `choices` is `_choices` on entry. -/
def find_starter_recursive (as : AtomSpace) (dyn : List Atom) (curr : Handle) :
    Atom → Nat → Handle → Nat → List Choice → Except Err Found
  | .node t n, depth, startrm, width, choices =>
    if t.isConstant then
      .ok ⟨some (.node t n), depth, startrm, as.getIncomingSetSize (.node t n), choices⟩
    else .ok ⟨none, depth, startrm, width, choices⟩
  | .link t out, depth, startrm, width, choices =>
    if Atom.link t out ∈ dyn then .ok ⟨none, depth, startrm, width, choices⟩
    else find_starter_loop as dyn curr (.link t out) t depth out depth none SIZE_MAX
      startrm choices
/-- The `for (Handle hunt : h->getOutgoingSet())` loop of
`find_starter_recursive` over the outgoing atoms still to visit, followed by
the three assignments after it.  `h`, `t`, `depth` are those of the enclosing
call; `deepest`, `hdeepest`, `thinnest` are its locals. -/
def find_starter_loop (as : AtomSpace) (dyn : List Atom) (curr : Handle)
    (h : Atom) (t : LinkType) (depth : Nat) :
    List Atom → Nat → Handle → Nat → Handle → List Choice → Except Err Found
  | [], deepest, hdeepest, thinnest, startrm, choices =>
    .ok ⟨hdeepest, deepest, startrm, thinnest, choices⟩
  | hunt :: rest, deepest, hdeepest, thinnest, startrm, choices =>
    let brdepth := depth + 1
    let brwid := SIZE_MAX
    let sbr : Handle := if LinkType.CHOICE_LINK ≠ t then some h else startrm
    -- hunt = hunt->getOutgoingAtom(0) for a quotation link, then the recursion
    let r : Except Err Found :=
      match hunt with
      | .node nt nn => find_starter_recursive as dyn curr (.node nt nn) brdepth sbr brwid choices
      | .link qt [] =>
        if is_quotation_type qt then .error .invalid_outgoing_index
        else find_starter_recursive as dyn curr (.link qt []) brdepth sbr brwid choices
      | .link qt (g :: gs) =>
        if is_quotation_type qt then find_starter_recursive as dyn curr g brdepth sbr brwid choices
        else find_starter_recursive as dyn curr (.link qt (g :: gs)) brdepth sbr brwid choices
    match r with
    | .error e => .error e
    | .ok b =>
      match b.ret with
      | none =>
        find_starter_loop as dyn curr h t depth rest deepest hdeepest thinnest startrm b.choices
      | some s =>
        if LinkType.CHOICE_LINK = t then
          find_starter_loop as dyn curr h t depth rest deepest hdeepest thinnest startrm
            (b.choices ++ [⟨curr, some s, b.startrm⟩])
        else if b.width < thinnest ∨ (b.width = thinnest ∧ deepest < b.depth) then
          find_starter_loop as dyn curr h t depth rest b.depth (some s) b.width b.startrm
            b.choices
        else
          find_starter_loop as dyn curr h t depth rest deepest hdeepest thinnest startrm
            b.choices
end

/-- The method `find_starter(h, depth, startrm, width)`. -/
def find_starter (as : AtomSpace) (dyn : List Atom) (curr : Handle)
    (h : Atom) (depth : Nat) (startrm : Handle) (width : Nat) (choices : List Choice) :
    Except Err Found :=
  match h with
  | .node t n =>
    if t.isConstant then
      .ok ⟨some (.node t n), depth, some (.node t n), as.getIncomingSetSize (.node t n), choices⟩
    else .ok ⟨none, depth, startrm, width, choices⟩
  | .link t out => find_starter_recursive as dyn curr (.link t out) depth startrm width choices

/-! ## Thinnest-clause selection -/

/-- The values `find_thinnest` leaves behind: the returned `best_start`, the
reference parameters `starter_term` and `bestclause`, and the members
`_curr_clause` and `_choices`. -/
structure Thinnest where
  best_start : Handle
  starter_term : Handle
  bestclause : Handle
  curr_clause : Handle
  choices : List Choice
  deriving DecidableEq, Repr

/-- The `for (const Handle& h: clauses)` loop of `find_thinnest` over the
clauses still to visit, and the `return best_start` after it. -/
def find_thinnest_loop (as : AtomSpace) (dyn : List Atom) (evl : List Atom) :
    List Atom → Nat → Nat → Handle → Handle → Handle → Handle → List Choice →
    Except Err Thinnest
  | [], _, _, bestclause, best_start, starter_term, curr, choices =>
    .ok ⟨best_start, starter_term, bestclause, curr, choices⟩
  | h :: rest, thinnest, deepest, bestclause, best_start, starter_term, curr, choices =>
    if h ∈ evl then
      find_thinnest_loop as dyn evl rest thinnest deepest bestclause best_start starter_term
        curr choices
    else
      match find_starter as dyn (some h) h 0 none SIZE_MAX choices with
      | .error e => .error e
      | .ok f =>
        if f.ret.isSome ∧ (f.width < thinnest ∨ (f.width = thinnest ∧ f.depth > deepest)) then
          find_thinnest_loop as dyn evl rest f.width f.depth (some h) f.ret f.startrm
            (some h) f.choices
        else
          find_thinnest_loop as dyn evl rest thinnest deepest bestclause best_start
            starter_term (some h) f.choices

/-- The method `find_thinnest(clauses, evl, starter_term, bestclause)`; `curr`
is `_curr_clause` on entry. -/
def find_thinnest (as : AtomSpace) (dyn : List Atom) (curr : Handle)
    (clauses : List Atom) (evl : List Atom) : Except Err Thinnest :=
  find_thinnest_loop as dyn evl clauses SIZE_MAX 0 none none none curr []

/-! ## Pattern, variables and planner state -/

/-- The class `Variables`, as far as the planner reads it. -/
structure Variables where
  varset : List Atom
  _simple_typemap : List (Atom × List AtomType)
  _deep_typemap : List (Atom × List Atom)
  deriving DecidableEq, Repr

/-- The class `Pattern`, as far as the planner reads it.  `addr` is the address
of the object: the planner compares `Pattern` pointers. -/
structure Pattern where
  addr : Nat
  mandatory : List Atom
  optionals : List Atom
  evaluatable_terms : List Atom
  evaluatable_holders : List Atom
  defined_terms : List Atom
  body : Handle
  deriving DecidableEq, Repr

/-- The members of `InitiateSearchCB` after `set_pattern`, together with the two
function-local statics `prev` and `count` of `setup_variable_search`. -/
structure InitiateSearchCB where
  _variables : Variables
  _pattern : Pattern
  _dynamic : List Atom
  _root : Handle
  _starter_term : Handle
  _curr_clause : Handle
  _choices : List Choice
  _search_set : List Atom
  prev : Option Nat
  count : Nat
  deriving DecidableEq, Repr

/-- The match engine: `pme.set_pattern(vars, pat)` followed by one of its two
entry points, acting on the state `σ` of the callback object `pmc`. -/
structure PatternMatchEngine (σ : Type) where
  explore_neighborhood : Variables → Pattern → Handle → Handle → Atom → σ → Bool × σ
  explore_constant_evaluatables : Variables → Pattern → List Atom → σ → Bool × σ

/-- The class `Quotation` (declared in `Quotation.h`, not among the sources),
as the operations `find_rarest` calls on a quotation state `Q`. -/
structure QuotationOps (Q : Type) where
  init : Q
  is_unquoted : Q → Bool
  consumable : Q → AtomType → Bool
  update : Q → AtomType → Q

/-- The collaborators of `jit_analyze` and `setup_variable_search` that are
declared outside the sources: `DefineLink::get_definition`, the `LambdaLink`
accessors, `Variables::find_variables` and `Variables::extend`,
`Substitutor::substitute`, `createPatternLink` (giving the variables and the
pattern of the new link) and `FindAtoms::least_holders` of `var` in `cl`. -/
structure Library where
  get_definition : Atom → Handle
  is_lambda : Atom → Bool
  lambda_variables : Atom → Variables
  lambda_body : Atom → Handle
  find_variables : Atom → Variables
  extend : Variables → Variables → Variables
  substitute : Handle → List (Atom × Handle) → Handle
  createPatternLink : Variables → Handle → Variables × Pattern
  least_holders : Atom → Atom → List Atom

/-! ## Neighbourhood strategy -/

/-- The loop of `setup_neighbor_search` that computes `try_optionals`. -/
def try_optionals (holders : List Atom) : List Atom → Bool
  | [] => true
  | m :: rest => if m ∉ holders then false else try_optionals holders rest

/-- The clause list `setup_neighbor_search` hands to `find_thinnest`. -/
def neighbor_clauses (pat : Pattern) : List Atom :=
  if try_optionals pat.evaluatable_holders pat.mandatory then pat.optionals else pat.mandatory

/-- The method `setup_neighbor_search()`. -/
def setup_neighbor_search (as : AtomSpace) (cb : InitiateSearchCB) :
    Except Err (Bool × InitiateSearchCB) :=
  if cb._pattern.mandatory.isEmpty ∧ cb._pattern.optionals.isEmpty then .ok (false, cb)
  else
    match find_thinnest as cb._dynamic cb._curr_clause (neighbor_clauses cb._pattern)
        cb._pattern.evaluatable_holders with
    | .error e => .error e
    | .ok th =>
      let cb1 := { cb with _starter_term := th.starter_term, _curr_clause := th.curr_clause,
                           _choices := th.choices }
      if th.best_start = none ∧ th.choices.length = 0 then .ok (false, cb1)
      else if th.choices.length = 0 then
        .ok (true, { cb1 with
          _choices := th.choices ++ [⟨th.bestclause, th.best_start, th.starter_term⟩] })
      else .ok (true, cb1)

/-! ## Search loop and choice driver -/

/-- The sequential `for (const Handle& h : _search_set)` loop of `search_loop`. -/
def search_loop_over {σ : Type} (eng : PatternMatchEngine σ) (vars : Variables)
    (pat : Pattern) (root starter : Handle) : List Atom → σ → Bool × σ
  | [], pmc => (false, pmc)
  | h :: rest, pmc =>
    match eng.explore_neighborhood vars pat root starter h pmc with
    | (true, pmc1) => (true, pmc1)
    | (false, pmc1) => search_loop_over eng vars pat root starter rest pmc1

/-- The method `search_loop(pmc, dbg_banner)`. -/
def search_loop {σ : Type} (eng : PatternMatchEngine σ) (cb : InitiateSearchCB) (pmc : σ) :
    Bool × σ :=
  search_loop_over eng cb._variables cb._pattern cb._root cb._starter_term cb._search_set pmc

/-- The `for (const Choice& ch : _choices)` loop of `choice_loop`. -/
def choice_loop_over {σ : Type} (as : AtomSpace) (eng : PatternMatchEngine σ) :
    List Choice → InitiateSearchCB → σ → Except Err (Bool × InitiateSearchCB × σ)
  | [], cb, pmc => .ok (false, cb, pmc)
  | ch :: rest, cb, pmc =>
    match ch.start_term, ch.best_start with
    | some st, some best_start =>
      let cb1 := { cb with _root := ch.clause, _starter_term := ch.start_term,
                           _search_set := as.get_incoming_set best_start st.get_type }
      match search_loop eng cb1 pmc with
      | (true, pmc1) => .ok (true, cb1, pmc1)
      | (false, pmc1) => choice_loop_over as eng rest cb1 pmc1
    | _, _ => .error .null_handle

/-- The method `choice_loop(pmc, dbg_banner)`. -/
def choice_loop {σ : Type} (as : AtomSpace) (eng : PatternMatchEngine σ)
    (cb : InitiateSearchCB) (pmc : σ) : Except Err (Bool × InitiateSearchCB × σ) :=
  choice_loop_over as eng cb._choices cb pmc

/-! ## No-search strategy -/

/-- The method `setup_no_search()`. -/
def setup_no_search (cb : InitiateSearchCB) : Bool :=
  decide (0 = cb._variables.varset.length)

/-! ## Link-type strategy -/

mutual
/-- The method `find_rarest(clause, rarest, count, quotation)`, returning the
reference parameters `rarest` and `count`. -/
def find_rarest {Q : Type} (as : AtomSpace) (qo : QuotationOps Q) :
    Atom → Handle → Nat → Q → Handle × Nat
  | .node _ _, rarest, count, _ => (rarest, count)
  | .link t out, rarest, count, quotation =>
    if qo.is_unquoted quotation ∧ LinkType.CHOICE_LINK = t then (rarest, count)
    else
      let num := as.get_num_atoms_of_type (.link t)
      let upd : Handle × Nat :=
        if ¬ qo.consumable quotation (.link t) = true ∧ num < count
        then (some (.link t out), num) else (rarest, count)
      find_rarest_loop as qo out upd.1 upd.2 (qo.update quotation (.link t))
/-- The `for (const Handle& h : oset)` loop of `find_rarest`. -/
def find_rarest_loop {Q : Type} (as : AtomSpace) (qo : QuotationOps Q) :
    List Atom → Handle → Nat → Q → Handle × Nat
  | [], rarest, count, _ => (rarest, count)
  | h :: rest, rarest, count, quotation =>
    let r := find_rarest as qo h rarest count quotation
    find_rarest_loop as qo rest r.1 r.2 quotation
end

/-- The `for (const Handle& cl: clauses)` loop of `setup_link_type_search`,
returning `_root`, `_starter_term` and `count`. -/
def link_type_loop {Q : Type} (as : AtomSpace) (qo : QuotationOps Q) (holders : List Atom) :
    List Atom → Handle → Handle → Nat → Handle × Handle × Nat
  | [], root, starter, count => (root, starter, count)
  | cl :: rest, root, starter, count =>
    if cl ∈ holders then link_type_loop as qo holders rest root starter count
    else
      let r := find_rarest as qo cl starter count qo.init
      if r.2 < count then link_type_loop as qo holders rest (some cl) r.1 r.2
      else link_type_loop as qo holders rest root r.1 r.2

/-- The method `setup_link_type_search()`. -/
def setup_link_type_search {Q : Type} (as : AtomSpace) (qo : QuotationOps Q)
    (cb : InitiateSearchCB) : Except Err (Bool × InitiateSearchCB) :=
  let r := link_type_loop as qo cb._pattern.evaluatable_holders cb._pattern.mandatory
    none none SIZE_MAX
  let cb1 := { cb with _root := r.1, _starter_term := r.2.1 }
  match r.1 with
  | none => .ok (false, cb1)
  | some _ =>
    match r.2.1 with
    | none => .error .null_handle
    | some st =>
      .ok (true, { cb1 with _search_set := cb1._search_set ++ as.get_handles_by_type st.get_type })

/-! ## Variable-type strategy -/

/-- The loop of `setup_variable_search` that computes
`all_clauses_are_evaluatable`. -/
def all_clauses_are_evaluatable (holders : List Atom) : List Atom → Bool
  | [] => true
  | cl :: rest => if cl ∈ holders then all_clauses_are_evaluatable holders rest else false

/-- The inner `for (const Handle& cl : clauses)` loop of
`setup_variable_search` for the variable `var`: the pair `(_root,
_starter_term)` assigned before its `break`, or `none` when the loop runs to
its end without assigning. -/
def variable_clause_loop (lib : Library) (all_evaluatable : Bool) (holders : List Atom)
    (var : Atom) : List Atom → Option (Handle × Handle)
  | [] => none
  | cl :: rest =>
    if ¬ all_evaluatable = true ∧ cl ∈ holders then
      variable_clause_loop lib all_evaluatable holders var rest
    else if cl = var then some (some cl, some cl)
    else if 0 < (lib.least_holders var cl).length then
      some (some cl, if all_evaluatable then some var else (lib.least_holders var cl).head?)
    else variable_clause_loop lib all_evaluatable holders var rest

/-- The value of `num` for a type set: the `size_t` sum of the populations. -/
def typeset_population (as : AtomSpace) (typeset : List AtomType) : Nat :=
  (typeset.map as.get_num_atoms_of_type).sum % (SIZE_MAX + 1)

/-- The values of `count`, `ptypes`, `_root` and `_starter_term` while
`setup_variable_search` looks for the rarest variable. -/
structure VarPick where
  count : Nat
  ptypes : List AtomType
  root : Handle
  starter_term : Handle
  deriving DecidableEq, Repr

/-- The `for (const Handle& var: _variables->varset)` loop of
`setup_variable_search`. -/
def variable_loop (as : AtomSpace) (lib : Library) (all_evaluatable : Bool)
    (vars : Variables) (pat : Pattern) : List Atom → VarPick → VarPick
  | [], st => st
  | var :: rest, st =>
    match vars._simple_typemap.lookup var with
    | none => variable_loop as lib all_evaluatable vars pat rest st
    | some typeset =>
      let num := typeset_population as typeset
      if 0 < num ∧ num < st.count then
        match variable_clause_loop lib all_evaluatable pat.evaluatable_holders var
            pat.mandatory with
        | some (root, starter) =>
          variable_loop as lib all_evaluatable vars pat rest ⟨num, typeset, root, starter⟩
        | none => variable_loop as lib all_evaluatable vars pat rest st
      else variable_loop as lib all_evaluatable vars pat rest st

/-- The loop of the degenerate path that looks for a mandatory clause which is
not an evaluatable holder. -/
def first_non_evaluatable (holders : List Atom) : List Atom → Handle
  | [] => none
  | m :: rest => if m ∉ holders then some m else first_non_evaluatable holders rest

/-- The atoms appended to `_search_set` at the end of `setup_variable_search`. -/
def variable_search_set (as : AtomSpace) (ptypes : List AtomType) : List Atom :=
  if ptypes.isEmpty then as.atoms
  else (ptypes.map as.get_handles_by_type).flatten

/-- The "terrible hack for detecting infinite loops" on the statics `prev`
and `count` (an `unsigned int`), entered with the pattern at address `addr`:
the new `prev`, the new `count`, and whether the exception is thrown. -/
def infinite_loop_guard (prev : Option Nat) (count : Nat) (addr : Nat) :
    Option Nat × Nat × Bool :=
  if prev ≠ some addr then (some addr, 0, false)
  else (prev, (count + 1) % 2 ^ 32, decide (300 < (count + 1) % 2 ^ 32))

/-- The method `setup_variable_search()`. -/
def setup_variable_search (as : AtomSpace) (lib : Library) (cb : InitiateSearchCB) :
    Except Err (Bool × InitiateSearchCB) :=
  let clauses := cb._pattern.mandatory
  let all_evaluatable := all_clauses_are_evaluatable cb._pattern.evaluatable_holders clauses
  let pick := variable_loop as lib all_evaluatable cb._variables cb._pattern
    cb._variables.varset ⟨SIZE_MAX, [], none, none⟩
  let cb1 := { cb with _root := pick.root, _starter_term := pick.starter_term }
  let finish (c : InitiateSearchCB) : Except Err (Bool × InitiateSearchCB) :=
    .ok (true, { c with _search_set := c._search_set ++ variable_search_set as pick.ptypes })
  match pick.root with
  | some _ => finish cb1
  | none =>
    let guarded : Except Err InitiateSearchCB :=
      if ¬ cb1._variables._deep_typemap.isEmpty = true then .ok cb1
      else
        let g := infinite_loop_guard cb1.prev cb1.count cb1._pattern.addr
        if g.2.2 then .error (.infinite_loop g.2.1)
        else .ok { cb1 with prev := g.1, count := g.2.1 }
    match guarded with
    | .error e => .error e
    | .ok cb2 =>
      if 0 = clauses.length then .ok (false, cb2)
      else
        match first_non_evaluatable cb2._pattern.evaluatable_holders cb2._pattern.mandatory with
        | some m => finish { cb2 with _root := some m, _starter_term := some m }
        | none =>
          match cb2._variables.varset.head? with
          | none => .error .no_variables
          | some some_var =>
            finish { cb2 with _root := clauses.head?, _starter_term := some some_var }

/-! ## Just-in-time expansion -/

/-- The `for (const Handle& name : _pattern->defined_terms)` loop of
`jit_analyze`, returning `vset` and `defnmap`. -/
def jit_definitions (lib : Library) :
    List Atom → Variables → List (Atom × Handle) → Variables × List (Atom × Handle)
  | [], vset, defnmap => (vset, defnmap)
  | name :: rest, vset, defnmap =>
    match lib.get_definition name with
    | none => jit_definitions lib rest vset defnmap
    | some defn =>
      let vset1 :=
        if lib.is_lambda defn then lib.extend vset (lib.lambda_variables defn)
        else lib.extend vset (lib.find_variables defn)
      let defn1 : Handle := if lib.is_lambda defn then lib.lambda_body defn else some defn
      let defnmap1 :=
        if (defnmap.lookup name).isSome then defnmap else defnmap ++ [(name, defn1)]
      jit_definitions lib rest vset1 defnmap1

/-- The `while (0 < _pattern->defined_terms.size())` loop of `jit_analyze`,
run for at most `fuel` rounds. -/
def jit_loop (lib : Library) : Nat → InitiateSearchCB → Except Err InitiateSearchCB
  | 0, cb => if 0 < cb._pattern.defined_terms.length then .error .out_of_fuel else .ok cb
  | fuel + 1, cb =>
    if 0 < cb._pattern.defined_terms.length then
      let d := jit_definitions lib cb._pattern.defined_terms ⟨[], [], []⟩ []
      let newbody := lib.substitute cb._pattern.body d.2
      let vset := lib.extend d.1 cb._variables
      let pl := lib.createPatternLink vset newbody
      jit_loop lib fuel { cb with _variables := pl.1, _pattern := pl.2 }
    else .ok cb

/-- The method `jit_analyze()`, its loop run for at most `fuel` rounds. -/
def jit_analyze (lib : Library) (fuel : Nat) (cb : InitiateSearchCB) :
    Except Err InitiateSearchCB :=
  if 0 = cb._pattern.defined_terms.length then .ok cb
  else
    match jit_loop lib fuel cb with
    | .error e => .error e
    | .ok cb1 => .ok { cb1 with _dynamic := cb1._pattern.evaluatable_terms }

/-! ## The strategy selector -/

/-- The method `initiate_search(pmc)`, with `fuel` bounding the rounds of
`jit_analyze`. -/
def initiate_search {σ Q : Type} (as : AtomSpace) (lib : Library) (qo : QuotationOps Q)
    (eng : PatternMatchEngine σ) (fuel : Nat) (cb : InitiateSearchCB) (pmc : σ) :
    Except Err (Bool × InitiateSearchCB × σ) :=
  match jit_analyze lib fuel cb with
  | .error e => .error e
  | .ok cb0 =>
    match setup_neighbor_search as cb0 with
    | .error e => .error e
    | .ok (true, cb1) => choice_loop as eng cb1 pmc
    | .ok (false, cb1) =>
      if setup_no_search cb1 then
        let r := eng.explore_constant_evaluatables cb1._variables cb1._pattern
          cb1._pattern.mandatory pmc
        .ok (r.1, cb1, r.2)
      else
        match setup_link_type_search as qo cb1 with
        | .error e => .error e
        | .ok (true, cb2) =>
          let r := search_loop eng cb2 pmc
          .ok (r.1, cb2, r.2)
        | .ok (false, cb2) =>
          match setup_variable_search as lib cb2 with
          | .error e => .error e
          | .ok (true, cb3) =>
            let r := search_loop eng cb3 pmc
            .ok (r.1, cb3, r.2)
          | .ok (false, cb3) => .ok (false, cb3, pmc)

/-! ## Vocabulary of the specification -/

/-- A non-variable, non-glob node. -/
def Atom.isConstantNode : Atom → Bool
  | .node t _ => t.isConstant
  | .link _ _ => false

/-- The atom the loop of `find_starter_recursive` recurses into for the
outgoing atom `hunt`: `hunt` itself, or `hunt->getOutgoingAtom(0)` when `hunt`
is a quotation link; `none` when that call throws. -/
def hunt_target : Atom → Option Atom
  | .node t n => some (.node t n)
  | .link qt [] => if is_quotation_type qt then none else some (.link qt [])
  | .link qt (g :: gs) => if is_quotation_type qt then some g else some (.link qt (g :: gs))

mutual
/-- Every term occurring in an atom, the atom itself included. -/
def Atom.subterms : Atom → List Atom
  | .node t n => [.node t n]
  | .link t out => .link t out :: Atom.subtermsOut out
/-- Every term occurring in one of the atoms of an outgoing set. -/
def Atom.subtermsOut : List Atom → List Atom
  | [] => []
  | c :: rest => Atom.subterms c ++ Atom.subtermsOut rest
end

mutual
/-- The constant nodes occurring in an atom that sits at nesting depth `d`,
each with its own nesting depth (the number of links enclosing it). -/
def Atom.constantsAt : Atom → Nat → List (Atom × Nat)
  | .node t n, d => if t.isConstant then [(.node t n, d)] else []
  | .link _ out, d => Atom.constantsOut out (d + 1)
/-- The constant nodes occurring in the atoms of an outgoing set at depth `d`. -/
def Atom.constantsOut : List Atom → Nat → List (Atom × Nat)
  | [], _ => []
  | c :: rest, d => Atom.constantsAt c d ++ Atom.constantsOut rest d
end

/-- The atom is a choice link. -/
def Atom.isChoice : Atom → Bool
  | .link .CHOICE_LINK _ => true
  | _ => false

/-- The atom is a quotation link. -/
def Atom.isQuotation : Atom → Bool
  | .link t _ => is_quotation_type t
  | .node _ _ => false

/-- The atom is a quotation link with an empty outgoing set. -/
def Atom.isEmptyQuotation : Atom → Bool
  | .link t [] => is_quotation_type t
  | _ => false

/-- A clause with no choice link, no quotation link and no evaluatable
sub-term. -/
def Plain (dyn : List Atom) (h : Atom) : Prop :=
  ∀ x ∈ h.subterms, x ∉ dyn ∧ x.isChoice = false ∧ x.isQuotation = false

instance (dyn : List Atom) (h : Atom) : Decidable (Plain dyn h) := by
  unfold Plain
  infer_instance

/-- `Candidate dyn h d s ds`: the constant node `s` is met at depth `ds` by the
starter finder entered at `h` with depth `d`, along a path that enters no
evaluatable link and no choice link and that passes a quotation link in an
outgoing set by stepping to its first outgoing atom. -/
inductive Candidate (dyn : List Atom) : Atom → Nat → Atom → Nat → Prop
  | node (t : NodeType) (n : String) (d : Nat) :
      t.isConstant = true → Candidate dyn (.node t n) d (.node t n) d
  | link (t : LinkType) (out : List Atom) (d : Nat) (hunt g s : Atom) (ds : Nat) :
      Atom.link t out ∉ dyn → t ≠ .CHOICE_LINK → hunt ∈ out → hunt_target hunt = some g →
      Candidate dyn g (d + 1) s ds → Candidate dyn (.link t out) d s ds

/-- `Reached dyn h s`: the constant node `s` is met by the starter finder
entered at `h`, along a path that enters no evaluatable link (choice links
allowed) and that passes a quotation link in an outgoing set by stepping to its
first outgoing atom. -/
inductive Reached (dyn : List Atom) : Atom → Atom → Prop
  | node (t : NodeType) (n : String) :
      t.isConstant = true → Reached dyn (.node t n) (.node t n)
  | link (t : LinkType) (out : List Atom) (hunt g s : Atom) :
      Atom.link t out ∉ dyn → hunt ∈ out → hunt_target hunt = some g →
      Reached dyn g s → Reached dyn (.link t out) s

/-- `Usable dyn h s`: `s` is a non-variable, non-glob node reachable from the
root `h` without descending into a link of the evaluatable-terms set. -/
inductive Usable (dyn : List Atom) : Atom → Atom → Prop
  | node (t : NodeType) (n : String) :
      t.isConstant = true → Usable dyn (.node t n) (.node t n)
  | link (t : LinkType) (out : List Atom) (c s : Atom) :
      Atom.link t out ∉ dyn → c ∈ out → Usable dyn c s → Usable dyn (.link t out) s

/-- No quotation link occurring in `h` has an empty outgoing set. -/
def QuotesFilled (h : Atom) : Prop :=
  ∀ x ∈ h.subterms, x.isEmptyQuotation = false

instance (h : Atom) : Decidable (QuotesFilled h) := by
  unfold QuotesFilled
  infer_instance

/-- `(w1, d1)` is at least as good a starter cost as `(w2, d2)`: thinner, or
equally thin and at least as deep. -/
def AtLeastAsGood (w1 d1 w2 d2 : Nat) : Prop :=
  w1 < w2 ∨ (w1 = w2 ∧ d2 ≤ d1)

/-- The records a choice link appends for one branch whose search left `br`:
the records that search appended itself, then one record for the branch when
the search returned a starter. -/
def branch_records (curr : Handle) (br : Found) : List Choice :=
  br.choices ++
    (match br.ret with
     | some s => [⟨curr, some s, br.startrm⟩]
     | none => [])

/-- The engine, entered through `explore_neighborhood` with `root` and
`starter` fixed, rejects the candidates of the list one after the other, which
takes the callback state from `pmc` to `pmc1`. -/
def rejects_all {σ : Type} (eng : PatternMatchEngine σ) (vars : Variables) (pat : Pattern)
    (root starter : Handle) : List Atom → σ → σ → Prop
  | [], pmc, pmc1 => pmc1 = pmc
  | h :: rest, pmc, pmc1 =>
    (eng.explore_neighborhood vars pat root starter h pmc).1 = false ∧
    rejects_all eng vars pat root starter rest
      (eng.explore_neighborhood vars pat root starter h pmc).2 pmc1

/-- The search set of a choice with defined handles: the links in the incoming
set of `best_start` whose type equals the type of `start_term`. -/
def choice_search_set (as : AtomSpace) (best_start start_term : Atom) : List Atom :=
  (as.getIncomingSet best_start).filter (fun l => decide (l.get_type = start_term.get_type))

/-- Every choice of the list has defined handles and the engine rejects every
candidate of its search set, choice after choice, which takes the callback
state from `pmc` to `pmc1`. -/
def rejects_choices {σ : Type} (as : AtomSpace) (eng : PatternMatchEngine σ)
    (vars : Variables) (pat : Pattern) : List Choice → σ → σ → Prop
  | [], pmc, pmc1 => pmc1 = pmc
  | ch :: rest, pmc, pmc1 =>
    ∃ st bs mid, ch.start_term = some st ∧ ch.best_start = some bs ∧
      rejects_all eng vars pat ch.clause ch.start_term (choice_search_set as bs st) pmc mid ∧
      rejects_choices as eng vars pat rest mid pmc1

/-! ## The cascade of the specification -/

/-- One strategy of the cascade: its setup, and the driver that runs when the
setup succeeds. -/
structure Strategy (σ : Type) where
  setup : InitiateSearchCB → Except Err (Bool × InitiateSearchCB)
  driver : InitiateSearchCB → σ → Except Err (Bool × InitiateSearchCB × σ)

/-- The cascade in the words of the specification: try the strategies in the
order given, run the driver of the first one whose setup succeeds and nothing
after it, and report failure when every setup fails. -/
def first_strategy {σ : Type} :
    List (Strategy σ) → InitiateSearchCB → σ → Except Err (Bool × InitiateSearchCB × σ)
  | [], cb, pmc => .ok (false, cb, pmc)
  | s :: rest, cb, pmc =>
    match s.setup cb with
    | .error e => .error e
    | .ok (true, cb1) => s.driver cb1 pmc
    | .ok (false, cb1) => first_strategy rest cb1 pmc

/-- The neighbourhood strategy: `setup_neighbor_search`, driven by `choice_loop`. -/
def neighborhood_strategy {σ : Type} (as : AtomSpace) (eng : PatternMatchEngine σ) :
    Strategy σ :=
  ⟨setup_neighbor_search as, choice_loop as eng⟩

/-- The no-search strategy: `setup_no_search`, driven by
`explore_constant_evaluatables` over the mandatory clauses. -/
def no_search_strategy {σ : Type} (eng : PatternMatchEngine σ) : Strategy σ :=
  ⟨fun cb => .ok (setup_no_search cb, cb),
   fun cb pmc =>
    .ok ((eng.explore_constant_evaluatables cb._variables cb._pattern
            cb._pattern.mandatory pmc).1, cb,
         (eng.explore_constant_evaluatables cb._variables cb._pattern
            cb._pattern.mandatory pmc).2)⟩

/-- The link-type strategy: `setup_link_type_search`, driven by `search_loop`. -/
def link_type_strategy {σ Q : Type} (as : AtomSpace) (qo : QuotationOps Q)
    (eng : PatternMatchEngine σ) : Strategy σ :=
  ⟨setup_link_type_search as qo,
   fun cb pmc => .ok ((search_loop eng cb pmc).1, cb, (search_loop eng cb pmc).2)⟩

/-- The variable-type strategy: `setup_variable_search`, driven by `search_loop`. -/
def variable_type_strategy {σ : Type} (as : AtomSpace) (lib : Library)
    (eng : PatternMatchEngine σ) : Strategy σ :=
  ⟨setup_variable_search as lib,
   fun cb pmc => .ok ((search_loop eng cb pmc).1, cb, (search_loop eng cb pmc).2)⟩

/-- The outcome of the search for the rarest variable in
`setup_variable_search`: the values of `count`, `ptypes`, `_root` and
`_starter_term` when its loop over the variables ends. -/
def variable_pick (as : AtomSpace) (lib : Library) (cb : InitiateSearchCB) : VarPick :=
  variable_loop as lib
    (all_clauses_are_evaluatable cb._pattern.evaluatable_holders cb._pattern.mandatory)
    cb._variables cb._pattern cb._variables.varset ⟨SIZE_MAX, [], none, none⟩

/-- The variable `var` is, or has a least holder in, a mandatory clause that
`setup_variable_search` may start from (a clause that is not an evaluatable
holder, or any clause when all are). -/
def eligible_variable (lib : Library) (cb : InitiateSearchCB) (var : Atom) : Prop :=
  (variable_clause_loop lib
    (all_clauses_are_evaluatable cb._pattern.evaluatable_holders cb._pattern.mandatory)
    cb._pattern.evaluatable_holders var cb._pattern.mandatory).isSome = true

/-- What the link-type strategy needs of the class `Quotation` on patterns
without quotation links: a default-constructed quotation is unquoted, and a
link type that is not a quotation type is not consumable in that state and
leaves it unchanged. -/
def QuotationOps.Neutral {Q : Type} (qo : QuotationOps Q) : Prop :=
  qo.is_unquoted qo.init = true ∧
  ∀ t : LinkType, is_quotation_type t = false →
    qo.consumable qo.init (.link t) = false ∧ qo.update qo.init (.link t) = qo.init

/-- A term without quotation links. -/
def QuoteFree (h : Atom) : Prop :=
  ∀ x ∈ h.subterms, x.isQuotation = false

instance (h : Atom) : Decidable (QuoteFree h) := by
  unfold QuoteFree
  infer_instance

/-- `OutsideChoice h l`: `l` is a link occurring in `h` that is not a choice
link and does not lie inside a choice link. -/
inductive OutsideChoice : Atom → Atom → Prop
  | here (t : LinkType) (out : List Atom) :
      t ≠ .CHOICE_LINK → OutsideChoice (.link t out) (.link t out)
  | down (t : LinkType) (out : List Atom) (c l : Atom) :
      t ≠ .CHOICE_LINK → c ∈ out → OutsideChoice c l → OutsideChoice (.link t out) l

/-- The atom is a link. -/
def Atom.isLink : Atom → Bool
  | .link _ _ => true
  | .node _ _ => false

/-- `FinderPath h s p`: the starter finder entered at `h` can walk down to the
node `s`, and `p` lists, from the top, the links it enters on the way (`h`
itself when it is a link); a quotation link met in an outgoing set is not
entered, the walk continues in its first outgoing atom. -/
inductive FinderPath : Atom → Atom → List Atom → Prop
  | node (t : NodeType) (n : String) : FinderPath (.node t n) (.node t n) []
  | link (t : LinkType) (out : List Atom) (hunt g s : Atom) (p : List Atom) :
      hunt ∈ out → hunt_target hunt = some g → FinderPath g s p →
      FinderPath (.link t out) s (.link t out :: p)

/-- The quote link wrapping `c`: `(Quote c)`. -/
def quote_wrap (c : Atom) : Atom := .link .QUOTE_LINK [c]

/-- `QuoteWrap dyn h h2`: `h2` is `h` with one occurrence of a constant node
replaced by the quote link wrapping it, where the occurrence is an outgoing
atom of a link that is not a quotation link, and every link rewritten by the
replacement is a member of the evaluatable-terms set `dyn` after it exactly
when the link it replaces was before. -/
inductive QuoteWrap (dyn : List Atom) : Atom → Atom → Prop
  | here (t : LinkType) (pre post : List Atom) (nt : NodeType) (nn : String) :
      is_quotation_type t = false → nt.isConstant = true →
      (Atom.link t (pre ++ .node nt nn :: post) ∈ dyn ↔
        Atom.link t (pre ++ quote_wrap (.node nt nn) :: post) ∈ dyn) →
      QuoteWrap dyn (.link t (pre ++ .node nt nn :: post))
        (.link t (pre ++ quote_wrap (.node nt nn) :: post))
  | down (t : LinkType) (pre post : List Atom) (x x2 : Atom) :
      QuoteWrap dyn x x2 →
      (Atom.link t (pre ++ x :: post) ∈ dyn ↔ Atom.link t (pre ++ x2 :: post) ∈ dyn) →
      QuoteWrap dyn (.link t (pre ++ x :: post)) (.link t (pre ++ x2 :: post))

/-- What a call of the starter finder hands back to the selection: the
returned handle, the depth and the width. -/
def Found.key (b : Found) : Handle × Nat × Nat := (b.ret, b.depth, b.width)

/-- The outcome of a call of the starter finder as far as the selection of the
starter goes: the error, or the returned handle with depth and width. -/
def outcome (r : Except Err Found) : Except Err (Handle × Nat × Nat) :=
  r.map Found.key

/-- The recursive call the loop of `find_starter_recursive` makes for the
outgoing atom `hunt`. -/
def hunt_call (as : AtomSpace) (dyn : List Atom) (curr : Handle) (hunt : Atom) (d : Nat)
    (st : Handle) (w : Nat) (ch : List Choice) : Except Err Found :=
  match hunt_target hunt with
  | none => .error .invalid_outgoing_index
  | some g => find_starter_recursive as dyn curr g d st w ch

/-- The state of the planner after one round of the `while` loop of
`jit_analyze`: the body of that loop. -/
def jit_round (lib : Library) (cb : InitiateSearchCB) : InitiateSearchCB :=
  let d := jit_definitions lib cb._pattern.defined_terms ⟨[], [], []⟩ []
  let newbody := lib.substitute cb._pattern.body d.2
  let vset := lib.extend d.1 cb._variables
  let pl := lib.createPatternLink vset newbody
  { cb with _variables := pl.1, _pattern := pl.2 }

/-- The planner state `cb` with the deep type constraints of its variables
replaced by `dm`. -/
def with_deep_types (cb : InitiateSearchCB) (dm : List (Atom × List Atom)) :
    InitiateSearchCB :=
  { cb with _variables := { cb._variables with _deep_typemap := dm } }

/-- The clause `cl` is one `setup_variable_search` may start from: it is not
an evaluatable holder, or all mandatory clauses are. -/
def eligible_clause (cb : InitiateSearchCB) (cl : Atom) : Prop :=
  all_clauses_are_evaluatable cb._pattern.evaluatable_holders cb._pattern.mandatory = true ∨
    cl ∉ cb._pattern.evaluatable_holders

instance (cb : InitiateSearchCB) (cl : Atom) : Decidable (eligible_clause cb cl) := by
  unfold eligible_clause
  infer_instance

mutual
/-- Modelled from the spec: `FindAtoms` is not among the sources; the least
holders of `var` in a clause are the innermost links that hold it, that is the
links of the clause that have `var` in their outgoing set. -/
def least_holders_of (var : Atom) : Atom → List Atom
  | .node _ _ => []
  | .link t out =>
    (if var ∈ out then [Atom.link t out] else []) ++ least_holders_out var out
/-- The least holders of `var` in the atoms of an outgoing set. -/
def least_holders_out (var : Atom) : List Atom → List Atom
  | [] => []
  | c :: rest => least_holders_of var c ++ least_holders_out var rest
end

/-- The statics `prev` and `count` after the guarded path was entered with the
patterns at the addresses `entries`, one after the other, from the initial
statics `prev = nullptr`, `count = 0`. -/
def guard_state (entries : List Nat) : Option Nat × Nat :=
  entries.foldl (fun s a => ((infinite_loop_guard s.1 s.2 a).1, (infinite_loop_guard s.1 s.2 a).2.1))
    (none, 0)

/-- Whether the guard raises when the path is entered with the pattern at
`addr` after the entries `hist`. -/
def guard_raises (hist : List Nat) (addr : Nat) : Bool :=
  (infinite_loop_guard (guard_state hist).1 (guard_state hist).2 addr).2.2

/-- How many times in a row the path was entered with the pattern at `addr`
directly before the next entry: the length of the longest run of `addr` at the
end of `hist`.  An entry with `addr` after `hist` is the re-entry number
`reentries hist addr` with that pattern. -/
def reentries (hist : List Nat) (addr : Nat) : Nat :=
  (hist.reverse.takeWhile (fun a => decide (a = addr))).length

/-- The atom is a link with exactly one outgoing atom. -/
def Atom.isUnaryLink : Atom → Bool
  | .link _ [_] => true
  | _ => false

/-- Every quotation link occurring in `h` has exactly one outgoing atom: a
quote-wrapping link wraps its single child. -/
def QuotesUnary (h : Atom) : Prop :=
  ∀ x ∈ h.subterms, x.isQuotation = true → x.isUnaryLink = true

instance (h : Atom) : Decidable (QuotesUnary h) := by
  unfold QuotesUnary
  infer_instance

/-! ## Scenario data -/

/-- The node `(Predicate "blah")`. -/
def predBlah : Atom := .node (.other 1) "blah"

/-- The node `(Concept "item")`. -/
def conceptItem : Atom := .node (.other 0) "item"

/-- The node `(Variable "$x")`. -/
def varX : Atom := .node .VARIABLE_NODE "$x"

/-- The link `(List $x (Concept "item"))`. -/
def listXItem : Atom := .link (.other 0) [varX, conceptItem]

/-- The clause `(Eval (Pred "blah") (List $x (Concept "item")))`. -/
def evalBlah : Atom := .link (.other 1) [predBlah, listXItem]

/-- An incoming set with 10000 links on `Pred "blah"` and 3 on `Concept "item"`. -/
def incomingBlah (h : Atom) : List Atom :=
  if h = predBlah then List.replicate 10000 evalBlah
  else if h = conceptItem then List.replicate 3 listXItem
  else []

/-- A hypergraph with the incoming sets `incomingBlah`. -/
def spaceBlah : AtomSpace where
  atoms := []
  getIncomingSet := incomingBlah
  atoms_bound := by decide
  incoming_bound := by
    intro h
    unfold incomingBlah
    split
    · rw [List.length_replicate]; decide
    · split
      · rw [List.length_replicate]; decide
      · decide

/-- The node `(Concept "A")`. -/
def conceptA : Atom := .node (.other 0) "A"

/-- The node `(Concept "B")`. -/
def conceptB : Atom := .node (.other 0) "B"

/-- The link `(Choice (Concept "A") (Concept "B"))`. -/
def choiceAB : Atom := .link .CHOICE_LINK [conceptA, conceptB]

/-- The clause `(And (Choice (Concept "A") (Concept "B")) $x)`. -/
def andChoice : Atom := .link (.other 2) [choiceAB, varX]

/-- An incoming set with 7 links on `Concept "A"` and 2 on `Concept "B"`. -/
def incomingAB (h : Atom) : List Atom :=
  if h = conceptA then List.replicate 7 choiceAB
  else if h = conceptB then List.replicate 2 choiceAB
  else []

/-- A hypergraph with the incoming sets `incomingAB`. -/
def spaceAB : AtomSpace where
  atoms := []
  getIncomingSet := incomingAB
  atoms_bound := by decide
  incoming_bound := by
    intro h
    unfold incomingAB
    split
    · decide
    · split <;> decide

/-- The clause `(List $x (Concept "A"))`. -/
def listXA : Atom := .link (.other 0) [varX, conceptA]

/-- The node `(GroundedPredicate "f")`. -/
def gpnF : Atom := .node (.other 3) "f"

/-- The evaluatable clause `(Eval (GroundedPredicate "f") (List $x (Concept "B")))`. -/
def evalGpnB : Atom := .link (.other 1) [gpnF, .link (.other 0) [varX, conceptB]]

/-- A library without definitions, lambdas or holders. -/
def libEmpty : Library where
  get_definition := fun _ => none
  is_lambda := fun _ => false
  lambda_variables := fun _ => ⟨[], [], []⟩
  lambda_body := fun _ => none
  find_variables := fun _ => ⟨[], [], []⟩
  extend := fun a b => ⟨a.varset ++ b.varset, a._simple_typemap ++ b._simple_typemap,
    a._deep_typemap ++ b._deep_typemap⟩
  substitute := fun body _ => body
  createPatternLink := fun vars body => (vars, ⟨1, [], [], [], [], [], body⟩)
  least_holders := fun _ _ => []

/-- A quotation state that counts the quotation level. -/
def quotationLevel : QuotationOps Nat where
  init := 0
  is_unquoted := fun q => decide (q = 0)
  consumable := fun q t =>
    (decide (q = 0) && (decide (t = .link .QUOTE_LINK) || decide (t = .link .LOCAL_QUOTE_LINK)))
      || (decide (q = 1) && decide (t = .link .UNQUOTE_LINK))
  update := fun q t =>
    if t = .link .QUOTE_LINK then q + 1 else if t = .link .UNQUOTE_LINK then q - 1 else q

/-- A match engine whose callback state is the log of the candidates explored;
it accepts exactly the candidates listed in `good` and rejects the constant
evaluation. -/
def engineAccepting (good : List Atom) : PatternMatchEngine (List Atom) where
  explore_neighborhood := fun _ _ _ _ h log => (decide (h ∈ good), log ++ [h])
  explore_constant_evaluatables := fun _ _ _ log => (false, log)

/-- The planner state for the pattern with the single mandatory clause
`(And (Choice (Concept "A") (Concept "B")) $x)` and the variable `$x`. -/
def plannerAB : InitiateSearchCB where
  _variables := ⟨[varX], [], []⟩
  _pattern := ⟨0, [andChoice], [], [], [], [], some andChoice⟩
  _dynamic := []
  _root := none
  _starter_term := none
  _curr_clause := none
  _choices := []
  _search_set := []
  prev := none
  count := 0

/-- The link `(List (Concept "u") (Concept "A"))`. -/
def listUA : Atom := .link (.other 0) [.node (.other 0) "u", conceptA]

/-- The link `(List (Concept "v") (Concept "A"))`. -/
def listVA : Atom := .link (.other 0) [.node (.other 0) "v", conceptA]

/-- An incoming set of `Concept "A"` holding two List links and a Choice link. -/
def incomingList (h : Atom) : List Atom :=
  if h = conceptA then [listUA, choiceAB, listVA] else []

/-- A hypergraph with the incoming sets `incomingList`. -/
def spaceList : AtomSpace where
  atoms := [conceptA, listUA, listVA, choiceAB]
  getIncomingSet := incomingList
  atoms_bound := by decide
  incoming_bound := by
    intro h
    unfold incomingList
    split <;> decide

/-- The planner state for the pattern with the single mandatory clause
`(List $x (Concept "A"))`, after the neighbourhood setup. -/
def plannerList : InitiateSearchCB where
  _variables := ⟨[varX], [], []⟩
  _pattern := ⟨0, [listXA], [], [], [], [], some listXA⟩
  _dynamic := []
  _root := none
  _starter_term := some listXA
  _curr_clause := some listXA
  _choices := [⟨some listXA, some conceptA, some listXA⟩]
  _search_set := []
  prev := none
  count := 0

/-- The constant evaluatable clause `(Eval (GroundedPredicate "f") (List (Concept "B")))`. -/
def evalConstant : Atom := .link (.other 1) [gpnF, .link (.other 0) [conceptB]]

/-- The planner state for the pattern without variables whose single mandatory
clause is the evaluatable `evalConstant`. -/
def plannerConstant : InitiateSearchCB where
  _variables := ⟨[], [], []⟩
  _pattern := ⟨0, [evalConstant], [], [evalConstant], [evalConstant], [], some evalConstant⟩
  _dynamic := [evalConstant]
  _root := none
  _starter_term := none
  _curr_clause := none
  _choices := []
  _search_set := []
  prev := none
  count := 0

/-- The node `(DefinedPredicate "DN")`. -/
def definedDN : Atom := .node (.other 4) "DN"

/-- The node `(Concept "C")`. -/
def conceptC : Atom := .node (.other 0) "C"

/-- The link `(Present (Concept "C"))`, the definition body of `DN`. -/
def presentC : Atom := .link (.other 6) [conceptC]

/-- A library in which `DN` is defined as `(Present (Concept "C"))`: substitution
replaces a body that is `DN` by its definition, and the pattern link built from
a body lists `DN` as defined term exactly when the body is `DN`. -/
def libDefined : Library where
  get_definition := fun name => if name = definedDN then some presentC else none
  is_lambda := fun _ => false
  lambda_variables := fun _ => ⟨[], [], []⟩
  lambda_body := fun _ => none
  find_variables := fun _ => ⟨[], [], []⟩
  extend := fun a b => ⟨a.varset ++ b.varset, a._simple_typemap ++ b._simple_typemap,
    a._deep_typemap ++ b._deep_typemap⟩
  substitute := fun body map =>
    match body with
    | some b => (match map.lookup b with
                 | some d => d
                 | none => some b)
    | none => none
  createPatternLink := fun vars body =>
    (vars, ⟨1, body.toList, [], [], [],
      if body = some definedDN then [definedDN] else [], body⟩)
  least_holders := fun _ _ => []

/-- The planner state for the pattern whose body is the defined term `DN`. -/
def plannerDefined : InitiateSearchCB where
  _variables := ⟨[], [], []⟩
  _pattern := ⟨0, [definedDN], [], [], [], [definedDN], some definedDN⟩
  _dynamic := []
  _root := none
  _starter_term := none
  _curr_clause := none
  _choices := []
  _search_set := []
  prev := none
  count := 0

/-- The type ConceptNode. -/
def conceptType : AtomType := .node (.other 0)

/-- The type PredicateNode. -/
def predicateType : AtomType := .node (.other 1)

/-- The node `(Variable "$y")`. -/
def varY : Atom := .node .VARIABLE_NODE "$y"

/-- A hypergraph holding five ConceptNodes and two PredicateNodes, with empty
incoming sets. -/
def spaceFive : AtomSpace where
  atoms := [.node (.other 0) "c1", .node (.other 1) "p1", .node (.other 0) "c2",
    .node (.other 0) "c3", .node (.other 1) "p2", .node (.other 0) "c4",
    .node (.other 0) "c5"]
  getIncomingSet := fun _ => []
  atoms_bound := by decide
  incoming_bound := by
    intro h
    show (0 : Nat) < SIZE_MAX
    decide

/-- The planner state for the pattern whose only clause is the variable `$x`,
restricted to ConceptNode. -/
def plannerTyped : InitiateSearchCB where
  _variables := ⟨[varX], [(varX, [conceptType])], []⟩
  _pattern := ⟨0, [varX], [], [], [], [], some varX⟩
  _dynamic := []
  _root := none
  _starter_term := none
  _curr_clause := none
  _choices := []
  _search_set := []
  prev := none
  count := 0

/-- The planner state for the pattern with the mandatory clause `$x`
(ConceptNode) and the optional clause `$y` (PredicateNode). -/
def plannerTwoVars : InitiateSearchCB where
  _variables := ⟨[varX, varY], [(varX, [conceptType]), (varY, [predicateType])], []⟩
  _pattern := ⟨0, [varX], [varY], [], [], [], none⟩
  _dynamic := []
  _root := none
  _starter_term := none
  _curr_clause := none
  _choices := []
  _search_set := []
  prev := none
  count := 0

/-- The clause `(Similarity $x $y)`: no constant in it. -/
def linkXY : Atom := .link (.other 7) [varX, varY]

/-- The Similarity link of A and B. -/
def linkAB : Atom := .link (.other 7) [conceptA, conceptB]

/-- The Similarity link of B and A. -/
def linkBA : Atom := .link (.other 7) [conceptB, conceptA]

/-- A hypergraph holding `Concept "A"`, `Concept "B"` and the two Similarity
links between them. -/
def spaceLinks : AtomSpace where
  atoms := [conceptA, conceptB, linkAB, linkBA]
  getIncomingSet := fun h =>
    if h = conceptA ∨ h = conceptB then [linkAB, linkBA] else []
  atoms_bound := by decide
  incoming_bound := by
    intro h
    show (if h = conceptA ∨ h = conceptB then [linkAB, linkBA] else []).length < SIZE_MAX
    split <;> decide

/-- The planner state for the pattern with the single mandatory clause
`(Similarity $x $y)`. -/
def plannerLink : InitiateSearchCB where
  _variables := ⟨[varX, varY], [], []⟩
  _pattern := ⟨0, [linkXY], [], [], [], [], some linkXY⟩
  _dynamic := []
  _root := none
  _starter_term := none
  _curr_clause := none
  _choices := []
  _search_set := []
  prev := none
  count := 0

/-- The clause `(Member $x (Concept "A"))`. -/
def memberXA : Atom := .link (.other 5) [varX, conceptA]

/-- The planner state for the pattern with the single mandatory clause
`(Member $x (Concept "A"))`. -/
def plannerMember : InitiateSearchCB where
  _variables := ⟨[varX], [], []⟩
  _pattern := ⟨0, [memberXA], [], [], [], [], some memberXA⟩
  _dynamic := []
  _root := none
  _starter_term := none
  _curr_clause := none
  _choices := []
  _search_set := []
  prev := none
  count := 0

/-- The clause `(List (Choice (Concept "A") (Concept "B")) $x)`. -/
def listChoiceX : Atom := .link (.other 0) [choiceAB, varX]

/-- The planner state for the pattern with the single mandatory clause
`(List (Choice (Concept "A") (Concept "B")) $x)`. -/
def plannerListChoice : InitiateSearchCB where
  _variables := ⟨[varX], [], []⟩
  _pattern := ⟨0, [listChoiceX], [], [], [], [], some listChoiceX⟩
  _dynamic := []
  _root := none
  _starter_term := none
  _curr_clause := none
  _choices := []
  _search_set := []
  prev := none
  count := 0

/-- The quotation link `(Quote (Concept "A"))`. -/
def quoteA : Atom := .link .QUOTE_LINK [conceptA]

/-- The clause `(List $x (Quote (Concept "A")))`. -/
def listXQuoteA : Atom := .link (.other 0) [varX, quoteA]

/-- The planner state for the pattern whose single mandatory clause is the bare
node `(Concept "A")`. -/
def plannerNode : InitiateSearchCB where
  _variables := ⟨[varX], [], []⟩
  _pattern := ⟨0, [conceptA], [], [], [], [], some conceptA⟩
  _dynamic := []
  _root := none
  _starter_term := none
  _curr_clause := none
  _choices := []
  _search_set := []
  prev := none
  count := 0

/-- The clause `(List (Concept "A") (Quote (Concept "B")))`. -/
def listAQuoteB : Atom := .link (.other 0) [conceptA, quote_wrap conceptB]

/-- The clause `(List (Concept "A") (Quote (Quote (Concept "B"))))`: the clause
`listAQuoteB` with the occurrence of `(Concept "B")` wrapped in a quote link. -/
def listAQuoteQuoteB : Atom := .link (.other 0) [conceptA, quote_wrap (quote_wrap conceptB)]

/-- The clause `(Similarity (Concept "A") (Quote (Concept "B")))`: the link
`linkAB` with the occurrence of `(Concept "B")` wrapped in a quote link. -/
def linkAQuoteB : Atom := .link (.other 7) [conceptA, quote_wrap conceptB]

mutual
/-- The term `h` with every occurrence of a name of `map` replaced by the
definition `map` gives for it. -/
def substitute_atom (map : List (Atom × Handle)) : Atom → Atom
  | .node t n =>
    match map.lookup (.node t n) with
    | some (some d) => d
    | _ => .node t n
  | .link t out => .link t (substitute_out map out)
/-- The outgoing set `out` with the names of `map` replaced. -/
def substitute_out (map : List (Atom × Handle)) : List Atom → List Atom
  | [] => []
  | c :: rest => substitute_atom map c :: substitute_out map rest
end

/-- The link `(And (DefinedPredicate "DN") (Concept "C"))`: a definition body
that holds the defined term `DN` itself. -/
def andSelf : Atom := .link (.other 2) [definedDN, conceptC]

/-- A library in which `DN` is defined as `(And DN (Concept "C"))`, a directly
self-referential definition: substitution replaces every occurrence of a
defined name in the body by its definition, and the pattern link built from a
body lists `DN` as defined term exactly when `DN` occurs in the body. -/
def libSelf : Library where
  get_definition := fun name => if name = definedDN then some andSelf else none
  is_lambda := fun _ => false
  lambda_variables := fun _ => ⟨[], [], []⟩
  lambda_body := fun _ => none
  find_variables := fun _ => ⟨[], [], []⟩
  extend := fun a b => ⟨a.varset ++ b.varset, a._simple_typemap ++ b._simple_typemap,
    a._deep_typemap ++ b._deep_typemap⟩
  substitute := fun body map => body.map (substitute_atom map)
  createPatternLink := fun vars body =>
    (vars, ⟨1, body.toList, [], [], [],
      match body with
      | some b => if definedDN ∈ b.subterms then [definedDN] else []
      | none => [],
      body⟩)
  least_holders := fun _ _ => []

/-- The planner state for the pattern whose single mandatory clause is the
choice link `(Choice (Concept "A") (Concept "B"))`. -/
def plannerChoiceRoot : InitiateSearchCB where
  _variables := ⟨[varX], [], []⟩
  _pattern := ⟨0, [choiceAB], [], [], [], [], some choiceAB⟩
  _dynamic := []
  _root := none
  _starter_term := none
  _curr_clause := none
  _choices := []
  _search_set := []
  prev := none
  count := 0

/-- The planner state for the pattern whose only clause is the variable `$x`,
restricted to ConceptNode and carrying in addition the deep type
`(List $x (Concept "A"))`. -/
def plannerDeep : InitiateSearchCB where
  _variables := ⟨[varX], [(varX, [conceptType])], [(varX, [listXA])]⟩
  _pattern := ⟨0, [varX], [], [], [], [], some varX⟩
  _dynamic := []
  _root := none
  _starter_term := none
  _curr_clause := none
  _choices := []
  _search_set := []
  prev := none
  count := 0

/-- The clause `(Choice $x $y)`: a choice link that holds nothing but variables. -/
def choiceXY : Atom := .link .CHOICE_LINK [varX, varY]

/-- A library without definitions whose least holders are the links that hold
the variable in their outgoing set. -/
def libHolders : Library where
  get_definition := fun _ => none
  is_lambda := fun _ => false
  lambda_variables := fun _ => ⟨[], [], []⟩
  lambda_body := fun _ => none
  find_variables := fun _ => ⟨[], [], []⟩
  extend := fun a b => ⟨a.varset ++ b.varset, a._simple_typemap ++ b._simple_typemap,
    a._deep_typemap ++ b._deep_typemap⟩
  substitute := fun body _ => body
  createPatternLink := fun vars body => (vars, ⟨1, [], [], [], [], [], body⟩)
  least_holders := least_holders_of

/-- The planner state for the pattern with the mandatory clauses
`(Choice $x $y)` and `$x`, in this order, `$x` restricted to ConceptNode. -/
def plannerChoiceVar : InitiateSearchCB where
  _variables := ⟨[varX, varY], [(varX, [conceptType])], []⟩
  _pattern := ⟨0, [choiceXY, varX], [], [], [], [], none⟩
  _dynamic := []
  _root := none
  _starter_term := none
  _curr_clause := none
  _choices := []
  _search_set := []
  prev := none
  count := 0

/-- The planner state for the pattern with the mandatory clauses `$x` and
`(Choice $x $y)`, in this order, `$x` restricted to ConceptNode. -/
def plannerVarChoice : InitiateSearchCB where
  _variables := ⟨[varX, varY], [(varX, [conceptType])], []⟩
  _pattern := ⟨0, [varX, choiceXY], [], [], [], [], none⟩
  _dynamic := []
  _root := none
  _starter_term := none
  _curr_clause := none
  _choices := []
  _search_set := []
  prev := none
  count := 0

/-- The type of a node type without atoms in `spaceFive`. -/
def emptyType : AtomType := .node (.other 9)

/-- The planner state for the pattern whose only clause is the variable `$x`,
restricted to a type without atoms, entered when the statics of the guard hold
the same pattern and the count 300. -/
def plannerZero : InitiateSearchCB where
  _variables := ⟨[varX], [(varX, [emptyType])], []⟩
  _pattern := ⟨0, [varX], [], [], [], [], some varX⟩
  _dynamic := []
  _root := none
  _starter_term := none
  _curr_clause := none
  _choices := []
  _search_set := []
  prev := some 0
  count := 300

/-- The planner state for the pattern with the single mandatory clause
`(List $x (Quote (Concept "A")))`, whose quote link `(Quote (Concept "A"))` is a
member of the evaluatable-terms set. -/
def plannerQuoteEval : InitiateSearchCB where
  _variables := ⟨[varX], [], []⟩
  _pattern := ⟨0, [listXQuoteA], [], [quoteA], [], [], some listXQuoteA⟩
  _dynamic := [quoteA]
  _root := none
  _starter_term := none
  _curr_clause := none
  _choices := []
  _search_set := []
  prev := none
  count := 0

/-! ## The starter finder: unfolding and induction -/

theorem find_starter_loop_cons (as : AtomSpace) (dyn : List Atom) (curr : Handle)
    (h : Atom) (t : LinkType) (depth : Nat) (hunt : Atom) (rest : List Atom)
    (deepest : Nat) (hdeepest : Handle) (thinnest : Nat) (startrm : Handle)
    (choices : List Choice) :
    find_starter_loop as dyn curr h t depth (hunt :: rest) deepest hdeepest thinnest startrm
        choices =
      match hunt_target hunt with
      | none => .error .invalid_outgoing_index
      | some g =>
        match find_starter_recursive as dyn curr g (depth + 1)
            (if LinkType.CHOICE_LINK ≠ t then some h else startrm) SIZE_MAX choices with
        | .error e => .error e
        | .ok b =>
          match b.ret with
          | none =>
            find_starter_loop as dyn curr h t depth rest deepest hdeepest thinnest startrm
              b.choices
          | some s =>
            if LinkType.CHOICE_LINK = t then
              find_starter_loop as dyn curr h t depth rest deepest hdeepest thinnest startrm
                (b.choices ++ [⟨curr, some s, b.startrm⟩])
            else if b.width < thinnest ∨ (b.width = thinnest ∧ deepest < b.depth) then
              find_starter_loop as dyn curr h t depth rest b.depth (some s) b.width b.startrm
                b.choices
            else
              find_starter_loop as dyn curr h t depth rest deepest hdeepest thinnest startrm
                b.choices := by
  cases hunt with
  | node nt nn => rw [find_starter_loop]; simp only [hunt_target]
  | link qt o =>
    cases o with
    | nil =>
      rw [find_starter_loop]
      by_cases hq : is_quotation_type qt = true <;> simp [hunt_target, hq]
    | cons g gs =>
      rw [find_starter_loop]
      by_cases hq : is_quotation_type qt = true <;> simp [hunt_target, hq]

mutual
theorem target_induct_atom (P : Atom → Prop) (hn : ∀ t n, P (.node t n))
    (hl : ∀ t out, (∀ hunt ∈ out, ∀ g, hunt_target hunt = some g → P g) → P (.link t out)) :
    ∀ h, P h
  | .node t n => hn t n
  | .link t out => hl t out (target_induct_out P hn hl out)
theorem target_induct_out (P : Atom → Prop) (hn : ∀ t n, P (.node t n))
    (hl : ∀ t out, (∀ hunt ∈ out, ∀ g, hunt_target hunt = some g → P g) → P (.link t out)) :
    ∀ (l : List Atom), ∀ hunt ∈ l, ∀ g, hunt_target hunt = some g → P g
  | [], _, hm, _, _ => absurd hm (List.not_mem_nil _)
  | .node t n :: rest, x, hm, g, hg => by
    rcases List.mem_cons.1 hm with e | hm2
    · subst e
      simp only [hunt_target, Option.some.injEq] at hg
      subst hg
      exact hn t n
    · exact target_induct_out P hn hl rest x hm2 g hg
  | .link qt [] :: rest, x, hm, g, hg => by
    rcases List.mem_cons.1 hm with e | hm2
    · subst e
      by_cases hq : is_quotation_type qt = true
      · simp [hunt_target, hq] at hg
      · simp [hunt_target, hq] at hg
        subst hg
        exact hl qt [] (fun _ hx => absurd hx (List.not_mem_nil _))
    · exact target_induct_out P hn hl rest x hm2 g hg
  | .link qt (c :: cs) :: rest, x, hm, g, hg => by
    rcases List.mem_cons.1 hm with e | hm2
    · subst e
      by_cases hq : is_quotation_type qt = true
      · simp [hunt_target, hq] at hg
        subst hg
        exact target_induct_atom P hn hl c
      · simp [hunt_target, hq] at hg
        subst hg
        exact target_induct_atom P hn hl (.link qt (c :: cs))
    · exact target_induct_out P hn hl rest x hm2 g hg
end


theorem find_starter_loop_sound (as : AtomSpace) (dyn : List Atom) (curr : Handle)
    (t : LinkType) (out : List Atom) (depth : Nat) (hdyn : Atom.link t out ∉ dyn) :
    ∀ rest : List Atom, (∀ x ∈ rest, x ∈ out) →
    (∀ hunt ∈ rest, ∀ g, hunt_target hunt = some g →
      ∀ d st w ch b, find_starter_recursive as dyn curr g d st w ch = .ok b →
        ∀ s, b.ret = some s → s.isConstantNode = true ∧ b.width = as.getIncomingSetSize s ∧
          Candidate dyn g d s b.depth) →
    ∀ deepest hdeepest thinnest startrm choices b,
      find_starter_loop as dyn curr (.link t out) t depth rest deepest hdeepest thinnest
        startrm choices = .ok b →
      (b.ret = hdeepest ∧ b.width = thinnest ∧ b.depth = deepest) ∨
      (∃ s, b.ret = some s ∧ s.isConstantNode = true ∧ b.width = as.getIncomingSetSize s ∧
        Candidate dyn (.link t out) depth s b.depth) := by
  intro rest
  induction rest with
  | nil =>
    intro _ _ deepest hdeepest thinnest startrm choices b hb
    rw [find_starter_loop] at hb
    injection hb with hb
    subst hb
    exact Or.inl ⟨rfl, rfl, rfl⟩
  | cons hunt rest ihr =>
    intro hsub ih deepest hdeepest thinnest startrm choices b hb
    have hsub2 : ∀ x ∈ rest, x ∈ out := fun x hx => hsub x (List.mem_cons_of_mem _ hx)
    have ih2 := fun x hx => ih x (List.mem_cons_of_mem _ hx)
    rw [find_starter_loop_cons] at hb
    split at hb
    · cases hb
    · rename_i g hg
      split at hb
      · cases hb
      · rename_i br hbr
        split at hb
        · exact ihr hsub2 ih2 _ _ _ _ _ _ hb
        · rename_i s hs
          split_ifs at hb with hc hsel
          · exact ihr hsub2 ih2 _ _ _ _ _ _ hb
          · rcases ihr hsub2 ih2 _ _ _ _ _ _ hb with ⟨h1, h2, h3⟩ | h4
            · right
              have hg2 := ih hunt (List.mem_cons_self _ _) g hg _ _ _ _ _ hbr s hs
              refine ⟨s, h1, hg2.1, ?_, ?_⟩
              · rw [h2]; exact hg2.2.1
              · rw [h3]
                exact Candidate.link t out depth hunt g s br.depth hdyn (fun e => hc e.symm)
                  (hsub hunt (List.mem_cons_self _ _)) hg hg2.2.2
            · exact Or.inr h4
          · exact ihr hsub2 ih2 _ _ _ _ _ _ hb

theorem find_starter_recursive_sound (as : AtomSpace) (dyn : List Atom) (curr : Handle) :
    ∀ (h : Atom) (d : Nat) (st : Handle) (w : Nat) (ch : List Choice) (b : Found),
      find_starter_recursive as dyn curr h d st w ch = .ok b →
      ∀ s, b.ret = some s → s.isConstantNode = true ∧ b.width = as.getIncomingSetSize s ∧
        Candidate dyn h d s b.depth := by
  intro h
  induction h using target_induct_atom with
  | hn t n =>
    intro d st w ch b hb s hs
    rw [find_starter_recursive] at hb
    split_ifs at hb with hc
    · injection hb with hb
      subst hb
      simp only [Option.some.injEq] at hs
      subst hs
      exact ⟨hc, rfl, Candidate.node t n d hc⟩
    · injection hb with hb
      subst hb
      cases hs
  | hl t out ih =>
    intro d st w ch b hb s hs
    rw [find_starter_recursive] at hb
    split_ifs at hb with hdyn
    · injection hb with hb
      subst hb
      cases hs
    · rcases find_starter_loop_sound as dyn curr t out d hdyn out (fun _ hx => hx) ih
        _ _ _ _ _ _ hb with ⟨h1, _, _⟩ | ⟨s2, h1, h2, h3, h4⟩
      · rw [h1] at hs; cases hs
      · rw [h1] at hs
        injection hs with hs
        subst hs
        exact ⟨h2, h3, h4⟩

/-! ## Facts about candidates -/

theorem AtLeastAsGood_refl (w d : Nat) : AtLeastAsGood w d w d :=
  Or.inr ⟨rfl, Nat.le_refl d⟩

theorem AtLeastAsGood_trans {w1 d1 w2 d2 w3 d3 : Nat} (h12 : AtLeastAsGood w1 d1 w2 d2)
    (h23 : AtLeastAsGood w2 d2 w3 d3) : AtLeastAsGood w1 d1 w3 d3 := by
  unfold AtLeastAsGood at *
  omega

theorem Candidate_depth_le {dyn : List Atom} {h : Atom} {d : Nat} {s : Atom} {ds : Nat}
    (hc : Candidate dyn h d s ds) : d ≤ ds := by
  induction hc with
  | node t n d _ => exact Nat.le_refl d
  | link t out d hunt g s ds _ _ _ _ _ ih => omega

theorem Candidate_isConstantNode {dyn : List Atom} {h : Atom} {d : Nat} {s : Atom} {ds : Nat}
    (hc : Candidate dyn h d s ds) : s.isConstantNode = true := by
  induction hc with
  | node t n d hk => exact hk
  | link t out d hunt g s ds _ _ _ _ _ ih => exact ih

theorem Candidate_reached {dyn : List Atom} {h : Atom} {d : Nat} {s : Atom} {ds : Nat}
    (hc : Candidate dyn h d s ds) : Reached dyn h s := by
  induction hc with
  | node t n d hk => exact Reached.node t n hk
  | link t out d hunt g s ds h1 _ h3 h4 _ ih => exact Reached.link t out hunt g s h1 h3 h4 ih

theorem Reached_isConstantNode {dyn : List Atom} {h s : Atom}
    (hr : Reached dyn h s) : s.isConstantNode = true := by
  induction hr with
  | node t n hk => exact hk
  | link t out hunt g s _ _ _ _ ih => exact ih

theorem getIncomingSetSize_lt (as : AtomSpace) (h : Atom) :
    as.getIncomingSetSize h < SIZE_MAX :=
  as.incoming_bound h

/-! ## The starter finder returns the best candidate -/

theorem find_starter_loop_best (as : AtomSpace) (dyn : List Atom) (curr : Handle)
    (t : LinkType) (out : List Atom) (depth : Nat) :
    ∀ rest : List Atom,
    (∀ hunt ∈ rest, ∀ g, hunt_target hunt = some g →
      ∀ d st w ch b, find_starter_recursive as dyn curr g d st w ch = .ok b →
        ∀ s ds, Candidate dyn g d s ds →
          b.ret ≠ none ∧ AtLeastAsGood b.width b.depth (as.getIncomingSetSize s) ds) →
    ∀ deepest hdeepest thinnest startrm choices b,
      (hdeepest = none → thinnest = SIZE_MAX) →
      find_starter_loop as dyn curr (.link t out) t depth rest deepest hdeepest thinnest
        startrm choices = .ok b →
      (hdeepest ≠ none → b.ret ≠ none ∧ AtLeastAsGood b.width b.depth thinnest deepest) ∧
      (t ≠ .CHOICE_LINK → ∀ hunt ∈ rest, ∀ g, hunt_target hunt = some g →
        ∀ s ds, Candidate dyn g (depth + 1) s ds →
          b.ret ≠ none ∧ AtLeastAsGood b.width b.depth (as.getIncomingSetSize s) ds) := by
  intro rest
  induction rest with
  | nil =>
    intro _ deepest hdeepest thinnest startrm choices b _ hb
    rw [find_starter_loop] at hb
    injection hb with hb
    subst hb
    refine ⟨fun hne => ⟨hne, AtLeastAsGood_refl _ _⟩, ?_⟩
    intro _ hunt hm
    exact absurd hm (List.not_mem_nil _)
  | cons hunt rest ihr =>
    intro ih deepest hdeepest thinnest startrm choices b hinv hb
    have ih2 := fun x hx => ih x (List.mem_cons_of_mem _ hx)
    rw [find_starter_loop_cons] at hb
    split at hb
    · cases hb
    · rename_i g hg
      split at hb
      · cases hb
      · rename_i br hbr
        have hchild := ih hunt (List.mem_cons_self _ _) g hg _ _ _ _ _ hbr
        split at hb
        · rename_i hnone
          have hrest := ihr ih2 _ _ _ _ _ _ hinv hb
          refine ⟨hrest.1, ?_⟩
          intro htc x hx g2 hg2 s ds hcand
          rcases List.mem_cons.1 hx with e | hx2
          · subst e
            rw [hg] at hg2
            injection hg2 with hg2
            subst hg2
            exact absurd hnone (hchild s ds hcand).1
          · exact hrest.2 htc x hx2 g2 hg2 s ds hcand
        · rename_i s0 hs0
          have hsound := find_starter_recursive_sound as dyn curr g _ _ _ _ _ hbr s0 hs0
          have hlt : br.width < SIZE_MAX := by
            rw [hsound.2.1]; exact getIncomingSetSize_lt as s0
          split_ifs at hb with hc hsel
          · have hrest := ihr ih2 _ _ _ _ _ _ hinv hb
            refine ⟨hrest.1, ?_⟩
            intro htc
            exact absurd hc.symm htc
          · have hrest := ihr ih2 br.depth (some s0) br.width _ _ _
              (fun e => by cases e) hb
            have hnew := hrest.1 (by simp)
            refine ⟨?_, ?_⟩
            · intro hne
              refine ⟨hnew.1, AtLeastAsGood_trans hnew.2 ?_⟩
              unfold AtLeastAsGood
              omega
            · intro htc x hx g2 hg2 s ds hcand
              rcases List.mem_cons.1 hx with e | hx2
              · subst e
                rw [hg] at hg2
                injection hg2 with hg2
                subst hg2
                exact ⟨hnew.1, AtLeastAsGood_trans hnew.2 (hchild s ds hcand).2⟩
              · exact hrest.2 htc x hx2 g2 hg2 s ds hcand
          · have hrest := ihr ih2 _ _ _ _ _ _ hinv hb
            refine ⟨hrest.1, ?_⟩
            intro htc x hx g2 hg2 s ds hcand
            rcases List.mem_cons.1 hx with e | hx2
            · subst e
              rw [hg] at hg2
              injection hg2 with hg2
              subst hg2
              have hne : hdeepest ≠ none := by
                intro e
                have := hinv e
                apply hsel
                left
                omega
              have h1 := hrest.1 hne
              refine ⟨h1.1, AtLeastAsGood_trans h1.2 (AtLeastAsGood_trans ?_ (hchild s ds hcand).2)⟩
              unfold AtLeastAsGood
              omega
            · exact hrest.2 htc x hx2 g2 hg2 s ds hcand

theorem find_starter_recursive_best (as : AtomSpace) (dyn : List Atom) (curr : Handle) :
    ∀ (h : Atom) (d : Nat) (st : Handle) (w : Nat) (ch : List Choice) (b : Found),
      find_starter_recursive as dyn curr h d st w ch = .ok b →
      ∀ s ds, Candidate dyn h d s ds →
        b.ret ≠ none ∧ AtLeastAsGood b.width b.depth (as.getIncomingSetSize s) ds := by
  intro h
  induction h using target_induct_atom with
  | hn t n =>
    intro d st w ch b hb s ds hc
    rw [find_starter_recursive] at hb
    cases hc with
    | node _ _ _ hk =>
      rw [if_pos hk] at hb
      injection hb with hb
      subst hb
      exact ⟨by simp, AtLeastAsGood_refl _ _⟩
  | hl t out ih =>
    intro d st w ch b hb s ds hc
    rw [find_starter_recursive] at hb
    cases hc with
    | link _ _ _ hunt g _ _ hdyn htc hm hg hcand =>
      rw [if_neg hdyn] at hb
      exact (find_starter_loop_best as dyn curr t out d out ih _ _ _ _ _ _ (fun _ => rfl) hb).2
        htc hunt hm g hg s ds hcand

/-! ## Sub-terms and constants -/

theorem mem_subtermsOut (x : Atom) :
    ∀ l : List Atom, x ∈ Atom.subtermsOut l ↔ ∃ c ∈ l, x ∈ c.subterms := by
  intro l
  induction l with
  | nil => simp [Atom.subtermsOut]
  | cons c rest ih =>
    rw [Atom.subtermsOut, List.mem_append, ih]
    simp

theorem self_mem_subterms (h : Atom) : h ∈ h.subterms := by
  cases h with
  | node t n => simp [Atom.subterms]
  | link t out => simp [Atom.subterms]

theorem mem_subterms_link (x : Atom) (t : LinkType) (out : List Atom) :
    x ∈ (Atom.link t out).subterms ↔ x = .link t out ∨ ∃ c ∈ out, x ∈ c.subterms := by
  rw [Atom.subterms, List.mem_cons, mem_subtermsOut]

theorem mem_constantsOut (p : Atom × Nat) (d : Nat) :
    ∀ l : List Atom, p ∈ Atom.constantsOut l d ↔ ∃ c ∈ l, p ∈ c.constantsAt d := by
  intro l
  induction l with
  | nil => simp [Atom.constantsOut]
  | cons c rest ih =>
    rw [Atom.constantsOut, List.mem_append, ih]
    simp

theorem hunt_target_of_not_quotation (x : Atom) (hq : x.isQuotation = false) :
    hunt_target x = some x := by
  cases x with
  | node t n => rfl
  | link t out =>
    simp only [Atom.isQuotation] at hq
    cases out with
    | nil => simp [hunt_target, hq]
    | cons g gs => simp [hunt_target, hq]

theorem hunt_target_mem_subterms (x g : Atom) (hg : hunt_target x = some g) :
    g ∈ x.subterms := by
  cases x with
  | node t n =>
    simp only [hunt_target, Option.some.injEq] at hg
    subst hg
    exact self_mem_subterms _
  | link t out =>
    cases out with
    | nil =>
      by_cases hq : is_quotation_type t = true
      · simp [hunt_target, hq] at hg
      · simp [hunt_target, hq] at hg
        subst hg
        exact self_mem_subterms _
    | cons c cs =>
      by_cases hq : is_quotation_type t = true
      · simp [hunt_target, hq] at hg
        subst hg
        rw [mem_subterms_link]
        exact Or.inr ⟨c, List.mem_cons_self _ _, self_mem_subterms _⟩
      · simp [hunt_target, hq] at hg
        subst hg
        exact self_mem_subterms _

theorem hunt_target_none (x : Atom) (hg : hunt_target x = none) :
    x.isEmptyQuotation = true := by
  cases x with
  | node t n => simp [hunt_target] at hg
  | link t out =>
    cases out with
    | nil =>
      by_cases hq : is_quotation_type t = true
      · simpa [Atom.isEmptyQuotation] using hq
      · simp [hunt_target, hq] at hg
    | cons c cs =>
      by_cases hq : is_quotation_type t = true <;> simp [hunt_target, hq] at hg

theorem Plain_child {dyn : List Atom} {t : LinkType} {out : List Atom}
    (hp : Plain dyn (.link t out)) {c : Atom} (hc : c ∈ out) : Plain dyn c := by
  intro x hx
  exact hp x ((mem_subterms_link x t out).2 (Or.inr ⟨c, hc, hx⟩))

theorem QuotesFilled_child {t : LinkType} {out : List Atom}
    (hp : QuotesFilled (.link t out)) {c : Atom} (hc : c ∈ out) : QuotesFilled c := by
  intro x hx
  exact hp x ((mem_subterms_link x t out).2 (Or.inr ⟨c, hc, hx⟩))

theorem QuotesFilled_target {x g : Atom} (hp : QuotesFilled x)
    (hg : hunt_target x = some g) : QuotesFilled g := by
  cases x with
  | node t n =>
    simp only [hunt_target, Option.some.injEq] at hg
    subst hg
    exact hp
  | link t out =>
    cases out with
    | nil =>
      by_cases hq : is_quotation_type t = true
      · simp [hunt_target, hq] at hg
      · simp [hunt_target, hq] at hg
        subst hg
        exact hp
    | cons c cs =>
      by_cases hq : is_quotation_type t = true
      · simp [hunt_target, hq] at hg
        subst hg
        exact QuotesFilled_child hp (List.mem_cons_self _ _)
      · simp [hunt_target, hq] at hg
        subst hg
        exact hp

theorem Plain_quotesFilled {dyn : List Atom} {h : Atom} (hp : Plain dyn h) :
    QuotesFilled h := by
  intro x hx
  have h3 := (hp x hx).2.2
  cases x with
  | node t n => rfl
  | link t out =>
    cases out with
    | nil => simpa [Atom.isEmptyQuotation, Atom.isQuotation] using h3
    | cons c cs => rfl

/-! ## The starter finder returns -/

theorem find_starter_loop_total (as : AtomSpace) (dyn : List Atom) (curr : Handle)
    (h : Atom) (t : LinkType) (depth : Nat) :
    ∀ rest : List Atom, (∀ hunt ∈ rest, hunt.isEmptyQuotation = false) →
    (∀ hunt ∈ rest, ∀ g, hunt_target hunt = some g →
      ∀ d st w ch, ∃ b, find_starter_recursive as dyn curr g d st w ch = .ok b) →
    ∀ deepest hdeepest thinnest startrm choices,
      ∃ b, find_starter_loop as dyn curr h t depth rest deepest hdeepest thinnest
        startrm choices = .ok b := by
  intro rest
  induction rest with
  | nil =>
    intro _ _ deepest hdeepest thinnest startrm choices
    exact ⟨_, by rw [find_starter_loop]⟩
  | cons hunt rest ihr =>
    intro hq ih deepest hdeepest thinnest startrm choices
    have hq2 := fun x hx => hq x (List.mem_cons_of_mem _ hx)
    have ih2 := fun x hx => ih x (List.mem_cons_of_mem _ hx)
    rw [find_starter_loop_cons]
    split
    · rename_i hnone
      have := hunt_target_none hunt hnone
      rw [hq hunt (List.mem_cons_self _ _)] at this
      cases this
    · rename_i g hg
      obtain ⟨br, hbr⟩ := ih hunt (List.mem_cons_self _ _) g hg (depth + 1)
        (if LinkType.CHOICE_LINK ≠ t then some h else startrm) SIZE_MAX choices
      rw [hbr]
      dsimp only
      split
      · exact ihr hq2 ih2 _ _ _ _ _
      · split_ifs
        · exact ihr hq2 ih2 _ _ _ _ _
        · exact ihr hq2 ih2 _ _ _ _ _
        · exact ihr hq2 ih2 _ _ _ _ _

theorem find_starter_recursive_total (as : AtomSpace) (dyn : List Atom) (curr : Handle) :
    ∀ (h : Atom), QuotesFilled h → ∀ (d : Nat) (st : Handle) (w : Nat) (ch : List Choice),
      ∃ b, find_starter_recursive as dyn curr h d st w ch = .ok b := by
  intro h
  induction h using target_induct_atom with
  | hn t n =>
    intro _ d st w ch
    rw [find_starter_recursive]
    split_ifs <;> exact ⟨_, rfl⟩
  | hl t out ih =>
    intro hq d st w ch
    rw [find_starter_recursive]
    split_ifs
    · exact ⟨_, rfl⟩
    · apply find_starter_loop_total
      · intro hunt hm
        exact hq hunt ((mem_subterms_link _ t out).2 (Or.inr ⟨hunt, hm, self_mem_subterms _⟩))
      · intro hunt hm g hg
        exact ih hunt hm g hg (QuotesFilled_target (QuotesFilled_child hq hm) hg)

theorem find_starter_node (as : AtomSpace) (dyn : List Atom) (curr : Handle)
    (t : NodeType) (n : String) (d : Nat) (st : Handle) (w : Nat) (ch : List Choice) :
    find_starter as dyn curr (.node t n) d st w ch =
      if t.isConstant then
        .ok ⟨some (.node t n), d, some (.node t n), as.getIncomingSetSize (.node t n), ch⟩
      else .ok ⟨none, d, st, w, ch⟩ := rfl

theorem find_starter_link (as : AtomSpace) (dyn : List Atom) (curr : Handle)
    (t : LinkType) (out : List Atom) (d : Nat) (st : Handle) (w : Nat) (ch : List Choice) :
    find_starter as dyn curr (.link t out) d st w ch =
      find_starter_recursive as dyn curr (.link t out) d st w ch := rfl

theorem find_starter_total (as : AtomSpace) (dyn : List Atom) (curr : Handle)
    (h : Atom) (hq : QuotesFilled h) (d : Nat) (st : Handle) (w : Nat) (ch : List Choice) :
    ∃ b, find_starter as dyn curr h d st w ch = .ok b := by
  cases h with
  | node t n =>
    rw [find_starter_node]
    split_ifs <;> exact ⟨_, rfl⟩
  | link t out => exact find_starter_recursive_total as dyn curr _ hq d st w ch

theorem find_starter_sound (as : AtomSpace) (dyn : List Atom) (curr : Handle)
    (h : Atom) (d : Nat) (st : Handle) (w : Nat) (ch : List Choice) (b : Found)
    (hb : find_starter as dyn curr h d st w ch = .ok b) (s : Atom) (hs : b.ret = some s) :
    s.isConstantNode = true ∧ b.width = as.getIncomingSetSize s ∧
      Candidate dyn h d s b.depth := by
  cases h with
  | node t n =>
    rw [find_starter_node] at hb
    split_ifs at hb with hc
    · injection hb with hb
      subst hb
      simp only [Option.some.injEq] at hs
      subst hs
      exact ⟨hc, rfl, Candidate.node t n d hc⟩
    · injection hb with hb
      subst hb
      cases hs
  | link t out => exact find_starter_recursive_sound as dyn curr _ d st w ch b hb s hs

theorem find_starter_best (as : AtomSpace) (dyn : List Atom) (curr : Handle)
    (h : Atom) (d : Nat) (st : Handle) (w : Nat) (ch : List Choice) (b : Found)
    (hb : find_starter as dyn curr h d st w ch = .ok b) (s : Atom) (ds : Nat)
    (hc : Candidate dyn h d s ds) :
    b.ret ≠ none ∧ AtLeastAsGood b.width b.depth (as.getIncomingSetSize s) ds := by
  cases h with
  | node t n =>
    rw [find_starter_node] at hb
    cases hc with
    | node _ _ _ hk =>
      rw [if_pos hk] at hb
      injection hb with hb
      subst hb
      exact ⟨by simp, AtLeastAsGood_refl _ _⟩
  | link t out => exact find_starter_recursive_best as dyn curr _ d st w ch b hb s ds hc

/-! ## Plain clauses: the candidates are the constant nodes -/

theorem isChoice_false_ne {t : LinkType} {out : List Atom}
    (h : (Atom.link t out).isChoice = false) : t ≠ .CHOICE_LINK := by
  intro e
  subst e
  simp [Atom.isChoice] at h

theorem candidate_of_mem_constantsAt (dyn : List Atom) :
    ∀ h : Atom, Plain dyn h → ∀ (d : Nat) (s : Atom) (ds : Nat),
      (s, ds) ∈ h.constantsAt d → Candidate dyn h d s ds := by
  intro h
  induction h using target_induct_atom with
  | hn t n =>
    intro _ d s ds hm
    rw [Atom.constantsAt] at hm
    split_ifs at hm with hk
    · simp only [List.mem_singleton, Prod.mk.injEq] at hm
      rw [hm.1, hm.2]
      exact Candidate.node t n d hk
    · cases hm
  | hl t out ih =>
    intro hp d s ds hm
    rw [Atom.constantsAt, mem_constantsOut] at hm
    obtain ⟨c, hc, hmc⟩ := hm
    have hpc : Plain dyn c := Plain_child hp hc
    have htc : hunt_target c = some c :=
      hunt_target_of_not_quotation c (hpc c (self_mem_subterms c)).2.2
    have hself := hp _ (self_mem_subterms (.link t out))
    exact Candidate.link t out d c c s ds hself.1 (isChoice_false_ne hself.2.1) hc htc
      (ih c hc c htc hpc (d + 1) s ds hmc)

theorem mem_constantsAt_of_candidate {dyn : List Atom} {h : Atom} {d : Nat} {s : Atom}
    {ds : Nat} (hc : Candidate dyn h d s ds) : Plain dyn h → (s, ds) ∈ h.constantsAt d := by
  induction hc with
  | node t n d hk =>
    intro _
    rw [Atom.constantsAt, if_pos hk]
    exact List.mem_singleton.2 rfl
  | link t out d hunt g s ds _ _ hm hg _ ih =>
    intro hp
    have hph : Plain dyn hunt := Plain_child hp hm
    have htc : hunt_target hunt = some hunt :=
      hunt_target_of_not_quotation hunt (hph hunt (self_mem_subterms hunt)).2.2
    rw [htc] at hg
    injection hg with hg
    subst hg
    rw [Atom.constantsAt, mem_constantsOut]
    exact ⟨hunt, hm, ih hph⟩

theorem spaceBlah_size_predBlah : spaceBlah.getIncomingSetSize predBlah = 10000 := by
  show (incomingBlah predBlah).length = 10000
  unfold incomingBlah
  rw [if_pos rfl, List.length_replicate]

theorem spaceBlah_size_conceptItem : spaceBlah.getIncomingSetSize conceptItem = 3 := by
  show (incomingBlah conceptItem).length = 3
  unfold incomingBlah
  rw [if_neg (by decide), if_pos rfl, List.length_replicate]

/-! ## Claims -/

/-- C1: on a clause with no choice link, no quotation link and no evaluatable
sub-term the starter finder returns; it returns no starter when the clause
holds no constant node, and otherwise a constant node of the clause whose
incoming-set size is the returned width and is minimal among the constant
nodes of the clause, at the returned depth, which is the greatest nesting depth
among the constant nodes of that minimal width.  On
`(Eval (Pred "blah") (List $x (Concept "item")))` with incoming sizes 10000 and
3 it returns `Concept "item"` at depth 2 with the `List` link as start term. -/
theorem find_starter_thinnest_then_deepest :
    (∀ (as : AtomSpace) (dyn : List Atom) (curr : Handle) (h : Atom) (st : Handle)
        (w : Nat) (ch : List Choice), Plain dyn h →
      ∃ b, find_starter as dyn curr h 0 st w ch = .ok b ∧
        (h.constantsAt 0 = [] → b.ret = none) ∧
        (h.constantsAt 0 ≠ [] →
          ∃ s, b.ret = some s ∧ (s, b.depth) ∈ h.constantsAt 0 ∧
            b.width = as.getIncomingSetSize s ∧
            (∀ p ∈ h.constantsAt 0, b.width ≤ as.getIncomingSetSize p.1) ∧
            (∀ p ∈ h.constantsAt 0, as.getIncomingSetSize p.1 = b.width → p.2 ≤ b.depth))) ∧
    (∀ (as : AtomSpace) (curr : Handle), as.getIncomingSetSize predBlah = 10000 →
      as.getIncomingSetSize conceptItem = 3 →
      find_starter as [] curr evalBlah 0 none SIZE_MAX [] =
        .ok ⟨some conceptItem, 2, some listXItem, 3, []⟩) := by
  constructor
  · intro as dyn curr h st w ch hp
    obtain ⟨b, hb⟩ := find_starter_total as dyn curr h (Plain_quotesFilled hp) 0 st w ch
    refine ⟨b, hb, ?_, ?_⟩
    · intro hnil
      cases hr : b.ret with
      | none => rfl
      | some s =>
        have hs := find_starter_sound as dyn curr h 0 st w ch b hb s hr
        have := mem_constantsAt_of_candidate hs.2.2 hp
        rw [hnil] at this
        cases this
    · intro hne
      obtain ⟨p, hpm⟩ := List.exists_mem_of_ne_nil _ hne
      have hcand := candidate_of_mem_constantsAt dyn h hp 0 p.1 p.2 hpm
      have hbest := find_starter_best as dyn curr h 0 st w ch b hb p.1 p.2 hcand
      cases hr : b.ret with
      | none => exact absurd hr hbest.1
      | some s =>
        have hs := find_starter_sound as dyn curr h 0 st w ch b hb s hr
        refine ⟨s, rfl, mem_constantsAt_of_candidate hs.2.2 hp, hs.2.1, ?_, ?_⟩
        · intro q hq
          have := (find_starter_best as dyn curr h 0 st w ch b hb q.1 q.2
            (candidate_of_mem_constantsAt dyn h hp 0 q.1 q.2 hq)).2
          unfold AtLeastAsGood at this
          omega
        · intro q hq he
          have := (find_starter_best as dyn curr h 0 st w ch b hb q.1 q.2
            (candidate_of_mem_constantsAt dyn h hp 0 q.1 q.2 hq)).2
          unfold AtLeastAsGood at this
          omega
  · intro as curr h1 h2
    simp [find_starter, evalBlah, listXItem, predBlah, conceptItem, varX,
      find_starter_recursive, find_starter_loop, NodeType.isConstant, SIZE_MAX,
      is_quotation_type] at *
    simp [h1, h2]

/-- Witness for C1: the general statement at the scenario clause, and the
scenario itself in a hypergraph with those incoming sets. -/
theorem find_starter_thinnest_then_deepest_witness :
    (∃ b, find_starter spaceBlah [] none evalBlah 0 none SIZE_MAX [] = .ok b ∧
        (evalBlah.constantsAt 0 = [] → b.ret = none) ∧
        (evalBlah.constantsAt 0 ≠ [] →
          ∃ s, b.ret = some s ∧ (s, b.depth) ∈ evalBlah.constantsAt 0 ∧
            b.width = spaceBlah.getIncomingSetSize s ∧
            (∀ p ∈ evalBlah.constantsAt 0, b.width ≤ spaceBlah.getIncomingSetSize p.1) ∧
            (∀ p ∈ evalBlah.constantsAt 0,
              spaceBlah.getIncomingSetSize p.1 = b.width → p.2 ≤ b.depth))) ∧
    find_starter spaceBlah [] none evalBlah 0 none SIZE_MAX [] =
        .ok ⟨some conceptItem, 2, some listXItem, 3, []⟩ :=
  ⟨find_starter_thinnest_then_deepest.1 spaceBlah [] none evalBlah none SIZE_MAX []
      (by decide),
    find_starter_thinnest_then_deepest.2 spaceBlah none
      spaceBlah_size_predBlah spaceBlah_size_conceptItem⟩

/-! ## The choice records appended by the starter finder -/

theorem find_starter_loop_choices (as : AtomSpace) (dyn : List Atom) (curr : Handle)
    (t : LinkType) (out : List Atom) (depth : Nat) (hdyn : Atom.link t out ∉ dyn) :
    ∀ rest : List Atom, (∀ x ∈ rest, x ∈ out) →
    (∀ hunt ∈ rest, ∀ g, hunt_target hunt = some g →
      ∀ d st w ch b, find_starter_recursive as dyn curr g d st w ch = .ok b →
        ∃ added, b.choices = ch ++ added ∧
          ∀ c ∈ added, c.clause = curr ∧ ∃ s, c.best_start = some s ∧ Reached dyn g s) →
    ∀ deepest hdeepest thinnest startrm choices b,
      find_starter_loop as dyn curr (.link t out) t depth rest deepest hdeepest thinnest
        startrm choices = .ok b →
      ∃ added, b.choices = choices ++ added ∧
        ∀ c ∈ added, c.clause = curr ∧
          ∃ s, c.best_start = some s ∧ Reached dyn (.link t out) s := by
  intro rest
  induction rest with
  | nil =>
    intro _ _ deepest hdeepest thinnest startrm choices b hb
    rw [find_starter_loop] at hb
    injection hb with hb
    subst hb
    exact ⟨[], by simp, fun c hc => absurd hc (List.not_mem_nil _)⟩
  | cons hunt rest ihr =>
    intro hsub ih deepest hdeepest thinnest startrm choices b hb
    have hsub2 : ∀ x ∈ rest, x ∈ out := fun x hx => hsub x (List.mem_cons_of_mem _ hx)
    have ih2 := fun x hx => ih x (List.mem_cons_of_mem _ hx)
    have hm : hunt ∈ out := hsub hunt (List.mem_cons_self _ _)
    rw [find_starter_loop_cons] at hb
    split at hb
    · cases hb
    · rename_i g hg
      split at hb
      · cases hb
      · rename_i br hbr
        obtain ⟨a1, ha1, hall1⟩ := ih hunt (List.mem_cons_self _ _) g hg _ _ _ _ _ hbr
        have hup : ∀ c ∈ a1, c.clause = curr ∧
            ∃ s, c.best_start = some s ∧ Reached dyn (.link t out) s := by
          intro c hc
          obtain ⟨h1, s, h2, h3⟩ := hall1 c hc
          exact ⟨h1, s, h2, Reached.link t out hunt g s hdyn hm hg h3⟩
        have plain : ∀ b2 : Found, (∃ added, b2.choices = br.choices ++ added ∧
            ∀ c ∈ added, c.clause = curr ∧
              ∃ s, c.best_start = some s ∧ Reached dyn (.link t out) s) →
            ∃ added, b2.choices = choices ++ added ∧
              ∀ c ∈ added, c.clause = curr ∧
                ∃ s, c.best_start = some s ∧ Reached dyn (.link t out) s := by
          rintro b2 ⟨a2, ha2, hall2⟩
          refine ⟨a1 ++ a2, by rw [ha2, ha1, List.append_assoc], ?_⟩
          intro c hc
          rcases List.mem_append.1 hc with h | h
          · exact hup c h
          · exact hall2 c h
        split at hb
        · exact plain b (ihr hsub2 ih2 _ _ _ _ _ _ hb)
        · rename_i s0 hs0
          split_ifs at hb with hc hsel
          · obtain ⟨a2, ha2, hall2⟩ := ihr hsub2 ih2 _ _ _ _ _ _ hb
            have hsound := find_starter_recursive_sound as dyn curr g _ _ _ _ _ hbr s0 hs0
            refine ⟨a1 ++ [⟨curr, some s0, br.startrm⟩] ++ a2, ?_, ?_⟩
            · rw [ha2, ha1]; simp
            · intro c hcm
              rcases List.mem_append.1 hcm with h | h
              · rcases List.mem_append.1 h with h | h
                · exact hup c h
                · rw [List.mem_singleton] at h
                  subst h
                  exact ⟨rfl, s0, rfl,
                    Reached.link t out hunt g s0 hdyn hm hg (Candidate_reached hsound.2.2)⟩
              · exact hall2 c h
          · exact plain b (ihr hsub2 ih2 _ _ _ _ _ _ hb)
          · exact plain b (ihr hsub2 ih2 _ _ _ _ _ _ hb)

theorem find_starter_recursive_choices (as : AtomSpace) (dyn : List Atom) (curr : Handle) :
    ∀ (h : Atom) (d : Nat) (st : Handle) (w : Nat) (ch : List Choice) (b : Found),
      find_starter_recursive as dyn curr h d st w ch = .ok b →
      ∃ added, b.choices = ch ++ added ∧
        ∀ c ∈ added, c.clause = curr ∧ ∃ s, c.best_start = some s ∧ Reached dyn h s := by
  intro h
  induction h using target_induct_atom with
  | hn t n =>
    intro d st w ch b hb
    rw [find_starter_recursive] at hb
    split_ifs at hb <;>
    · injection hb with hb
      subst hb
      exact ⟨[], by simp, fun c hc => absurd hc (List.not_mem_nil _)⟩
  | hl t out ih =>
    intro d st w ch b hb
    rw [find_starter_recursive] at hb
    split_ifs at hb with hdyn
    · injection hb with hb
      subst hb
      exact ⟨[], by simp, fun c hc => absurd hc (List.not_mem_nil _)⟩
    · exact find_starter_loop_choices as dyn curr t out d hdyn out (fun _ hx => hx) ih
        _ _ _ _ _ _ hb

theorem find_starter_choices (as : AtomSpace) (dyn : List Atom) (curr : Handle)
    (h : Atom) (d : Nat) (st : Handle) (w : Nat) (ch : List Choice) (b : Found)
    (hb : find_starter as dyn curr h d st w ch = .ok b) :
    ∃ added, b.choices = ch ++ added ∧
      ∀ c ∈ added, c.clause = curr ∧ ∃ s, c.best_start = some s ∧ Reached dyn h s := by
  cases h with
  | node t n =>
    rw [find_starter_node] at hb
    split_ifs at hb <;>
    · injection hb with hb
      subst hb
      exact ⟨[], by simp, fun c hc => absurd hc (List.not_mem_nil _)⟩
  | link t out => exact find_starter_recursive_choices as dyn curr _ d st w ch b hb

theorem isConstantNode_iff (s : Atom) :
    s.isConstantNode = true ↔
      ∃ t n, s = .node t n ∧ t ≠ .VARIABLE_NODE ∧ t ≠ .GLOB_NODE := by
  cases s with
  | node t n =>
    simp only [Atom.isConstantNode, NodeType.isConstant, Bool.and_eq_true, decide_eq_true_eq]
    constructor
    · intro h
      exact ⟨t, n, rfl, fun e => h.1 e.symm, fun e => h.2 e.symm⟩
    · rintro ⟨t2, n2, e, h1, h2⟩
      injection e with e1 e2
      subst e1
      exact ⟨fun e => h1 e.symm, fun e => h2 e.symm⟩
  | link t out =>
    simp [Atom.isConstantNode]

/-- C2: whenever `find_starter` or `find_starter_recursive` returns a defined
starter, for any clause, evaluatable-term set and incoming state, the starter is
a node whose type is neither VariableNode nor GlobNode; the call only appends
to the choice list, and the `best_start` of every record it appends is such a
node as well. -/
theorem starter_is_constant_node (as : AtomSpace) (dyn : List Atom) (curr : Handle)
    (h : Atom) (d : Nat) (st : Handle) (w : Nat) (ch : List Choice) (b : Found)
    (hb : find_starter as dyn curr h d st w ch = .ok b ∨
      find_starter_recursive as dyn curr h d st w ch = .ok b) :
    (∀ s, b.ret = some s → ∃ t n, s = .node t n ∧ t ≠ .VARIABLE_NODE ∧ t ≠ .GLOB_NODE) ∧
    ∃ added, b.choices = ch ++ added ∧
      ∀ c ∈ added, ∃ s, c.best_start = some s ∧
        ∃ t n, s = .node t n ∧ t ≠ .VARIABLE_NODE ∧ t ≠ .GLOB_NODE := by
  rcases hb with hb | hb
  · refine ⟨fun s hs => (isConstantNode_iff s).1
      (find_starter_sound as dyn curr h d st w ch b hb s hs).1, ?_⟩
    obtain ⟨added, h1, h2⟩ := find_starter_choices as dyn curr h d st w ch b hb
    refine ⟨added, h1, fun c hc => ?_⟩
    obtain ⟨_, s, h3, h4⟩ := h2 c hc
    exact ⟨s, h3, (isConstantNode_iff s).1 (Reached_isConstantNode h4)⟩
  · refine ⟨fun s hs => (isConstantNode_iff s).1
      (find_starter_recursive_sound as dyn curr h d st w ch b hb s hs).1, ?_⟩
    obtain ⟨added, h1, h2⟩ := find_starter_recursive_choices as dyn curr h d st w ch b hb
    refine ⟨added, h1, fun c hc => ?_⟩
    obtain ⟨_, s, h3, h4⟩ := h2 c hc
    exact ⟨s, h3, (isConstantNode_iff s).1 (Reached_isConstantNode h4)⟩

/-- Witness for C2: the scan of `(And (Choice (Concept "A") (Concept "B")) $x)`,
which appends two records. -/
theorem starter_is_constant_node_witness :
    find_starter spaceAB [] (some andChoice) andChoice 0 none SIZE_MAX [] =
        .ok ⟨none, 0, none, SIZE_MAX,
          [⟨some andChoice, some conceptA, some andChoice⟩,
           ⟨some andChoice, some conceptB, some andChoice⟩]⟩ ∧
    ∃ added, [(⟨some andChoice, some conceptA, some andChoice⟩ : Choice),
        ⟨some andChoice, some conceptB, some andChoice⟩] = [] ++ added ∧
      ∀ c ∈ added, ∃ s, c.best_start = some s ∧
        ∃ t n, s = .node t n ∧ t ≠ .VARIABLE_NODE ∧ t ≠ .GLOB_NODE :=
  ⟨by decide,
    (starter_is_constant_node spaceAB [] (some andChoice) andChoice 0 none SIZE_MAX []
      ⟨none, 0, none, SIZE_MAX,
          [⟨some andChoice, some conceptA, some andChoice⟩,
           ⟨some andChoice, some conceptB, some andChoice⟩]⟩ (Or.inl (by decide))).2⟩

/-! ## Thinnest-clause selection -/

theorem find_thinnest_loop_min (as : AtomSpace) (dyn evl : List Atom) :
    ∀ (clauses : List Atom) (thinnest deepest : Nat)
      (bestclause best_start starter_term curr : Handle) (choices : List Choice)
      (th : Thinnest),
      (best_start = none → thinnest = SIZE_MAX) →
      (∀ s, best_start = some s → thinnest = as.getIncomingSetSize s) →
      find_thinnest_loop as dyn evl clauses thinnest deepest bestclause best_start
        starter_term curr choices = .ok th →
      (∀ s, th.best_start = some s → as.getIncomingSetSize s ≤ thinnest) ∧
      (best_start ≠ none → th.best_start ≠ none) ∧
      (∀ c ∈ clauses, c ∉ evl → ∀ n dn, Candidate dyn c 0 n dn →
        ∃ s, th.best_start = some s ∧ as.getIncomingSetSize s ≤ as.getIncomingSetSize n) := by
  intro clauses
  induction clauses with
  | nil =>
    intro thinnest deepest bestclause best_start starter_term curr choices th _ h2 hth
    rw [find_thinnest_loop] at hth
    injection hth with hth
    subst hth
    refine ⟨fun s hs => ?_, fun h => h, fun c hc => absurd hc (List.not_mem_nil _)⟩
    rw [h2 s hs]
  | cons h rest ih =>
    intro thinnest deepest bestclause best_start starter_term curr choices th h1 h2 hth
    rw [find_thinnest_loop] at hth
    split_ifs at hth with hev
    · obtain ⟨r1, r2, r3⟩ := ih _ _ _ _ _ _ _ _ h1 h2 hth
      refine ⟨r1, r2, ?_⟩
      intro c hc hce
      rcases List.mem_cons.1 hc with e | hc2
      · subst e
        exact absurd hev hce
      · exact r3 c hc2 hce
    · split at hth
      · cases hth
      · rename_i f hf
        split_ifs at hth with hsel
        · obtain ⟨s0, hs0⟩ := Option.isSome_iff_exists.1 hsel.1
          have hsound := find_starter_sound as dyn (some h) h 0 none SIZE_MAX choices f hf s0 hs0
          obtain ⟨r1, r2, r3⟩ := ih f.width f.depth (some h) f.ret f.startrm (some h) f.choices
            th (fun e => by rw [hs0] at e; cases e)
            (fun s hs => by
              rw [hs0] at hs
              injection hs with hs
              subst hs
              exact hsound.2.1) hth
          have hne : th.best_start ≠ none := r2 (by rw [hs0]; simp)
          refine ⟨fun s hs => ?_, fun _ => hne, ?_⟩
          · have := r1 s hs
            have := hsel.2
            omega
          · intro c hc hce n dn hcand
            rcases List.mem_cons.1 hc with e | hc2
            · subst e
              have hb := (find_starter_best as dyn (some c) c 0 none SIZE_MAX choices f hf
                n dn hcand).2
              obtain ⟨s, hs⟩ := Option.ne_none_iff_exists'.1 hne
              refine ⟨s, hs, ?_⟩
              have := r1 s hs
              unfold AtLeastAsGood at hb
              omega
            · exact r3 c hc2 hce n dn hcand
        · obtain ⟨r1, r2, r3⟩ := ih _ _ _ _ _ _ _ _ h1 h2 hth
          refine ⟨r1, r2, ?_⟩
          intro c hc hce n dn hcand
          rcases List.mem_cons.1 hc with e | hc2
          · subst e
            have hb := find_starter_best as dyn (some c) c 0 none SIZE_MAX choices f hf
              n dn hcand
            obtain ⟨s0, hs0⟩ := Option.ne_none_iff_exists'.1 hb.1
            have hsound := find_starter_sound as dyn (some c) c 0 none SIZE_MAX choices f hf
              s0 hs0
            have hlt : f.width < SIZE_MAX := by
              rw [hsound.2.1]; exact getIncomingSetSize_lt as s0
            have hge : thinnest ≤ f.width := by
              by_contra hcon
              apply hsel
              refine ⟨by rw [hs0]; rfl, Or.inl (by omega)⟩
            have hbn : best_start ≠ none := by
              intro e
              have := h1 e
              omega
            obtain ⟨s, hs⟩ := Option.ne_none_iff_exists'.1 (r2 hbn)
            refine ⟨s, hs, ?_⟩
            have := r1 s hs
            have := hb.2
            unfold AtLeastAsGood at this
            omega
          · exact r3 c hc2 hce n dn hcand

/-- C3 (as stated) fails: with candidate clauses `(List $x (Concept "A"))` and
the evaluatable holder `(Eval (GroundedPredicate "f") (List $x (Concept "B")))`,
incoming sizes 7 for A and 2 for B, `find_thinnest` returns A although the
constant node B of the second candidate clause has a strictly smaller incoming
set. -/
theorem find_thinnest_skips_holder_counterexample :
    find_thinnest spaceAB [] none [listXA, evalGpnB] [evalGpnB] =
        .ok ⟨some conceptA, some listXA, some listXA, some listXA, []⟩ ∧
    evalGpnB ∈ [listXA, evalGpnB] ∧
    (conceptB, 2) ∈ evalGpnB.constantsAt 0 ∧
    spaceAB.getIncomingSetSize conceptB < spaceAB.getIncomingSetSize conceptA := by
  decide

/-- C3 (amended): if `find_thinnest` returns a starter, then no constant node
that the starter finder reaches as a candidate in a candidate clause which is
not an evaluatable holder (along a path entering no evaluatable term and no
choice link, a quotation link in an outgoing set being passed to its first
outgoing atom) has a strictly smaller incoming-set size than the starter. -/
theorem find_thinnest_minimal (as : AtomSpace) (dyn : List Atom) (curr : Handle)
    (clauses evl : List Atom) (th : Thinnest) (s : Atom)
    (hth : find_thinnest as dyn curr clauses evl = .ok th) (hs : th.best_start = some s) :
    ∀ c ∈ clauses, c ∉ evl → ∀ n dn, Candidate dyn c 0 n dn →
      ¬ as.getIncomingSetSize n < as.getIncomingSetSize s := by
  intro c hc hce n dn hcand
  obtain ⟨_, _, r3⟩ := find_thinnest_loop_min as dyn evl clauses SIZE_MAX 0 none none none
    curr [] th (fun _ => rfl) (fun s e => by cases e) hth
  obtain ⟨s2, hs2, hle⟩ := r3 c hc hce n dn hcand
  rw [hs] at hs2
  injection hs2 with hs2
  subst hs2
  omega

/-- Witness for C3 (amended): the selection over the two clauses of the
counterexample; the starter A is no wider than the candidate A of the first
clause. -/
theorem find_thinnest_minimal_witness :
    find_thinnest spaceAB [] none [listXA, evalGpnB] [evalGpnB] =
        .ok ⟨some conceptA, some listXA, some listXA, some listXA, []⟩ ∧
    ¬ spaceAB.getIncomingSetSize conceptA < spaceAB.getIncomingSetSize conceptA :=
  ⟨by decide,
    find_thinnest_minimal spaceAB [] none [listXA, evalGpnB] [evalGpnB]
      ⟨some conceptA, some listXA, some listXA, some listXA, []⟩ conceptA (by decide) rfl
      listXA (by decide) (by decide) conceptA 1
      (Candidate.link (.other 0) [varX, conceptA] 0 conceptA conceptA conceptA 1
        (by decide) (by decide) (by decide) (by decide)
        (Candidate.node (.other 0) "A" 1 (by decide)))⟩

/-! ## The strategy selector -/

/-- C4: `initiate_search` is the cascade of the specification over the four
strategies in the order neighbourhood, no-search, link-type, variable-type,
entered after `jit_analyze`.  Hence the first setup that succeeds decides: the
result, the planner state and the callback state are exactly those of that
strategy's driver (`choice_loop`, `explore_constant_evaluatables` over the
mandatory clauses, or `search_loop`), and the result is `false` when all four
setups fail. -/
theorem initiate_search_first_strategy {σ Q : Type} (as : AtomSpace) (lib : Library)
    (qo : QuotationOps Q) (eng : PatternMatchEngine σ) (fuel : Nat) (cb : InitiateSearchCB)
    (pmc : σ) :
    (initiate_search as lib qo eng fuel cb pmc =
      match jit_analyze lib fuel cb with
      | .error e => .error e
      | .ok cb0 =>
        first_strategy [neighborhood_strategy as eng, no_search_strategy eng,
          link_type_strategy as qo eng, variable_type_strategy as lib eng] cb0 pmc) ∧
    (∀ cb0, jit_analyze lib fuel cb = .ok cb0 →
      (∀ cb1, setup_neighbor_search as cb0 = .ok (true, cb1) →
        initiate_search as lib qo eng fuel cb pmc = choice_loop as eng cb1 pmc) ∧
      (∀ cb1, setup_neighbor_search as cb0 = .ok (false, cb1) →
        (setup_no_search cb1 = true →
          initiate_search as lib qo eng fuel cb pmc =
            .ok ((eng.explore_constant_evaluatables cb1._variables cb1._pattern
                cb1._pattern.mandatory pmc).1, cb1,
              (eng.explore_constant_evaluatables cb1._variables cb1._pattern
                cb1._pattern.mandatory pmc).2)) ∧
        (setup_no_search cb1 = false →
          (∀ cb2, setup_link_type_search as qo cb1 = .ok (true, cb2) →
            initiate_search as lib qo eng fuel cb pmc =
              .ok ((search_loop eng cb2 pmc).1, cb2, (search_loop eng cb2 pmc).2)) ∧
          (∀ cb2, setup_link_type_search as qo cb1 = .ok (false, cb2) →
            (∀ cb3, setup_variable_search as lib cb2 = .ok (true, cb3) →
              initiate_search as lib qo eng fuel cb pmc =
                .ok ((search_loop eng cb3 pmc).1, cb3, (search_loop eng cb3 pmc).2)) ∧
            (∀ cb3, setup_variable_search as lib cb2 = .ok (false, cb3) →
              initiate_search as lib qo eng fuel cb pmc = .ok (false, cb3, pmc)))))) := by
  constructor
  · unfold initiate_search
    cases jit_analyze lib fuel cb with
    | error e => rfl
    | ok cb0 =>
      simp only [first_strategy, neighborhood_strategy, no_search_strategy,
        link_type_strategy, variable_type_strategy]
      cases h1 : setup_neighbor_search as cb0 with
      | error e => rfl
      | ok r1 =>
        obtain ⟨b1, cb1⟩ := r1
        cases b1 with
        | true => rfl
        | false =>
          simp only
          cases h2 : setup_no_search cb1 with
          | true => simp
          | false => simp only [Bool.false_eq_true, if_false]
  · intro cb0 hj
    unfold initiate_search
    rw [hj]
    refine ⟨fun cb1 h1 => by simp only [h1], fun cb1 h1 => ⟨fun h2 => ?_, fun h2 => ⟨?_, ?_⟩⟩⟩
    · simp only [h1, h2, if_true]
    · intro cb2 h3
      simp only [h1, h2, h3, Bool.false_eq_true, if_false]
    · intro cb2 h3
      refine ⟨fun cb3 h4 => ?_, fun cb3 h4 => ?_⟩
      · simp only [h1, h2, h3, h4, Bool.false_eq_true, if_false]
      · simp only [h1, h2, h3, h4, Bool.false_eq_true, if_false]

/-- Witness for C4: on the pattern `(And (Choice (Concept "A") (Concept "B")) $x)`
the neighbourhood setup succeeds and `initiate_search` is its `choice_loop`. -/
theorem initiate_search_first_strategy_witness :
    jit_analyze libEmpty 0 plannerAB = .ok plannerAB ∧
    setup_neighbor_search spaceAB plannerAB =
      .ok (true, { plannerAB with
        _curr_clause := some andChoice,
        _choices := [⟨some andChoice, some conceptA, some andChoice⟩,
                     ⟨some andChoice, some conceptB, some andChoice⟩] }) ∧
    initiate_search spaceAB libEmpty quotationLevel (engineAccepting []) 0 plannerAB [] =
      choice_loop spaceAB (engineAccepting [])
        { plannerAB with
          _curr_clause := some andChoice,
          _choices := [⟨some andChoice, some conceptA, some andChoice⟩,
                       ⟨some andChoice, some conceptB, some andChoice⟩] } [] :=
  ⟨by decide, by decide,
    ((initiate_search_first_strategy spaceAB libEmpty quotationLevel (engineAccepting []) 0
      plannerAB []).2 plannerAB (by decide)).1 _ (by decide)⟩

/-! ## Where the result of thinnest-clause selection comes from -/

theorem find_thinnest_loop_choices (as : AtomSpace) (dyn evl : List Atom) :
    ∀ (clauses : List Atom) (thinnest deepest : Nat)
      (bestclause best_start starter_term curr : Handle) (choices : List Choice)
      (th : Thinnest),
      find_thinnest_loop as dyn evl clauses thinnest deepest bestclause best_start
        starter_term curr choices = .ok th →
      ∃ added, th.choices = choices ++ added ∧
        ∀ ch ∈ added, ∃ c ∈ clauses, c ∉ evl ∧ ch.clause = some c ∧
          ∃ s, ch.best_start = some s ∧ Reached dyn c s := by
  intro clauses
  induction clauses with
  | nil =>
    intro thinnest deepest bestclause best_start starter_term curr choices th hth
    rw [find_thinnest_loop] at hth
    injection hth with hth
    subst hth
    exact ⟨[], by simp, fun c hc => absurd hc (List.not_mem_nil _)⟩
  | cons h rest ih =>
    intro thinnest deepest bestclause best_start starter_term curr choices th hth
    rw [find_thinnest_loop] at hth
    have lift : ∀ a2 : List Choice, (∀ ch ∈ a2, ∃ c ∈ rest, c ∉ evl ∧ ch.clause = some c ∧
        ∃ s, ch.best_start = some s ∧ Reached dyn c s) →
        ∀ ch ∈ a2, ∃ c ∈ h :: rest, c ∉ evl ∧ ch.clause = some c ∧
          ∃ s, ch.best_start = some s ∧ Reached dyn c s := by
      intro a2 hall ch hch
      obtain ⟨c, hc, r⟩ := hall ch hch
      exact ⟨c, List.mem_cons_of_mem _ hc, r⟩
    split_ifs at hth with hev
    · obtain ⟨a2, h1, h2⟩ := ih _ _ _ _ _ _ _ _ hth
      exact ⟨a2, h1, lift a2 h2⟩
    · split at hth
      · cases hth
      · rename_i f hf
        obtain ⟨a1, hf1, hf2⟩ := find_starter_choices as dyn (some h) h 0 none SIZE_MAX
          choices f hf
        have both : ∀ a2 : List Choice, th.choices = f.choices ++ a2 →
            (∀ ch ∈ a2, ∃ c ∈ rest, c ∉ evl ∧ ch.clause = some c ∧
              ∃ s, ch.best_start = some s ∧ Reached dyn c s) →
            ∃ added, th.choices = choices ++ added ∧
              ∀ ch ∈ added, ∃ c ∈ h :: rest, c ∉ evl ∧ ch.clause = some c ∧
                ∃ s, ch.best_start = some s ∧ Reached dyn c s := by
          intro a2 e2 hall
          refine ⟨a1 ++ a2, by rw [e2, hf1, List.append_assoc], ?_⟩
          intro ch hch
          rcases List.mem_append.1 hch with hm | hm
          · obtain ⟨e, s, hs, hr⟩ := hf2 ch hm
            exact ⟨h, List.mem_cons_self _ _, hev, e, s, hs, hr⟩
          · exact lift a2 hall ch hm
        split_ifs at hth with hsel
        · obtain ⟨a2, h1, h2⟩ := ih _ _ _ _ _ _ _ _ hth
          exact both a2 h1 h2
        · obtain ⟨a2, h1, h2⟩ := ih _ _ _ _ _ _ _ _ hth
          exact both a2 h1 h2

theorem find_thinnest_loop_start (as : AtomSpace) (dyn evl : List Atom) :
    ∀ (clauses : List Atom) (thinnest deepest : Nat)
      (bestclause best_start starter_term curr : Handle) (choices : List Choice)
      (th : Thinnest),
      find_thinnest_loop as dyn evl clauses thinnest deepest bestclause best_start
        starter_term curr choices = .ok th →
      (th.best_start = best_start ∧ th.bestclause = bestclause ∧
        th.starter_term = starter_term) ∨
      (∃ c ∈ clauses, c ∉ evl ∧ th.bestclause = some c ∧
        ∃ s d, th.best_start = some s ∧ Candidate dyn c 0 s d) := by
  intro clauses
  induction clauses with
  | nil =>
    intro thinnest deepest bestclause best_start starter_term curr choices th hth
    rw [find_thinnest_loop] at hth
    injection hth with hth
    subst hth
    exact Or.inl ⟨rfl, rfl, rfl⟩
  | cons h rest ih =>
    intro thinnest deepest bestclause best_start starter_term curr choices th hth
    rw [find_thinnest_loop] at hth
    have lift : (∃ c ∈ rest, c ∉ evl ∧ th.bestclause = some c ∧
        ∃ s d, th.best_start = some s ∧ Candidate dyn c 0 s d) →
        ∃ c ∈ h :: rest, c ∉ evl ∧ th.bestclause = some c ∧
          ∃ s d, th.best_start = some s ∧ Candidate dyn c 0 s d := by
      rintro ⟨c, hc, r⟩
      exact ⟨c, List.mem_cons_of_mem _ hc, r⟩
    split_ifs at hth with hev
    · exact (ih _ _ _ _ _ _ _ _ hth).imp id lift
    · split at hth
      · cases hth
      · rename_i f hf
        split_ifs at hth with hsel
        · rcases ih _ _ _ _ _ _ _ _ hth with ⟨h1, h2, _⟩ | r
          · obtain ⟨s0, hs0⟩ := Option.isSome_iff_exists.1 hsel.1
            have hsound := find_starter_sound as dyn (some h) h 0 none SIZE_MAX choices f hf
              s0 hs0
            exact Or.inr ⟨h, List.mem_cons_self _ _, hev, h2, s0, f.depth,
              by rw [h1, hs0], hsound.2.2⟩
          · exact Or.inr (lift r)
        · exact (ih _ _ _ _ _ _ _ _ hth).imp id lift

theorem try_optionals_iff (holders : List Atom) :
    ∀ l : List Atom, try_optionals holders l = true ↔ ∀ m ∈ l, m ∈ holders := by
  intro l
  induction l with
  | nil => simp [try_optionals]
  | cons m rest ih =>
    rw [try_optionals]
    by_cases hm : m ∈ holders
    · simp [hm, ih]
    · simp [hm]

theorem neighbor_clauses_eq (pat : Pattern) :
    neighbor_clauses pat =
      if ∀ m ∈ pat.mandatory, m ∈ pat.evaluatable_holders then pat.optionals
      else pat.mandatory := by
  unfold neighbor_clauses
  by_cases h : ∀ m ∈ pat.mandatory, m ∈ pat.evaluatable_holders
  · rw [if_pos h, if_pos ((try_optionals_iff _ _).2 h)]
  · rw [if_neg h, if_neg (fun e => h ((try_optionals_iff _ _).1 e))]

theorem setup_neighbor_search_scan (as : AtomSpace) (cb : InitiateSearchCB) (b : Bool)
    (cb1 : InitiateSearchCB) (hs : setup_neighbor_search as cb = .ok (b, cb1))
    (hne : ¬ (cb._pattern.mandatory = [] ∧ cb._pattern.optionals = [])) :
    ∃ th, find_thinnest as cb._dynamic cb._curr_clause (neighbor_clauses cb._pattern)
        cb._pattern.evaluatable_holders = .ok th ∧
      cb1._starter_term = th.starter_term ∧ cb1._curr_clause = th.curr_clause ∧
      cb1._pattern = cb._pattern ∧
      (b = true ↔ (th.best_start ≠ none ∨ th.choices ≠ [])) ∧
      cb1._choices =
        (if th.choices = [] ∧ th.best_start ≠ none
         then [⟨th.bestclause, th.best_start, th.starter_term⟩] else th.choices) := by
  unfold setup_neighbor_search at hs
  rw [if_neg (by simpa [List.isEmpty_iff] using hne)] at hs
  split at hs
  · cases hs
  · rename_i th hth
    refine ⟨th, hth, ?_⟩
    simp only [List.length_eq_zero] at hs
    split_ifs at hs with h1 h2
    · injection hs with hs
      injection hs with hb hcb
      subst hb hcb
      simp [h1.1, h1.2]
    · injection hs with hs
      injection hs with hb hcb
      subst hb hcb
      have hbs : th.best_start ≠ none := fun e => h1 ⟨e, h2⟩
      simp [h2, hbs]
    · injection hs with hs
      injection hs with hb hcb
      subst hb hcb
      simp [h2]
/-- C5: `setup_neighbor_search` hands to `find_thinnest` the optional clauses
if every mandatory clause is an evaluatable holder (also when there is no
mandatory clause) and the mandatory clauses otherwise; on success every Choice
record it leaves has as clause a clause of that list which is not an
evaluatable holder, and as `best_start` a constant node met inside that clause;
and when some mandatory clause is not an evaluatable holder, the outcome (result,
choice list, start term, current clause, root, search set) does not depend on
the optional clauses at all. -/
theorem setup_neighbor_search_optionals_iff_all_held (as : AtomSpace)
    (cb : InitiateSearchCB) :
    (∀ b cb1, setup_neighbor_search as cb = .ok (b, cb1) →
      ¬ (cb._pattern.mandatory = [] ∧ cb._pattern.optionals = []) →
      ∃ th, find_thinnest as cb._dynamic cb._curr_clause
          (if ∀ m ∈ cb._pattern.mandatory, m ∈ cb._pattern.evaluatable_holders
           then cb._pattern.optionals else cb._pattern.mandatory)
          cb._pattern.evaluatable_holders = .ok th ∧
        cb1._starter_term = th.starter_term ∧ cb1._curr_clause = th.curr_clause ∧
        cb1._choices =
          (if th.choices = [] ∧ th.best_start ≠ none
           then [⟨th.bestclause, th.best_start, th.starter_term⟩] else th.choices)) ∧
    (∀ cb1, setup_neighbor_search as cb = .ok (true, cb1) →
      ∀ ch ∈ cb1._choices,
        ∃ c ∈ (if ∀ m ∈ cb._pattern.mandatory, m ∈ cb._pattern.evaluatable_holders
               then cb._pattern.optionals else cb._pattern.mandatory),
          c ∉ cb._pattern.evaluatable_holders ∧ ch.clause = some c ∧
          ∃ s, ch.best_start = some s ∧ Reached cb._dynamic c s) ∧
    ((∃ m ∈ cb._pattern.mandatory, m ∉ cb._pattern.evaluatable_holders) →
      ∀ optionals2 : List Atom,
        (setup_neighbor_search as
            { cb with _pattern := { cb._pattern with optionals := optionals2 } }).map
          (fun r => (r.1, r.2._choices, r.2._starter_term, r.2._curr_clause, r.2._root,
            r.2._search_set)) =
        (setup_neighbor_search as cb).map
          (fun r => (r.1, r.2._choices, r.2._starter_term, r.2._curr_clause, r.2._root,
            r.2._search_set))) := by
  refine ⟨?_, ?_, ?_⟩
  · intro b cb1 hs hne
    obtain ⟨th, h1, h2, h3, _, _, h6⟩ := setup_neighbor_search_scan as cb b cb1 hs hne
    rw [neighbor_clauses_eq] at h1
    exact ⟨th, h1, h2, h3, h6⟩
  · intro cb1 hs ch hch
    have hne : ¬ (cb._pattern.mandatory = [] ∧ cb._pattern.optionals = []) := by
      intro he
      unfold setup_neighbor_search at hs
      rw [if_pos (by simpa [List.isEmpty_iff] using he)] at hs
      cases hs
    obtain ⟨th, h1, _, _, _, _, h6⟩ := setup_neighbor_search_scan as cb true cb1 hs hne
    rw [neighbor_clauses_eq] at h1
    rw [h6] at hch
    split_ifs at hch with hsingle
    · rw [List.mem_singleton] at hch
      subst hch
      rcases find_thinnest_loop_start as cb._dynamic cb._pattern.evaluatable_holders _ _ _ _ _
        _ _ _ th h1 with ⟨e, _, _⟩ | ⟨c, hc, hce, hbc, s, d, hs2, hcand⟩
      · exact absurd e hsingle.2
      · exact ⟨c, hc, hce, hbc, s, hs2, Candidate_reached hcand⟩
    · obtain ⟨added, ha, hall⟩ := find_thinnest_loop_choices as cb._dynamic
        cb._pattern.evaluatable_holders _ _ _ _ _ _ _ _ th h1
      rw [ha, List.nil_append] at hch
      exact hall ch hch
  · rintro ⟨m, hm, hmh⟩ optionals2
    have hno : ¬ (∀ x ∈ cb._pattern.mandatory, x ∈ cb._pattern.evaluatable_holders) :=
      fun hall => hmh (hall m hm)
    have hmne : cb._pattern.mandatory ≠ [] := List.ne_nil_of_mem hm
    unfold setup_neighbor_search
    simp only [neighbor_clauses_eq, if_neg hno, List.isEmpty_iff, hmne, false_and, if_false]
    cases find_thinnest as cb._dynamic cb._curr_clause cb._pattern.mandatory
        cb._pattern.evaluatable_holders with
    | error e => rfl
    | ok th =>
      simp only
      split_ifs <;> rfl

/-- Witness for C5: on the pattern `(And (Choice (Concept "A") (Concept "B")) $x)`,
whose mandatory clause is not an evaluatable holder, adding the optional clause
`(List $x (Concept "A"))` changes nothing. -/
theorem setup_neighbor_search_optionals_iff_all_held_witness :
    (setup_neighbor_search spaceAB
        { plannerAB with _pattern := { plannerAB._pattern with optionals := [listXA] } }).map
      (fun r => (r.1, r.2._choices, r.2._starter_term, r.2._curr_clause, r.2._root,
        r.2._search_set)) =
    (setup_neighbor_search spaceAB plannerAB).map
      (fun r => (r.1, r.2._choices, r.2._starter_term, r.2._curr_clause, r.2._root,
        r.2._search_set)) :=
  (setup_neighbor_search_optionals_iff_all_held spaceAB plannerAB).2.2
    ⟨andChoice, by decide, by decide⟩ [listXA]

/-! ## The choice list is only appended to -/

theorem find_starter_loop_frame (as : AtomSpace) (dyn : List Atom) (curr : Handle)
    (h : Atom) (t : LinkType) (depth : Nat) (pre : List Choice) :
    ∀ rest : List Atom,
    (∀ hunt ∈ rest, ∀ g, hunt_target hunt = some g →
      ∀ d st w ch, find_starter_recursive as dyn curr g d st w (pre ++ ch) =
        (find_starter_recursive as dyn curr g d st w ch).map
          (fun b => { b with choices := pre ++ b.choices })) →
    ∀ deepest hdeepest thinnest startrm choices,
      find_starter_loop as dyn curr h t depth rest deepest hdeepest thinnest startrm
          (pre ++ choices) =
        (find_starter_loop as dyn curr h t depth rest deepest hdeepest thinnest startrm
          choices).map (fun b => { b with choices := pre ++ b.choices }) := by
  intro rest
  induction rest with
  | nil =>
    intro _ deepest hdeepest thinnest startrm choices
    rw [find_starter_loop, find_starter_loop]
    rfl
  | cons hunt rest ihr =>
    intro ih deepest hdeepest thinnest startrm choices
    have ih2 := fun x hx => ih x (List.mem_cons_of_mem _ hx)
    rw [find_starter_loop_cons, find_starter_loop_cons]
    cases hg : hunt_target hunt with
    | none => rfl
    | some g =>
      simp only
      rw [ih hunt (List.mem_cons_self _ _) g hg]
      cases find_starter_recursive as dyn curr g (depth + 1)
          (if LinkType.CHOICE_LINK ≠ t then some h else startrm) SIZE_MAX choices with
      | error e => rfl
      | ok br =>
        simp only [Except.map]
        cases hr : br.ret with
        | none => exact ihr ih2 _ _ _ _ _
        | some s =>
          simp only
          split_ifs
          · rw [List.append_assoc]
            exact ihr ih2 _ _ _ _ _
          · exact ihr ih2 _ _ _ _ _
          · exact ihr ih2 _ _ _ _ _

theorem find_starter_recursive_frame (as : AtomSpace) (dyn : List Atom) (curr : Handle)
    (pre : List Choice) :
    ∀ (h : Atom) (d : Nat) (st : Handle) (w : Nat) (ch : List Choice),
      find_starter_recursive as dyn curr h d st w (pre ++ ch) =
        (find_starter_recursive as dyn curr h d st w ch).map
          (fun b => { b with choices := pre ++ b.choices }) := by
  intro h
  induction h using target_induct_atom with
  | hn t n =>
    intro d st w ch
    rw [find_starter_recursive, find_starter_recursive]
    split_ifs <;> rfl
  | hl t out ih =>
    intro d st w ch
    rw [find_starter_recursive, find_starter_recursive]
    split_ifs
    · rfl
    · exact find_starter_loop_frame as dyn curr _ t d pre out ih _ _ _ _ _

theorem find_starter_recursive_from_nil (as : AtomSpace) (dyn : List Atom) (curr : Handle)
    (h : Atom) (d : Nat) (st : Handle) (w : Nat) (ch : List Choice) (b : Found)
    (hb : find_starter_recursive as dyn curr h d st w ch = .ok b) :
    ∃ b0, find_starter_recursive as dyn curr h d st w [] = .ok b0 ∧
      b.ret = b0.ret ∧ b.depth = b0.depth ∧ b.startrm = b0.startrm ∧ b.width = b0.width ∧
      b.choices = ch ++ b0.choices := by
  have hf := find_starter_recursive_frame as dyn curr ch h d st w []
  rw [List.append_nil, hb] at hf
  cases h0 : find_starter_recursive as dyn curr h d st w [] with
  | error e =>
    rw [h0] at hf
    cases hf
  | ok b0 =>
    rw [h0] at hf
    simp only [Except.map] at hf
    injection hf with hf
    subst hf
    exact ⟨b0, rfl, rfl, rfl, rfl, rfl, rfl⟩

theorem hunt_target_subterms {hunt g x : Atom} (hg : hunt_target hunt = some g)
    (hx : x ∈ g.subterms) : x ∈ hunt.subterms := by
  cases hunt with
  | node t n =>
    simp only [hunt_target, Option.some.injEq] at hg
    subst hg
    exact hx
  | link t out =>
    cases out with
    | nil =>
      by_cases hq : is_quotation_type t = true
      · simp [hunt_target, hq] at hg
      · simp [hunt_target, hq] at hg
        subst hg
        exact hx
    | cons c cs =>
      by_cases hq : is_quotation_type t = true
      · simp [hunt_target, hq] at hg
        subst hg
        exact (mem_subterms_link x t _).2 (Or.inr ⟨c, List.mem_cons_self _ _, hx⟩)
      · simp [hunt_target, hq] at hg
        subst hg
        exact hx

theorem Reached_mem_subterms {dyn : List Atom} {h s : Atom} (hr : Reached dyn h s) :
    s ∈ h.subterms := by
  induction hr with
  | node t n _ => exact self_mem_subterms _
  | link t out hunt g s _ hm hg _ ih =>
    exact (mem_subterms_link s t out).2 (Or.inr ⟨hunt, hm, hunt_target_subterms hg ih⟩)

/-! ## Choice links -/

theorem find_starter_loop_choice_link (as : AtomSpace) (dyn : List Atom) (curr : Handle)
    (h : Atom) (depth : Nat) :
    ∀ (rest : List Atom) (deepest : Nat) (hdeepest : Handle) (thinnest : Nat)
      (startrm : Handle) (choices : List Choice) (b : Found),
      find_starter_loop as dyn curr h .CHOICE_LINK depth rest deepest hdeepest thinnest
        startrm choices = .ok b →
      b.ret = hdeepest ∧ b.depth = deepest ∧ b.width = thinnest ∧ b.startrm = startrm ∧
      ∃ brs : List Found,
        List.Forall₂ (fun hunt br => ∃ g, hunt_target hunt = some g ∧
            find_starter_recursive as dyn curr g (depth + 1) startrm SIZE_MAX [] = .ok br ∧
            ∀ s, br.ret = some s → s.isConstantNode = true ∧ s ∈ hunt.subterms) rest brs ∧
        b.choices = choices ++ (brs.map (branch_records curr)).flatten := by
  intro rest
  induction rest with
  | nil =>
    intro deepest hdeepest thinnest startrm choices b hb
    rw [find_starter_loop] at hb
    injection hb with hb
    subst hb
    exact ⟨rfl, rfl, rfl, rfl, [], List.Forall₂.nil, by simp⟩
  | cons hunt rest ihr =>
    intro deepest hdeepest thinnest startrm choices b hb
    rw [find_starter_loop_cons] at hb
    split at hb
    · cases hb
    · rename_i g hg
      simp only [ne_eq, not_true_eq_false, if_false] at hb
      split at hb
      · cases hb
      · rename_i br hbr
        obtain ⟨b0, hb0, e1, e2, e3, e4, e5⟩ :=
          find_starter_recursive_from_nil as dyn curr g _ _ _ _ br hbr
        have hin : ∀ s, b0.ret = some s → s.isConstantNode = true ∧ s ∈ hunt.subterms := by
          intro s hs
          have hsound := find_starter_recursive_sound as dyn curr g _ _ _ _ b0 hb0 s hs
          exact ⟨hsound.1,
            hunt_target_subterms hg (Reached_mem_subterms (Candidate_reached hsound.2.2))⟩
        split at hb
        · rename_i hnone
          obtain ⟨r1, r2, r3, r4, brs, hall, hch⟩ := ihr _ _ _ _ _ _ hb
          refine ⟨r1, r2, r3, r4, b0 :: brs, List.Forall₂.cons ⟨g, hg, hb0, hin⟩ hall, ?_⟩
          rw [hch, e5]
          rw [e1] at hnone
          simp [branch_records, hnone]
        · rename_i s hs
          simp only [if_true] at hb
          obtain ⟨r1, r2, r3, r4, brs, hall, hch⟩ := ihr _ _ _ _ _ _ hb
          refine ⟨r1, r2, r3, r4, b0 :: brs, List.Forall₂.cons ⟨g, hg, hb0, hin⟩ hall, ?_⟩
          rw [hch, e5, e3]
          rw [e1] at hs
          simp [branch_records, hs]

/-- C6: when `find_starter_recursive` scans a choice link (one that is not in
the evaluatable set, which is returned from at once with no starter and no
record), it returns no starter to its parent, leaves depth and start term as
they were, and appends to the choice list, branch after branch in branch order,
the records the search of that branch appended itself followed by exactly one
record if that search returned a starter and none otherwise; the record has
the clause being scanned as clause and the starter, a constant node occurring
inside the branch, as `best_start`.  On
`(And (Choice (Concept "A") (Concept "B")) $x)` exactly two records are
produced, for A then for B. -/
theorem choice_link_one_record_per_branch :
    (∀ (as : AtomSpace) (dyn : List Atom) (curr : Handle) (out : List Atom) (depth : Nat)
        (startrm : Handle) (width : Nat) (choices : List Choice) (b : Found),
      find_starter_recursive as dyn curr (.link .CHOICE_LINK out) depth startrm width
        choices = .ok b →
      b.ret = none ∧ b.depth = depth ∧ b.startrm = startrm ∧
      (Atom.link .CHOICE_LINK out ∈ dyn → b.choices = choices) ∧
      (Atom.link .CHOICE_LINK out ∉ dyn →
        ∃ brs : List Found,
          List.Forall₂ (fun hunt br => ∃ g, hunt_target hunt = some g ∧
              find_starter_recursive as dyn curr g (depth + 1) startrm SIZE_MAX [] = .ok br ∧
              ∀ s, br.ret = some s → s.isConstantNode = true ∧ s ∈ hunt.subterms) out brs ∧
          b.choices = choices ++ (brs.map (branch_records curr)).flatten)) ∧
    find_starter spaceAB [] (some andChoice) andChoice 0 none SIZE_MAX [] =
      .ok ⟨none, 0, none, SIZE_MAX,
        [⟨some andChoice, some conceptA, some andChoice⟩,
         ⟨some andChoice, some conceptB, some andChoice⟩]⟩ := by
  refine ⟨?_, by decide⟩
  intro as dyn curr out depth startrm width choices b hb
  rw [find_starter_recursive] at hb
  split_ifs at hb with hdyn
  · injection hb with hb
    subst hb
    exact ⟨rfl, rfl, rfl, fun _ => rfl, fun hn => absurd hdyn hn⟩
  · obtain ⟨r1, r2, _, r4, brs, hall, hch⟩ :=
      find_starter_loop_choice_link as dyn curr _ depth out _ _ _ _ _ b hb
    exact ⟨r1, r2, r4, fun hd => absurd hd hdyn, fun _ => ⟨brs, hall, hch⟩⟩

/-- Witness for C6: the scan of `(Choice (Concept "A") (Concept "B"))` inside
the clause `(And (Choice ...) $x)` appends the record for A, then the one for B. -/
theorem choice_link_one_record_per_branch_witness :
    find_starter_recursive spaceAB [] (some andChoice) choiceAB 1 (some andChoice)
        SIZE_MAX [] =
      .ok ⟨none, 1, some andChoice, SIZE_MAX,
        [⟨some andChoice, some conceptA, some andChoice⟩,
         ⟨some andChoice, some conceptB, some andChoice⟩]⟩ ∧
    (none : Handle) = none ∧ 1 = 1 ∧ some andChoice = some andChoice :=
  ⟨by decide,
    (choice_link_one_record_per_branch.1 spaceAB [] (some andChoice) [conceptA, conceptB] 1
      (some andChoice) SIZE_MAX []
      ⟨none, 1, some andChoice, SIZE_MAX,
        [⟨some andChoice, some conceptA, some andChoice⟩,
         ⟨some andChoice, some conceptB, some andChoice⟩]⟩ (by decide)).1,
    (choice_link_one_record_per_branch.1 spaceAB [] (some andChoice) [conceptA, conceptB] 1
      (some andChoice) SIZE_MAX []
      ⟨none, 1, some andChoice, SIZE_MAX,
        [⟨some andChoice, some conceptA, some andChoice⟩,
         ⟨some andChoice, some conceptB, some andChoice⟩]⟩ (by decide)).2.1,
    (choice_link_one_record_per_branch.1 spaceAB [] (some andChoice) [conceptA, conceptB] 1
      (some andChoice) SIZE_MAX []
      ⟨none, 1, some andChoice, SIZE_MAX,
        [⟨some andChoice, some conceptA, some andChoice⟩,
         ⟨some andChoice, some conceptB, some andChoice⟩]⟩ (by decide)).2.2.1⟩

/-! ## The search loop -/

theorem search_loop_over_false {σ : Type} (eng : PatternMatchEngine σ) (vars : Variables)
    (pat : Pattern) (root starter : Handle) :
    ∀ (l : List Atom) (pmc pmc1 : σ),
      search_loop_over eng vars pat root starter l pmc = (false, pmc1) ↔
        rejects_all eng vars pat root starter l pmc pmc1 := by
  intro l
  induction l with
  | nil =>
    intro pmc pmc1
    simp only [search_loop_over, rejects_all, Prod.mk.injEq, true_and]
    exact eq_comm
  | cons h rest ih =>
    intro pmc pmc1
    rw [search_loop_over, rejects_all]
    cases he : eng.explore_neighborhood vars pat root starter h pmc with
    | mk b p1 =>
      cases b with
      | true => simp
      | false => simpa using ih p1 pmc1

theorem search_loop_over_true {σ : Type} (eng : PatternMatchEngine σ) (vars : Variables)
    (pat : Pattern) (root starter : Handle) :
    ∀ (l : List Atom) (pmc pmc1 : σ),
      search_loop_over eng vars pat root starter l pmc = (true, pmc1) ↔
        ∃ pre c post mid, l = pre ++ c :: post ∧
          rejects_all eng vars pat root starter pre pmc mid ∧
          eng.explore_neighborhood vars pat root starter c mid = (true, pmc1) := by
  intro l
  induction l with
  | nil =>
    intro pmc pmc1
    simp [search_loop_over]
  | cons h rest ih =>
    intro pmc pmc1
    rw [search_loop_over]
    cases he : eng.explore_neighborhood vars pat root starter h pmc with
    | mk b p1 =>
      cases b with
      | true =>
        simp only [Prod.mk.injEq, true_and]
        constructor
        · intro e
          subst e
          exact ⟨[], h, rest, pmc, rfl, rfl, he⟩
        · rintro ⟨pre, c, post, mid, hl, hrej, hacc⟩
          cases pre with
          | nil =>
            simp only [List.nil_append, List.cons.injEq] at hl
            obtain ⟨e1, _⟩ := hl
            subst e1
            rw [rejects_all] at hrej
            subst hrej
            rw [he] at hacc
            injection hacc with _ e2
          | cons x pre2 =>
            simp only [List.cons_append, List.cons.injEq] at hl
            obtain ⟨e1, _⟩ := hl
            subst e1
            rw [rejects_all, he] at hrej
            cases hrej.1
      | false =>
        simp only
        rw [ih p1 pmc1]
        constructor
        · rintro ⟨pre, c, post, mid, hl, hrej, hacc⟩
          refine ⟨h :: pre, c, post, mid, by rw [hl]; rfl, ?_, hacc⟩
          rw [rejects_all, he]
          exact ⟨rfl, hrej⟩
        · rintro ⟨pre, c, post, mid, hl, hrej, hacc⟩
          cases pre with
          | nil =>
            simp only [List.nil_append, List.cons.injEq] at hl
            obtain ⟨e1, _⟩ := hl
            subst e1
            rw [rejects_all] at hrej
            subst hrej
            rw [he] at hacc
            injection hacc with e2 _
            cases e2
          | cons x pre2 =>
            simp only [List.cons_append, List.cons.injEq] at hl
            obtain ⟨e1, e2⟩ := hl
            subst e1
            rw [rejects_all, he] at hrej
            exact ⟨pre2, c, post, mid, e2, hrej.2, hacc⟩

/-- C8: `search_loop` calls `explore_neighborhood(root, start_term, candidate)`
on the candidates of the search set in order, with root and start term fixed,
threading the callback state.  It returns `true` exactly when some candidate
is accepted after all candidates before it were rejected, and then stops with
the state left by that call; it returns `false` exactly when every candidate
is rejected in turn, in particular on an empty search set. -/
theorem search_loop_first_accept {σ : Type} (eng : PatternMatchEngine σ)
    (cb : InitiateSearchCB) (pmc : σ) :
    (∀ pmc1, search_loop eng cb pmc = (true, pmc1) ↔
      ∃ pre c post mid, cb._search_set = pre ++ c :: post ∧
        rejects_all eng cb._variables cb._pattern cb._root cb._starter_term pre pmc mid ∧
        eng.explore_neighborhood cb._variables cb._pattern cb._root cb._starter_term c mid =
          (true, pmc1)) ∧
    (∀ pmc1, search_loop eng cb pmc = (false, pmc1) ↔
      rejects_all eng cb._variables cb._pattern cb._root cb._starter_term cb._search_set
        pmc pmc1) ∧
    (cb._search_set = [] → search_loop eng cb pmc = (false, pmc)) := by
  refine ⟨fun pmc1 => search_loop_over_true eng _ _ _ _ _ pmc pmc1,
    fun pmc1 => search_loop_over_false eng _ _ _ _ _ pmc pmc1, ?_⟩
  intro he
  unfold search_loop
  rw [he]
  rfl

/-- Witness for C8: with the search set `[A, B]` and an engine accepting only B,
the loop explores A then B and returns `true`. -/
theorem search_loop_first_accept_witness :
    search_loop (engineAccepting [conceptB])
      { plannerAB with _search_set := [conceptA, conceptB] } [] =
        (true, [conceptA, conceptB]) ∧
    ∃ pre c post mid, [conceptA, conceptB] = pre ++ c :: post ∧
      rejects_all (engineAccepting [conceptB]) plannerAB._variables plannerAB._pattern
        none none pre [] mid ∧
      (engineAccepting [conceptB]).explore_neighborhood plannerAB._variables
        plannerAB._pattern none none c mid = (true, [conceptA, conceptB]) :=
  ⟨by decide,
    ((search_loop_first_accept (engineAccepting [conceptB])
      { plannerAB with _search_set := [conceptA, conceptB] } []).1
        [conceptA, conceptB]).1 (by decide)⟩

/-! ## The choice driver -/

theorem choice_loop_over_cons {σ : Type} (as : AtomSpace) (eng : PatternMatchEngine σ)
    (ch : Choice) (rest : List Choice) (cb : InitiateSearchCB) (pmc : σ) (st bs : Atom)
    (hst : ch.start_term = some st) (hbs : ch.best_start = some bs) :
    choice_loop_over as eng (ch :: rest) cb pmc =
      match search_loop_over eng cb._variables cb._pattern ch.clause ch.start_term
          (choice_search_set as bs st) pmc with
      | (true, pmc1) =>
        .ok (true, { cb with _root := ch.clause, _starter_term := ch.start_term,
                             _search_set := choice_search_set as bs st }, pmc1)
      | (false, pmc1) =>
        choice_loop_over as eng rest
          { cb with _root := ch.clause, _starter_term := ch.start_term,
                    _search_set := choice_search_set as bs st } pmc1 := by
  rw [choice_loop_over]
  simp only [hst, hbs]
  rfl

theorem choice_loop_over_undefined {σ : Type} (as : AtomSpace) (eng : PatternMatchEngine σ)
    (ch : Choice) (rest : List Choice) (cb : InitiateSearchCB) (pmc : σ)
    (h : ch.start_term = none ∨ ch.best_start = none) :
    choice_loop_over as eng (ch :: rest) cb pmc = .error .null_handle := by
  rw [choice_loop_over]
  rcases h with h | h
  · simp only [h]
  · cases hs : ch.start_term with
    | none => simp only [h]
    | some st => simp only [h]

theorem choice_loop_over_false {σ : Type} (as : AtomSpace) (eng : PatternMatchEngine σ) :
    ∀ (l : List Choice) (cb : InitiateSearchCB) (pmc pmc1 : σ),
      (∃ cb1, choice_loop_over as eng l cb pmc = .ok (false, cb1, pmc1)) ↔
        rejects_choices as eng cb._variables cb._pattern l pmc pmc1 := by
  intro l
  induction l with
  | nil =>
    intro cb pmc pmc1
    simp only [choice_loop_over, rejects_choices, Except.ok.injEq, Prod.mk.injEq, true_and]
    constructor
    · rintro ⟨cb1, _, e⟩
      exact e.symm
    · intro e
      exact ⟨cb, rfl, e.symm⟩
  | cons ch rest ih =>
    intro cb pmc pmc1
    rw [rejects_choices]
    cases hst : ch.start_term with
    | none =>
      rw [choice_loop_over_undefined as eng ch rest cb pmc (Or.inl hst)]
      simp
    | some st =>
      cases hbs : ch.best_start with
      | none =>
        rw [choice_loop_over_undefined as eng ch rest cb pmc (Or.inr hbs)]
        simp
      | some bs =>
        rw [choice_loop_over_cons as eng ch rest cb pmc st bs hst hbs]
        cases hsl : search_loop_over eng cb._variables cb._pattern ch.clause ch.start_term
            (choice_search_set as bs st) pmc with
        | mk b p1 =>
          cases b with
          | true =>
            simp only [Except.ok.injEq, Prod.mk.injEq, Bool.true_eq_false, false_and,
              exists_false, false_iff]
            rintro ⟨st2, bs2, mid, e1, e2, hrej, _⟩
            injection e1 with e1
            injection e2 with e2
            subst e1 e2
            rw [hst] at hsl
            have := (search_loop_over_false eng _ _ _ _ _ pmc mid).2 hrej
            rw [this] at hsl
            injection hsl with e3 _
            cases e3
          | false =>
            simp only
            rw [ih]
            constructor
            · intro hrest
              refine ⟨st, bs, p1, rfl, rfl, ?_, hrest⟩
              rw [← hst]
              exact (search_loop_over_false eng _ _ _ _ _ pmc p1).1 hsl
            · rintro ⟨st2, bs2, mid, e1, e2, hrej, hrest⟩
              injection e1 with e1
              injection e2 with e2
              subst e1 e2
              rw [← hst] at hrej
              have := (search_loop_over_false eng _ _ _ _ _ pmc mid).2 hrej
              rw [this] at hsl
              injection hsl with _ e4
              subst e4
              exact hrest

theorem choice_loop_over_true {σ : Type} (as : AtomSpace) (eng : PatternMatchEngine σ) :
    ∀ (l : List Choice) (cb : InitiateSearchCB) (pmc : σ) (cb1 : InitiateSearchCB)
      (pmc1 : σ),
      choice_loop_over as eng l cb pmc = .ok (true, cb1, pmc1) ↔
        ∃ pre ch post st bs mid, l = pre ++ ch :: post ∧
          rejects_choices as eng cb._variables cb._pattern pre pmc mid ∧
          ch.start_term = some st ∧ ch.best_start = some bs ∧
          search_loop_over eng cb._variables cb._pattern ch.clause ch.start_term
            (choice_search_set as bs st) mid = (true, pmc1) ∧
          cb1 = { cb with _root := ch.clause, _starter_term := ch.start_term,
                          _search_set := choice_search_set as bs st } := by
  intro l
  induction l with
  | nil =>
    intro cb pmc cb1 pmc1
    simp [choice_loop_over]
  | cons ch0 rest ih =>
    intro cb pmc cb1 pmc1
    constructor
    · intro hrun
      cases hst : ch0.start_term with
      | none =>
        rw [choice_loop_over_undefined as eng ch0 rest cb pmc (Or.inl hst)] at hrun
        cases hrun
      | some st =>
        cases hbs : ch0.best_start with
        | none =>
          rw [choice_loop_over_undefined as eng ch0 rest cb pmc (Or.inr hbs)] at hrun
          cases hrun
        | some bs =>
          rw [choice_loop_over_cons as eng ch0 rest cb pmc st bs hst hbs] at hrun
          cases hsl : search_loop_over eng cb._variables cb._pattern ch0.clause
              ch0.start_term (choice_search_set as bs st) pmc with
          | mk b p1 =>
            rw [hsl] at hrun
            cases b with
            | true =>
              simp only [Except.ok.injEq, Prod.mk.injEq, true_and] at hrun
              obtain ⟨e1, e2⟩ := hrun
              subst e2
              exact ⟨[], ch0, rest, st, bs, pmc, rfl, rfl, hst, hbs, hsl, e1.symm⟩
            | false =>
              simp only at hrun
              obtain ⟨pre, ch, post, st2, bs2, mid, hl, hrej, h1, h2, h3, h4⟩ :=
                (ih _ _ _ _).1 hrun
              refine ⟨ch0 :: pre, ch, post, st2, bs2, mid, by rw [hl]; rfl, ?_, h1, h2, h3, h4⟩
              rw [rejects_choices]
              refine ⟨st, bs, p1, hst, hbs, ?_, hrej⟩
              exact (search_loop_over_false eng _ _ _ _ _ pmc p1).1 hsl
    · rintro ⟨pre, ch, post, st, bs, mid, hl, hrej, h1, h2, h3, h4⟩
      cases pre with
      | nil =>
        simp only [List.nil_append, List.cons.injEq] at hl
        obtain ⟨e1, _⟩ := hl
        subst e1
        rw [rejects_choices] at hrej
        subst hrej
        rw [choice_loop_over_cons as eng ch0 rest cb mid st bs h1 h2, h3, h4]
      | cons x pre2 =>
        simp only [List.cons_append, List.cons.injEq] at hl
        obtain ⟨e1, e2⟩ := hl
        subst e1
        rw [rejects_choices] at hrej
        obtain ⟨st0, bs0, m0, g1, g2, hrej0, hrej2⟩ := hrej
        rw [choice_loop_over_cons as eng ch0 rest cb pmc st0 bs0 g1 g2,
          (search_loop_over_false eng _ _ _ _ _ pmc m0).2 hrej0]
        simp only
        rw [ih]
        exact ⟨pre2, ch, post, st, bs, mid, e2, hrej2, h1, h2, h3, by rw [h4]⟩

theorem choice_loop_over_total {σ : Type} (as : AtomSpace) (eng : PatternMatchEngine σ) :
    ∀ (l : List Choice) (cb : InitiateSearchCB) (pmc : σ),
      (∀ ch ∈ l, ch.start_term ≠ none ∧ ch.best_start ≠ none) →
      ∃ r, choice_loop_over as eng l cb pmc = .ok r := by
  intro l
  induction l with
  | nil =>
    intro cb pmc _
    exact ⟨_, rfl⟩
  | cons ch rest ih =>
    intro cb pmc hall
    obtain ⟨h1, h2⟩ := hall ch (List.mem_cons_self _ _)
    obtain ⟨st, hst⟩ := Option.ne_none_iff_exists'.1 h1
    obtain ⟨bs, hbs⟩ := Option.ne_none_iff_exists'.1 h2
    rw [choice_loop_over_cons as eng ch rest cb pmc st bs hst hbs]
    cases hsl : search_loop_over eng cb._variables cb._pattern ch.clause ch.start_term
        (choice_search_set as bs st) pmc with
    | mk b p1 =>
      cases b with
      | true => exact ⟨_, rfl⟩
      | false => exact ih _ _ (fun c hc => hall c (List.mem_cons_of_mem _ hc))

/-- C7: `choice_loop` tries the Choice records in insertion order.  It returns
`true` exactly when, the engine having rejected every candidate of every
earlier choice, some candidate of a choice is accepted after the candidates
before it in that choice's search set were rejected; the planner is then left
with `root` = the clause of that choice, its start term, and as search set
exactly the links in the incoming set of its `best_start` whose type equals the
type of its start term, and the callback state is the one left by the accepting
call, so nothing after it is explored.  It returns `false` exactly when every
candidate of every choice is rejected in turn.  It returns whenever every
record has defined handles. -/
theorem choice_loop_first_satisfied {σ : Type} (as : AtomSpace)
    (eng : PatternMatchEngine σ) (cb : InitiateSearchCB) (pmc : σ) :
    (∀ cb1 pmc1, choice_loop as eng cb pmc = .ok (true, cb1, pmc1) ↔
      ∃ pre ch post st bs mid cpre c cpost cmid,
        cb._choices = pre ++ ch :: post ∧
        rejects_choices as eng cb._variables cb._pattern pre pmc mid ∧
        ch.start_term = some st ∧ ch.best_start = some bs ∧
        choice_search_set as bs st = cpre ++ c :: cpost ∧
        rejects_all eng cb._variables cb._pattern ch.clause ch.start_term cpre mid cmid ∧
        eng.explore_neighborhood cb._variables cb._pattern ch.clause ch.start_term c cmid =
          (true, pmc1) ∧
        cb1 = { cb with _root := ch.clause, _starter_term := ch.start_term,
                        _search_set := choice_search_set as bs st }) ∧
    (∀ pmc1, (∃ cb1, choice_loop as eng cb pmc = .ok (false, cb1, pmc1)) ↔
      rejects_choices as eng cb._variables cb._pattern cb._choices pmc pmc1) ∧
    ((∀ ch ∈ cb._choices, ch.start_term ≠ none ∧ ch.best_start ≠ none) →
      ∃ r, choice_loop as eng cb pmc = .ok r) := by
  refine ⟨?_, fun pmc1 => choice_loop_over_false as eng _ cb pmc pmc1,
    choice_loop_over_total as eng _ cb pmc⟩
  intro cb1 pmc1
  unfold choice_loop
  rw [choice_loop_over_true]
  constructor
  · rintro ⟨pre, ch, post, st, bs, mid, hl, hrej, h1, h2, h3, h4⟩
    obtain ⟨cpre, c, cpost, cmid, g1, g2, g3⟩ :=
      (search_loop_over_true eng _ _ _ _ _ mid pmc1).1 h3
    exact ⟨pre, ch, post, st, bs, mid, cpre, c, cpost, cmid, hl, hrej, h1, h2, g1, g2, g3, h4⟩
  · rintro ⟨pre, ch, post, st, bs, mid, cpre, c, cpost, cmid, hl, hrej, h1, h2, g1, g2, g3, h4⟩
    exact ⟨pre, ch, post, st, bs, mid, hl, hrej, h1, h2,
      (search_loop_over_true eng _ _ _ _ _ mid pmc1).2 ⟨cpre, c, cpost, cmid, g1, g2, g3⟩, h4⟩

/-- Witness for C7: for the choice `(List $x (Concept "A"))` / `Concept "A"` the
search set is the two List links of the incoming set (the Choice link is
filtered out); the engine rejects the first and accepts the second. -/
theorem choice_loop_first_satisfied_witness :
    choice_loop spaceList (engineAccepting [listVA]) plannerList [] =
      .ok (true, { plannerList with _root := some listXA,
                                    _search_set := [listUA, listVA] }, [listUA, listVA]) ∧
    ∃ pre ch post st bs mid cpre c cpost cmid,
      plannerList._choices = pre ++ ch :: post ∧
      rejects_choices spaceList (engineAccepting [listVA]) plannerList._variables
        plannerList._pattern pre [] mid ∧
      ch.start_term = some st ∧ ch.best_start = some bs ∧
      choice_search_set spaceList bs st = cpre ++ c :: cpost ∧
      rejects_all (engineAccepting [listVA]) plannerList._variables plannerList._pattern
        ch.clause ch.start_term cpre mid cmid ∧
      (engineAccepting [listVA]).explore_neighborhood plannerList._variables
        plannerList._pattern ch.clause ch.start_term c cmid = (true, [listUA, listVA]) ∧
      { plannerList with _root := some listXA, _search_set := [listUA, listVA] } =
        { plannerList with _root := ch.clause, _starter_term := ch.start_term,
                           _search_set := choice_search_set spaceList bs st } :=
  ⟨by decide,
    ((choice_loop_first_satisfied spaceList (engineAccepting [listVA]) plannerList []).1
      { plannerList with _root := some listXA, _search_set := [listUA, listVA] }
      [listUA, listVA]).1 (by decide)⟩

/-! ## A reachable constant always leaves a trace -/

theorem find_starter_loop_complete (as : AtomSpace) (dyn : List Atom) (curr : Handle)
    (h : Atom) (t : LinkType) (depth : Nat) :
    ∀ rest : List Atom,
    (∀ hunt ∈ rest, ∀ g, hunt_target hunt = some g →
      ∀ d st w ch b, find_starter_recursive as dyn curr g d st w ch = .ok b →
        ∀ s, Reached dyn g s → b.ret ≠ none ∨ ch.length < b.choices.length) →
    ∀ deepest hdeepest thinnest startrm choices b,
      (hdeepest = none → thinnest = SIZE_MAX) →
      find_starter_loop as dyn curr h t depth rest deepest hdeepest thinnest
        startrm choices = .ok b →
      choices.length ≤ b.choices.length ∧ (hdeepest ≠ none → b.ret ≠ none) ∧
      (∀ hunt ∈ rest, ∀ g, hunt_target hunt = some g → ∀ s, Reached dyn g s →
        b.ret ≠ none ∨ choices.length < b.choices.length) := by
  intro rest
  induction rest with
  | nil =>
    intro _ deepest hdeepest thinnest startrm choices b _ hb
    rw [find_starter_loop] at hb
    injection hb with hb
    subst hb
    exact ⟨Nat.le_refl _, fun hne => hne, fun hunt hm => absurd hm (List.not_mem_nil _)⟩
  | cons hunt rest ihr =>
    intro ih deepest hdeepest thinnest startrm choices b hinv hb
    have ih2 := fun x hx => ih x (List.mem_cons_of_mem _ hx)
    rw [find_starter_loop_cons] at hb
    split at hb
    · cases hb
    · rename_i g hg
      split at hb
      · cases hb
      · rename_i br hbr
        have hchild := ih hunt (List.mem_cons_self _ _) g hg _ _ _ _ _ hbr
        obtain ⟨a1, ha1, _⟩ := find_starter_recursive_choices as dyn curr g _ _ _ _ _ hbr
        have hlen : choices.length ≤ br.choices.length := by
          rw [ha1, List.length_append]; omega
        split at hb
        · rename_i hnone
          obtain ⟨r1, r2, r3⟩ := ihr ih2 _ _ _ _ _ _ hinv hb
          refine ⟨by omega, r2, ?_⟩
          intro x hx g2 hg2 s hr
          rcases List.mem_cons.1 hx with e | hx2
          · subst e
            rw [hg] at hg2
            injection hg2 with hg2
            subst hg2
            rcases hchild s hr with hc | hc
            · exact absurd hnone hc
            · exact Or.inr (by omega)
          · rcases r3 x hx2 g2 hg2 s hr with hc | hc
            · exact Or.inl hc
            · exact Or.inr (by omega)
        · rename_i s0 hs0
          have hsound := find_starter_recursive_sound as dyn curr g _ _ _ _ _ hbr s0 hs0
          have hlt : br.width < SIZE_MAX := by
            rw [hsound.2.1]; exact getIncomingSetSize_lt as s0
          split_ifs at hb with hc hsel
          · obtain ⟨r1, r2, _⟩ := ihr ih2 _ _ _ _ _ _ hinv hb
            rw [List.length_append, List.length_singleton] at r1
            exact ⟨by omega, r2, fun _ _ _ _ _ _ => Or.inr (by omega)⟩
          · obtain ⟨r1, r2, _⟩ := ihr ih2 br.depth (some s0) br.width _ _ _
              (fun e => by cases e) hb
            have hne : b.ret ≠ none := r2 (by simp)
            exact ⟨by omega, fun _ => hne, fun _ _ _ _ _ _ => Or.inl hne⟩
          · obtain ⟨r1, r2, r3⟩ := ihr ih2 _ _ _ _ _ _ hinv hb
            have hdn : hdeepest ≠ none := by
              intro e
              have := hinv e
              apply hsel
              left
              omega
            exact ⟨by omega, r2, fun _ _ _ _ _ _ => Or.inl (r2 hdn)⟩

theorem find_starter_recursive_complete (as : AtomSpace) (dyn : List Atom) (curr : Handle) :
    ∀ (h : Atom) (d : Nat) (st : Handle) (w : Nat) (ch : List Choice) (b : Found),
      find_starter_recursive as dyn curr h d st w ch = .ok b →
      ∀ s, Reached dyn h s → b.ret ≠ none ∨ ch.length < b.choices.length := by
  intro h
  induction h using target_induct_atom with
  | hn t n =>
    intro d st w ch b hb s hr
    rw [find_starter_recursive] at hb
    cases hr with
    | node _ _ hk =>
      rw [if_pos hk] at hb
      injection hb with hb
      subst hb
      exact Or.inl (by simp)
  | hl t out ih =>
    intro d st w ch b hb s hr
    rw [find_starter_recursive] at hb
    cases hr with
    | link _ _ hunt g _ hdyn hm hg hrg =>
      rw [if_neg hdyn] at hb
      exact (find_starter_loop_complete as dyn curr _ t d out ih _ _ _ _ _ _ (fun _ => rfl)
        hb).2.2 hunt hm g hg s hrg

theorem find_starter_complete (as : AtomSpace) (dyn : List Atom) (curr : Handle)
    (h : Atom) (d : Nat) (st : Handle) (w : Nat) (ch : List Choice) (b : Found)
    (hb : find_starter as dyn curr h d st w ch = .ok b) (s : Atom) (hr : Reached dyn h s) :
    b.ret ≠ none ∨ ch.length < b.choices.length := by
  cases h with
  | node t n =>
    rw [find_starter_node] at hb
    cases hr with
    | node _ _ hk =>
      rw [if_pos hk] at hb
      injection hb with hb
      subst hb
      exact Or.inl (by simp)
  | link t out => exact find_starter_recursive_complete as dyn curr _ d st w ch b hb s hr

theorem find_thinnest_loop_complete (as : AtomSpace) (dyn evl : List Atom) :
    ∀ (clauses : List Atom) (thinnest deepest : Nat)
      (bestclause best_start starter_term curr : Handle) (choices : List Choice)
      (th : Thinnest),
      (best_start = none → thinnest = SIZE_MAX) →
      find_thinnest_loop as dyn evl clauses thinnest deepest bestclause best_start
        starter_term curr choices = .ok th →
      choices.length ≤ th.choices.length ∧ (best_start ≠ none → th.best_start ≠ none) ∧
      (∀ c ∈ clauses, c ∉ evl → ∀ s, Reached dyn c s →
        th.best_start ≠ none ∨ choices.length < th.choices.length) := by
  intro clauses
  induction clauses with
  | nil =>
    intro thinnest deepest bestclause best_start starter_term curr choices th _ hth
    rw [find_thinnest_loop] at hth
    injection hth with hth
    subst hth
    exact ⟨Nat.le_refl _, fun h => h, fun c hc => absurd hc (List.not_mem_nil _)⟩
  | cons h rest ih =>
    intro thinnest deepest bestclause best_start starter_term curr choices th hinv hth
    rw [find_thinnest_loop] at hth
    split_ifs at hth with hev
    · obtain ⟨r1, r2, r3⟩ := ih _ _ _ _ _ _ _ _ hinv hth
      refine ⟨r1, r2, ?_⟩
      intro c hc hce
      rcases List.mem_cons.1 hc with e | hc2
      · subst e
        exact absurd hev hce
      · exact r3 c hc2 hce
    · split at hth
      · cases hth
      · rename_i f hf
        obtain ⟨a1, ha1, _⟩ := find_starter_choices as dyn (some h) h 0 none SIZE_MAX
          choices f hf
        have hlen : choices.length ≤ f.choices.length := by
          rw [ha1, List.length_append]; omega
        split_ifs at hth with hsel
        · obtain ⟨s0, hs0⟩ := Option.isSome_iff_exists.1 hsel.1
          obtain ⟨r1, r2, _⟩ := ih f.width f.depth (some h) f.ret f.startrm (some h)
            f.choices th (fun e => by rw [hs0] at e; cases e) hth
          have hne : th.best_start ≠ none := r2 (by rw [hs0]; simp)
          exact ⟨by omega, fun _ => hne, fun _ _ _ _ _ => Or.inl hne⟩
        · obtain ⟨r1, r2, r3⟩ := ih _ _ _ _ _ _ _ _ hinv hth
          refine ⟨by omega, r2, ?_⟩
          intro c hc hce s hr
          rcases List.mem_cons.1 hc with e | hc2
          · subst e
            rcases find_starter_complete as dyn (some c) c 0 none SIZE_MAX choices f hf s hr
              with hret | hlt
            · obtain ⟨s0, hs0⟩ := Option.ne_none_iff_exists'.1 hret
              have hsound := find_starter_sound as dyn (some c) c 0 none SIZE_MAX choices f hf
                s0 hs0
              have hw : f.width < SIZE_MAX := by
                rw [hsound.2.1]; exact getIncomingSetSize_lt as s0
              have hbn : best_start ≠ none := by
                intro e
                have := hinv e
                apply hsel
                exact ⟨by rw [hs0]; rfl, Or.inl (by omega)⟩
              exact Or.inl (r2 hbn)
            · exact Or.inr (by omega)
          · rcases r3 c hc2 hce s hr with hc3 | hc3
            · exact Or.inl hc3
            · exact Or.inr (by omega)

theorem find_thinnest_loop_total (as : AtomSpace) (dyn evl : List Atom) :
    ∀ (clauses : List Atom), (∀ c ∈ clauses, c ∉ evl → QuotesFilled c) →
      ∀ (thinnest deepest : Nat) (bestclause best_start starter_term curr : Handle)
        (choices : List Choice),
      ∃ th, find_thinnest_loop as dyn evl clauses thinnest deepest bestclause best_start
        starter_term curr choices = .ok th := by
  intro clauses
  induction clauses with
  | nil =>
    intro _ thinnest deepest bestclause best_start starter_term curr choices
    exact ⟨_, by rw [find_thinnest_loop]⟩
  | cons h rest ih =>
    intro hq thinnest deepest bestclause best_start starter_term curr choices
    have hq2 := fun c hc => hq c (List.mem_cons_of_mem _ hc)
    rw [find_thinnest_loop]
    split_ifs with hev
    · exact ih hq2 _ _ _ _ _ _ _
    · obtain ⟨f, hf⟩ := find_starter_total as dyn (some h) h
        (hq h (List.mem_cons_self _ _) hev) 0 none SIZE_MAX choices
      rw [hf]
      simp only
      split_ifs
      · exact ih hq2 _ _ _ _ _ _ _
      · exact ih hq2 _ _ _ _ _ _ _

/-! ## Success of the neighbourhood setup -/

theorem setup_neighbor_search_reached_iff (as : AtomSpace) (cb : InitiateSearchCB)
    (hq : ∀ c ∈ (if ∀ m ∈ cb._pattern.mandatory, m ∈ cb._pattern.evaluatable_holders
                 then cb._pattern.optionals else cb._pattern.mandatory),
      c ∉ cb._pattern.evaluatable_holders → QuotesFilled c) :
    ∃ b cb1, setup_neighbor_search as cb = .ok (b, cb1) ∧
      (b = true ↔
        ∃ c ∈ (if ∀ m ∈ cb._pattern.mandatory, m ∈ cb._pattern.evaluatable_holders
               then cb._pattern.optionals else cb._pattern.mandatory),
          c ∉ cb._pattern.evaluatable_holders ∧ ∃ s, Reached cb._dynamic c s) ∧
      (b = false ↔
        (cb._pattern.mandatory = [] ∧ cb._pattern.optionals = []) ∨
        ∃ th, find_thinnest as cb._dynamic cb._curr_clause
            (if ∀ m ∈ cb._pattern.mandatory, m ∈ cb._pattern.evaluatable_holders
             then cb._pattern.optionals else cb._pattern.mandatory)
            cb._pattern.evaluatable_holders = .ok th ∧
          th.best_start = none ∧ th.choices = []) := by
  rw [← neighbor_clauses_eq] at hq ⊢
  obtain ⟨th, hth⟩ := find_thinnest_loop_total as cb._dynamic cb._pattern.evaluatable_holders
    (neighbor_clauses cb._pattern) hq SIZE_MAX 0 none none none cb._curr_clause []
  have hth2 : find_thinnest as cb._dynamic cb._curr_clause (neighbor_clauses cb._pattern)
      cb._pattern.evaluatable_holders = .ok th := hth
  have hiff : (th.best_start ≠ none ∨ th.choices ≠ []) ↔
      ∃ c ∈ neighbor_clauses cb._pattern,
        c ∉ cb._pattern.evaluatable_holders ∧ ∃ s, Reached cb._dynamic c s := by
    constructor
    · rintro (hbs | hch)
      · rcases find_thinnest_loop_start as cb._dynamic cb._pattern.evaluatable_holders _ _ _ _
          _ _ _ _ th hth with ⟨e, _, _⟩ | ⟨c, hc, hce, _, s, d, _, hcand⟩
        · exact absurd e hbs
        · exact ⟨c, hc, hce, s, Candidate_reached hcand⟩
      · obtain ⟨added, ha, hall⟩ := find_thinnest_loop_choices as cb._dynamic
          cb._pattern.evaluatable_holders _ _ _ _ _ _ _ _ th hth
        rw [List.nil_append] at ha
        obtain ⟨ch, hm⟩ := List.exists_mem_of_ne_nil _ hch
        rw [ha] at hm
        obtain ⟨c, hc, hce, _, s, _, hr⟩ := hall ch hm
        exact ⟨c, hc, hce, s, hr⟩
    · rintro ⟨c, hc, hce, s, hr⟩
      rcases (find_thinnest_loop_complete as cb._dynamic cb._pattern.evaluatable_holders _ _ _
        _ _ _ _ _ th (fun _ => rfl) hth).2.2 c hc hce s hr with h1 | h1
      · exact Or.inl h1
      · right
        intro e
        rw [e] at h1
        simp at h1
  by_cases hemp : cb._pattern.mandatory = [] ∧ cb._pattern.optionals = []
  · refine ⟨false, cb, ?_, ?_, ?_⟩
    · unfold setup_neighbor_search
      rw [if_pos (by simpa [List.isEmpty_iff] using hemp)]
    · simp only [Bool.false_eq_true, false_iff]
      rintro ⟨c, hc, _⟩
      have : neighbor_clauses cb._pattern = [] := by
        unfold neighbor_clauses
        split_ifs
        · exact hemp.2
        · exact hemp.1
      rw [this] at hc
      cases hc
    · simp [hemp]
  · cases hrun : setup_neighbor_search as cb with
    | error e =>
      unfold setup_neighbor_search at hrun
      rw [if_neg (by simpa [List.isEmpty_iff] using hemp), hth2] at hrun
      simp only at hrun
      split_ifs at hrun
    | ok r =>
      obtain ⟨b, cb1⟩ := r
      obtain ⟨th2, h1, _, _, _, h5, _⟩ := setup_neighbor_search_scan as cb b cb1 hrun hemp
      rw [hth2] at h1
      injection h1 with h1
      subst h1
      refine ⟨b, cb1, rfl, h5.trans hiff, ?_⟩
      constructor
      · intro hb
        right
        refine ⟨th, hth2, ?_⟩
        have : ¬ (th.best_start ≠ none ∨ th.choices ≠ []) := by
          intro h
          have := h5.2 h
          rw [hb] at this
          cases this
        constructor
        · by_contra h
          exact this (Or.inl h)
        · by_contra h
          exact this (Or.inr h)
      · rintro (h | ⟨th3, h1, h2, h3⟩)
        · exact absurd h hemp
        · rw [hth2] at h1
          injection h1 with h1
          subst h1
          cases b with
          | false => rfl
          | true =>
            rcases h5.1 rfl with h | h
            · exact absurd h2 h
            · exact absurd h3 h

/-- C10: when `setup_neighbor_search` succeeds, with `th` the outcome of
thinnest-clause selection over the candidate clauses: if the scan accumulated
no Choice record, the choice list is exactly the single record (best clause,
`best_start`, start term) of `th`, whose `best_start` is defined; if it
accumulated at least one record, the choice list is exactly those records, in
the order produced, and the triple is not added. -/
theorem setup_neighbor_search_choice_list (as : AtomSpace) (cb cb1 : InitiateSearchCB)
    (hs : setup_neighbor_search as cb = .ok (true, cb1)) :
    ∃ th, find_thinnest as cb._dynamic cb._curr_clause (neighbor_clauses cb._pattern)
        cb._pattern.evaluatable_holders = .ok th ∧
      (th.choices = [] →
        th.best_start ≠ none ∧
        cb1._choices = [⟨th.bestclause, th.best_start, th.starter_term⟩]) ∧
      (th.choices ≠ [] → cb1._choices = th.choices) := by
  have hne : ¬ (cb._pattern.mandatory = [] ∧ cb._pattern.optionals = []) := by
    intro he
    unfold setup_neighbor_search at hs
    rw [if_pos (by simpa [List.isEmpty_iff] using he)] at hs
    cases hs
  obtain ⟨th, h1, _, _, _, h5, h6⟩ := setup_neighbor_search_scan as cb true cb1 hs hne
  refine ⟨th, h1, ?_, ?_⟩
  · intro hnil
    have hbs : th.best_start ≠ none := by
      rcases h5.1 rfl with h | h
      · exact h
      · exact absurd hnil h
    refine ⟨hbs, ?_⟩
    rw [h6, if_pos ⟨hnil, hbs⟩]
  · intro hch
    rw [h6, if_neg (fun h => hch h.1)]

/-- Witness for C10: the pattern `(And (Choice (Concept "A") (Concept "B")) $x)`
accumulates two records, which are the choice list. -/
theorem setup_neighbor_search_choice_list_witness :
    ∃ th, find_thinnest spaceAB plannerAB._dynamic plannerAB._curr_clause
        (neighbor_clauses plannerAB._pattern) plannerAB._pattern.evaluatable_holders =
          .ok th ∧
      (th.choices = [] →
        th.best_start ≠ none ∧
        [(⟨some andChoice, some conceptA, some andChoice⟩ : Choice),
          ⟨some andChoice, some conceptB, some andChoice⟩] =
            [⟨th.bestclause, th.best_start, th.starter_term⟩]) ∧
      (th.choices ≠ [] →
        [(⟨some andChoice, some conceptA, some andChoice⟩ : Choice),
          ⟨some andChoice, some conceptB, some andChoice⟩] = th.choices) :=
  setup_neighbor_search_choice_list spaceAB plannerAB
    { plannerAB with
      _curr_clause := some andChoice,
      _choices := [⟨some andChoice, some conceptA, some andChoice⟩,
                   ⟨some andChoice, some conceptB, some andChoice⟩] } (by decide)

/-! ## No-search strategy and just-in-time expansion -/

theorem setup_neighbor_search_preserves (as : AtomSpace) (cb : InitiateSearchCB) (b : Bool)
    (cb1 : InitiateSearchCB) (hs : setup_neighbor_search as cb = .ok (b, cb1)) :
    cb1._variables = cb._variables ∧ cb1._pattern = cb._pattern ∧
    cb1._dynamic = cb._dynamic ∧ cb1._search_set = cb._search_set ∧ cb1._root = cb._root ∧
    cb1.prev = cb.prev ∧ cb1.count = cb.count := by
  unfold setup_neighbor_search at hs
  split_ifs at hs
  · injection hs with hs
    injection hs with _ hcb
    subst hcb
    exact ⟨rfl, rfl, rfl, rfl, rfl, rfl, rfl⟩
  · split at hs
    · cases hs
    · split_ifs at hs <;>
      · injection hs with hs
        injection hs with _ hcb
        subst hcb
        exact ⟨rfl, rfl, rfl, rfl, rfl, rfl, rfl⟩

/-- C15: `setup_no_search` succeeds if and only if the variable set is empty.
For a pattern that has no variable after `jit_analyze` and on which the
neighbourhood setup fails, `initiate_search` returns exactly the result (and
callback state) of `explore_constant_evaluatables` on the mandatory clauses,
and `explore_neighborhood` plays no part: any engine with the same constant
evaluation gives the same outcome. -/
theorem no_search_iff_no_variables {σ Q : Type} :
    (∀ cb : InitiateSearchCB, setup_no_search cb = true ↔ cb._variables.varset = []) ∧
    (∀ (as : AtomSpace) (lib : Library) (qo : QuotationOps Q) (eng : PatternMatchEngine σ)
        (fuel : Nat) (cb : InitiateSearchCB) (pmc : σ) (cb0 cb1 : InitiateSearchCB),
      jit_analyze lib fuel cb = .ok cb0 → cb0._variables.varset = [] →
      setup_neighbor_search as cb0 = .ok (false, cb1) →
      initiate_search as lib qo eng fuel cb pmc =
        .ok ((eng.explore_constant_evaluatables cb0._variables cb0._pattern
              cb0._pattern.mandatory pmc).1, cb1,
            (eng.explore_constant_evaluatables cb0._variables cb0._pattern
              cb0._pattern.mandatory pmc).2) ∧
      ∀ eng2 : PatternMatchEngine σ,
        eng2.explore_constant_evaluatables = eng.explore_constant_evaluatables →
        initiate_search as lib qo eng2 fuel cb pmc =
          initiate_search as lib qo eng fuel cb pmc) := by
  constructor
  · intro cb
    unfold setup_no_search
    simp only [decide_eq_true_eq]
    constructor
    · intro h
      exact List.length_eq_zero.1 h.symm
    · intro h
      rw [h]
      rfl
  · intro as lib qo eng fuel cb pmc cb0 cb1 hj hv hs
    obtain ⟨hvars, hpat, _⟩ := setup_neighbor_search_preserves as cb0 false cb1 hs
    have hno : setup_no_search cb1 = true := by
      unfold setup_no_search
      rw [hvars, hv]
      rfl
    have key : ∀ e : PatternMatchEngine σ, initiate_search as lib qo e fuel cb pmc =
        .ok ((e.explore_constant_evaluatables cb0._variables cb0._pattern
              cb0._pattern.mandatory pmc).1, cb1,
            (e.explore_constant_evaluatables cb0._variables cb0._pattern
              cb0._pattern.mandatory pmc).2) := by
      intro e
      unfold initiate_search
      rw [hj]
      simp only [hs, hno, if_true]
      rw [hvars, hpat]
    refine ⟨key eng, ?_⟩
    intro eng2 he
    rw [key eng2, key eng, he]

/-- Witness for C15: the pattern without variables whose only clause is
evaluatable; the neighbourhood setup fails and the constant evaluation decides. -/
theorem no_search_iff_no_variables_witness :
    initiate_search spaceAB libEmpty quotationLevel (engineAccepting []) 0 plannerConstant [] =
      .ok (((engineAccepting []).explore_constant_evaluatables plannerConstant._variables
            plannerConstant._pattern plannerConstant._pattern.mandatory []).1,
          plannerConstant,
          ((engineAccepting []).explore_constant_evaluatables plannerConstant._variables
            plannerConstant._pattern plannerConstant._pattern.mandatory []).2) :=
  ((no_search_iff_no_variables.2 spaceAB libEmpty quotationLevel (engineAccepting []) 0
    plannerConstant [] plannerConstant plannerConstant (by decide) (by decide)
    (by decide)).1)

theorem jit_loop_defined_terms (lib : Library) :
    ∀ (fuel : Nat) (cb cb1 : InitiateSearchCB),
      jit_loop lib fuel cb = .ok cb1 → cb1._pattern.defined_terms = [] := by
  intro fuel
  induction fuel with
  | zero =>
    intro cb cb1 h
    rw [jit_loop] at h
    split_ifs at h with hd
    injection h with h
    subst h
    exact List.length_eq_zero.1 (by omega)
  | succ n ih =>
    intro cb cb1 h
    rw [jit_loop] at h
    split_ifs at h with hd
    · exact ih _ _ h
    · injection h with h
      subst h
      exact List.length_eq_zero.1 (by omega)

theorem jit_loop_more_fuel (lib : Library) :
    ∀ (fuel : Nat) (cb cb1 : InitiateSearchCB),
      jit_loop lib fuel cb = .ok cb1 → ∀ fuel2, fuel ≤ fuel2 →
      jit_loop lib fuel2 cb = .ok cb1 := by
  intro fuel
  induction fuel with
  | zero =>
    intro cb cb1 h fuel2 _
    rw [jit_loop] at h
    split_ifs at h with hd
    cases fuel2 with
    | zero => rw [jit_loop, if_neg hd]; exact h
    | succ m => rw [jit_loop, if_neg hd]; exact h
  | succ n ih =>
    intro cb cb1 h fuel2 hle
    cases fuel2 with
    | zero => omega
    | succ m =>
      rw [jit_loop] at h
      rw [jit_loop]
      split_ifs at h with hd
      · rw [if_pos hd]
        exact ih _ _ h m (by omega)
      · rw [if_neg hd]
        exact h

/-- C20: whenever `jit_analyze` returns, the active pattern afterwards has an
empty defined-terms set; and a run that returns within some number of rounds
returns the same state within any larger number. -/
theorem jit_analyze_no_defined_terms (lib : Library) (fuel : Nat)
    (cb cb1 : InitiateSearchCB) (h : jit_analyze lib fuel cb = .ok cb1) :
    cb1._pattern.defined_terms = [] ∧
    ∀ fuel2, fuel ≤ fuel2 → jit_analyze lib fuel2 cb = .ok cb1 := by
  unfold jit_analyze at h
  split_ifs at h with hz
  · injection h with h
    subst h
    refine ⟨List.length_eq_zero.1 hz.symm, ?_⟩
    intro fuel2 _
    unfold jit_analyze
    rw [if_pos hz]
  · split at h
    · cases h
    · rename_i cb2 hl
      injection h with h
      subst h
      refine ⟨jit_loop_defined_terms lib fuel cb cb2 hl, ?_⟩
      intro fuel2 hle
      unfold jit_analyze
      rw [if_neg hz, jit_loop_more_fuel lib fuel cb cb2 hl fuel2 hle]

/-- Witness for C20: the pattern whose body is the defined term `DN`, which
expands in one round to `(Present (Concept "C"))`. -/
theorem jit_analyze_no_defined_terms_witness :
    jit_analyze libDefined 1 plannerDefined =
      .ok { plannerDefined with
        _pattern := ⟨1, [presentC], [], [], [], [], some presentC⟩ } ∧
    (([] : List Atom) = [] ∧
      ∀ fuel2, 1 ≤ fuel2 → jit_analyze libDefined fuel2 plannerDefined =
        .ok { plannerDefined with
          _pattern := ⟨1, [presentC], [], [], [], [], some presentC⟩ }) :=
  ⟨by decide,
    jit_analyze_no_defined_terms libDefined 1 plannerDefined
      { plannerDefined with _pattern := ⟨1, [presentC], [], [], [], [], some presentC⟩ }
      (by decide)⟩

/-! ## Variable-type strategy -/

theorem variable_clause_loop_some (lib : Library) (ae : Bool) (holders : List Atom)
    (var : Atom) :
    ∀ (l : List Atom) (r : Handle × Handle),
      variable_clause_loop lib ae holders var l = some r →
      ∃ cl ∈ l, r.1 = some cl ∧ r.2 ≠ none := by
  intro l
  induction l with
  | nil =>
    intro r h
    rw [variable_clause_loop] at h
    cases h
  | cons cl rest ih =>
    intro r h
    rw [variable_clause_loop] at h
    have lift : (∃ c ∈ rest, r.1 = some c ∧ r.2 ≠ none) →
        ∃ c ∈ cl :: rest, r.1 = some c ∧ r.2 ≠ none := by
      rintro ⟨c, hc, hr⟩
      exact ⟨c, List.mem_cons_of_mem _ hc, hr⟩
    split_ifs at h with h1 h2 h3 h4
    · exact lift (ih r h)
    · injection h with h
      subst h
      exact ⟨cl, List.mem_cons_self _ _, rfl, by simp⟩
    · injection h with h
      subst h
      exact ⟨cl, List.mem_cons_self _ _, rfl, by simp⟩
    · injection h with h
      subst h
      refine ⟨cl, List.mem_cons_self _ _, rfl, ?_⟩
      cases hl : lib.least_holders var cl with
      | nil => rw [hl] at h3; simp at h3
      | cons x xs => simp
    · exact lift (ih r h)

theorem variable_loop_spec (as : AtomSpace) (lib : Library) (ae : Bool) (vars : Variables)
    (pat : Pattern) :
    ∀ (vs : List Atom) (st : VarPick),
      (variable_loop as lib ae vars pat vs st = st ∨
        ∃ v ∈ vs, ∃ ts r, vars._simple_typemap.lookup v = some ts ∧
          0 < typeset_population as ts ∧
          variable_clause_loop lib ae pat.evaluatable_holders v pat.mandatory = some r ∧
          variable_loop as lib ae vars pat vs st = ⟨typeset_population as ts, ts, r.1, r.2⟩) ∧
      (variable_loop as lib ae vars pat vs st).count ≤ st.count ∧
      (∀ v ∈ vs, ∀ ts, vars._simple_typemap.lookup v = some ts →
        0 < typeset_population as ts →
        (variable_clause_loop lib ae pat.evaluatable_holders v pat.mandatory).isSome = true →
        (variable_loop as lib ae vars pat vs st).count ≤ typeset_population as ts) := by
  intro vs
  induction vs with
  | nil =>
    intro st
    rw [variable_loop]
    exact ⟨Or.inl rfl, Nat.le_refl _, fun v hv => absurd hv (List.not_mem_nil _)⟩
  | cons var rest ih =>
    intro st
    rw [variable_loop]
    have skip : (variable_loop as lib ae vars pat rest st = st ∨
        ∃ v ∈ rest, ∃ ts r, vars._simple_typemap.lookup v = some ts ∧
          0 < typeset_population as ts ∧
          variable_clause_loop lib ae pat.evaluatable_holders v pat.mandatory = some r ∧
          variable_loop as lib ae vars pat rest st =
            ⟨typeset_population as ts, ts, r.1, r.2⟩) →
        (variable_loop as lib ae vars pat rest st = st ∨
        ∃ v ∈ var :: rest, ∃ ts r, vars._simple_typemap.lookup v = some ts ∧
          0 < typeset_population as ts ∧
          variable_clause_loop lib ae pat.evaluatable_holders v pat.mandatory = some r ∧
          variable_loop as lib ae vars pat rest st =
            ⟨typeset_population as ts, ts, r.1, r.2⟩) := by
      rintro (h | ⟨v, hv, r⟩)
      · exact Or.inl h
      · exact Or.inr ⟨v, List.mem_cons_of_mem _ hv, r⟩
    cases hl : vars._simple_typemap.lookup var with
    | none =>
      simp only
      obtain ⟨r1, r2, r3⟩ := ih st
      refine ⟨skip r1, r2, ?_⟩
      intro v hv ts hts hpos hel
      rcases List.mem_cons.1 hv with e | hv2
      · subst e
        rw [hl] at hts
        cases hts
      · exact r3 v hv2 ts hts hpos hel
    | some typeset =>
      simp only
      split_ifs with hsel
      · cases hc : variable_clause_loop lib ae pat.evaluatable_holders var pat.mandatory with
        | some r =>
          simp only
          obtain ⟨r1, r2, r3⟩ := ih ⟨typeset_population as typeset, typeset, r.1, r.2⟩
          simp only at r2
          refine ⟨Or.inr ?_, by omega, ?_⟩
          · rcases r1 with h | ⟨v, hv, ts, r', h1, h2, h3, h4⟩
            · exact ⟨var, List.mem_cons_self _ _, typeset, r, hl, hsel.1, hc, h⟩
            · exact ⟨v, List.mem_cons_of_mem _ hv, ts, r', h1, h2, h3, h4⟩
          · intro v hv ts hts hpos hel
            rcases List.mem_cons.1 hv with e | hv2
            · subst e
              rw [hl] at hts
              injection hts with hts
              subst hts
              exact r2
            · exact r3 v hv2 ts hts hpos hel
        | none =>
          simp only
          obtain ⟨r1, r2, r3⟩ := ih st
          refine ⟨skip r1, r2, ?_⟩
          intro v hv ts hts hpos hel
          rcases List.mem_cons.1 hv with e | hv2
          · subst e
            rw [hc] at hel
            cases hel
          · exact r3 v hv2 ts hts hpos hel
      · obtain ⟨r1, r2, r3⟩ := ih st
        refine ⟨skip r1, r2, ?_⟩
        intro v hv ts hts hpos hel
        rcases List.mem_cons.1 hv with e | hv2
        · subst e
          rw [hl] at hts
          injection hts with hts
          subst hts
          have : st.count ≤ typeset_population as typeset := by
            by_contra hcon
            exact hsel ⟨hpos, by omega⟩
          omega
        · exact r3 v hv2 ts hts hpos hel

theorem variable_pick_cases (as : AtomSpace) (lib : Library) (cb : InitiateSearchCB) :
    (variable_pick as lib cb = ⟨SIZE_MAX, [], none, none⟩) ∨
    (∃ v ∈ cb._variables.varset, ∃ ts cl st,
      cb._variables._simple_typemap.lookup v = some ts ∧
      0 < typeset_population as ts ∧ eligible_variable lib cb v ∧
      cl ∈ cb._pattern.mandatory ∧
      variable_pick as lib cb = ⟨typeset_population as ts, ts, some cl, some st⟩) := by
  rcases (variable_loop_spec as lib
    (all_clauses_are_evaluatable cb._pattern.evaluatable_holders cb._pattern.mandatory)
    cb._variables cb._pattern cb._variables.varset ⟨SIZE_MAX, [], none, none⟩).1
    with h | ⟨v, hv, ts, r, h1, h2, h3, h4⟩
  · exact Or.inl h
  · right
    obtain ⟨cl, hcl, e1, e2⟩ := variable_clause_loop_some lib _ _ v _ r h3
    obtain ⟨st, hst⟩ := Option.ne_none_iff_exists'.1 e2
    refine ⟨v, hv, ts, cl, st, h1, h2, ?_, hcl, ?_⟩
    · unfold eligible_variable
      rw [h3]
      rfl
    · unfold variable_pick
      rw [h4, e1, hst]

theorem setup_variable_search_set (as : AtomSpace) (lib : Library)
    (cb cb1 : InitiateSearchCB) (h : setup_variable_search as lib cb = .ok (true, cb1)) :
    cb1._search_set = cb._search_set ++ variable_search_set as (variable_pick as lib cb).ptypes ∧
    ((variable_pick as lib cb).root ≠ none →
      cb1._root = (variable_pick as lib cb).root ∧
      cb1._starter_term = (variable_pick as lib cb).starter_term) := by
  unfold setup_variable_search at h
  simp only [] at h
  change (match (variable_pick as lib cb).root with
    | some _ => _
    | none => _) = _ at h
  split at h
  · rename_i x hroot
    injection h with h
    injection h with _ hcb
    subst hcb
    exact ⟨rfl, fun _ => ⟨rfl, rfl⟩⟩
  · rename_i hroot
    refine ⟨?_, fun hne => absurd hroot hne⟩
    split at h
    · cases h
    · rename_i cb2 hg
      have hss : cb2._search_set = cb._search_set := by
        split_ifs at hg <;>
        · injection hg with hg
          subst hg
          rfl
      split_ifs at h with hz
      · injection h with h
        injection h with hb _
        cases hb
      split at h
      · injection h with h
        injection h with _ hcb
        subst hcb
        simp only [hss]
        rfl
      · split at h
        · cases h
        · injection h with h
          injection h with _ hcb
          subst hcb
          simp only [hss]
          rfl
theorem sum_indicator_le_one (x : AtomType) :
    ∀ ts : List AtomType, ts.Nodup →
      (ts.map (fun t => if x = t then 1 else 0)).sum ≤ 1 ∧
      (x ∉ ts → (ts.map (fun t => if x = t then 1 else 0)).sum = 0) := by
  intro ts
  induction ts with
  | nil => intro _; simp
  | cons t0 ts ih =>
    intro hn
    obtain ⟨hnot, hn2⟩ := List.nodup_cons.1 hn
    obtain ⟨h1, h2⟩ := ih hn2
    simp only [List.map_cons, List.sum_cons, List.mem_cons, not_or]
    by_cases hx : x = t0
    · subst hx
      rw [if_pos rfl, h2 hnot]
      exact ⟨Nat.le_refl _, fun h => absurd rfl h.1⟩
    · rw [if_neg hx]
      exact ⟨by omega, fun h => by rw [h2 h.2]⟩

theorem sum_populations_le (ts : List AtomType) (hn : ts.Nodup) :
    ∀ l : List Atom,
      (ts.map (fun t => (l.filter (fun a => decide (a.get_type = t))).length)).sum ≤
        l.length := by
  intro l
  induction l with
  | nil => simp
  | cons a l ih =>
    have hcons : ∀ t : AtomType,
        ((a :: l).filter (fun b => decide (b.get_type = t))).length =
          (if a.get_type = t then 1 else 0) +
            (l.filter (fun b => decide (b.get_type = t))).length := by
      intro t
      by_cases h : a.get_type = t
      · simp [List.filter_cons, h]; omega
      · simp [List.filter_cons, h]
    simp only [hcons, List.sum_map_add, List.length_cons]
    have := (sum_indicator_le_one a.get_type ts hn).1
    omega

theorem typeset_population_nodup (as : AtomSpace) (ts : List AtomType) (hn : ts.Nodup) :
    typeset_population as ts = (ts.map as.get_num_atoms_of_type).sum := by
  unfold typeset_population
  apply Nat.mod_eq_of_lt
  have h1 := sum_populations_le ts hn as.atoms
  have h2 := as.atoms_bound
  have : (ts.map as.get_num_atoms_of_type).sum =
      (ts.map (fun t => (as.atoms.filter (fun a => decide (a.get_type = t))).length)).sum :=
    rfl
  omega

theorem typeset_population_pos (as : AtomSpace) (ts : List AtomType)
    (hp : 0 < typeset_population as ts) :
    ∃ t ∈ ts, as.get_handles_by_type t ≠ [] := by
  unfold typeset_population at hp
  have hsum : 0 < (ts.map as.get_num_atoms_of_type).sum := by
    by_contra hz
    have : (ts.map as.get_num_atoms_of_type).sum = 0 := by omega
    rw [this] at hp
    simp at hp
  by_contra hall
  apply Nat.lt_irrefl 0
  have hzero : (ts.map as.get_num_atoms_of_type).sum = 0 := by
    apply List.sum_eq_zero
    intro n hn
    obtain ⟨t, ht, e⟩ := List.mem_map.1 hn
    rw [← e]
    by_contra hne
    apply hall
    refine ⟨t, ht, ?_⟩
    intro he
    apply hne
    show (as.get_handles_by_type t).length = 0
    rw [he]
    rfl
  omega

theorem variable_search_set_nonempty (as : AtomSpace) (ts : List AtomType)
    (hp : 0 < typeset_population as ts) : variable_search_set as ts ≠ [] := by
  obtain ⟨t, ht, hne⟩ := typeset_population_pos as ts hp
  unfold variable_search_set
  have hts : ts ≠ [] := List.ne_nil_of_mem ht
  rw [if_neg (by simpa [List.isEmpty_iff] using hts)]
  intro he
  apply hne
  have := List.flatten_eq_nil_iff.1 he (as.get_handles_by_type t)
    (List.mem_map.2 ⟨t, ht, rfl⟩)
  exact this

/-- C18: starting from an empty search set, when `setup_variable_search`
succeeds having selected a type-restricted variable, the search set is exactly
the concatenation, over the admissible types of that variable, of the atoms of
that exact type; when it succeeds without having selected a variable, the
search set is all atoms of the hypergraph.  With `$x : {ConceptNode}` and five
ConceptNodes among the atoms, the search set is those five nodes. -/
theorem variable_search_set_exact :
    (∀ (as : AtomSpace) (lib : Library) (cb cb1 : InitiateSearchCB),
      cb._search_set = [] → setup_variable_search as lib cb = .ok (true, cb1) →
      ((variable_pick as lib cb).root ≠ none →
        ∃ v ∈ cb._variables.varset, ∃ ts,
          cb._variables._simple_typemap.lookup v = some ts ∧
          (variable_pick as lib cb).ptypes = ts ∧
          cb1._search_set = (ts.map as.get_handles_by_type).flatten) ∧
      ((variable_pick as lib cb).root = none → cb1._search_set = as.atoms)) ∧
    spaceFive.get_num_atoms_of_type conceptType = 5 ∧
    setup_variable_search spaceFive libEmpty plannerTyped =
      .ok (true, { plannerTyped with
        _root := some varX, _starter_term := some varX,
        _search_set := [.node (.other 0) "c1", .node (.other 0) "c2", .node (.other 0) "c3",
          .node (.other 0) "c4", .node (.other 0) "c5"] }) := by
  refine ⟨?_, by decide, by decide⟩
  intro as lib cb cb1 hempty hs
  obtain ⟨hset, _⟩ := setup_variable_search_set as lib cb cb1 hs
  rw [hempty, List.nil_append] at hset
  rcases variable_pick_cases as lib cb with hp | ⟨v, hv, ts, cl, st, h1, h2, _, _, hp⟩
  · refine ⟨fun hne => ?_, fun _ => ?_⟩
    · rw [hp] at hne
      exact absurd rfl hne
    · rw [hset, hp]
      rfl
  · refine ⟨fun _ => ⟨v, hv, ts, h1, by rw [hp], ?_⟩, fun hn => ?_⟩
    · rw [hset, hp]
      simp only
      obtain ⟨t, ht, _⟩ := typeset_population_pos as ts h2
      have hts : ts ≠ [] := List.ne_nil_of_mem ht
      unfold variable_search_set
      rw [if_neg (by simpa [List.isEmpty_iff] using hts)]
    · rw [hp] at hn
      cases hn

/-- Witness for C18: the scenario `$x : {ConceptNode}` in the hypergraph with
five ConceptNodes. -/
theorem variable_search_set_exact_witness :
    ((variable_pick spaceFive libEmpty plannerTyped).root ≠ none →
      ∃ v ∈ plannerTyped._variables.varset, ∃ ts,
        plannerTyped._variables._simple_typemap.lookup v = some ts ∧
        (variable_pick spaceFive libEmpty plannerTyped).ptypes = ts ∧
        [Atom.node (.other 0) "c1", .node (.other 0) "c2", .node (.other 0) "c3",
          .node (.other 0) "c4", .node (.other 0) "c5"] =
            (ts.map spaceFive.get_handles_by_type).flatten) ∧
    ((variable_pick spaceFive libEmpty plannerTyped).root = none →
      [Atom.node (.other 0) "c1", .node (.other 0) "c2", .node (.other 0) "c3",
          .node (.other 0) "c4", .node (.other 0) "c5"] = spaceFive.atoms) :=
  variable_search_set_exact.1 spaceFive libEmpty plannerTyped
    { plannerTyped with
        _root := some varX, _starter_term := some varX,
        _search_set := [.node (.other 0) "c1", .node (.other 0) "c2", .node (.other 0) "c3",
          .node (.other 0) "c4", .node (.other 0) "c5"] } (by decide) (by decide)

/-- C19 (as stated) fails: with `$x : {ConceptNode}` (5 atoms) the only
mandatory clause and `$y : {PredicateNode}` (2 atoms) occurring only in an
optional clause, `setup_variable_search` selects `$x`, although `$y` carries a
simple type restriction with the smaller positive aggregate population. -/
theorem variable_pick_ignores_absent_counterexample :
    variable_pick spaceFive libEmpty plannerTwoVars =
      ⟨5, [conceptType], some varX, some varX⟩ ∧
    varY ∈ plannerTwoVars._variables.varset ∧
    plannerTwoVars._variables._simple_typemap.lookup varY = some [predicateType] ∧
    ([predicateType].map spaceFive.get_num_atoms_of_type).sum = 2 ∧
    ([conceptType].map spaceFive.get_num_atoms_of_type).sum = 5 ∧
    setup_variable_search spaceFive libEmpty plannerTwoVars =
      .ok (true, { plannerTwoVars with
        _root := some varX, _starter_term := some varX,
        _search_set := [.node (.other 0) "c1", .node (.other 0) "c2", .node (.other 0) "c3",
          .node (.other 0) "c4", .node (.other 0) "c5"] }) := by
  decide

/-- C19 (amended): when `setup_variable_search` selects a variable, that
variable carries a simple type restriction, is eligible (it is, or has a least
holder in, a mandatory clause the search may start from) and has the smallest
positive aggregate population among the eligible variables that carry a simple
type restriction; its admissible types define the search set.  The aggregate
population of a type set without repetition is the sum of the populations of
its types. -/
theorem variable_pick_smallest_eligible (as : AtomSpace) (lib : Library)
    (cb cb1 : InitiateSearchCB) (hs : setup_variable_search as lib cb = .ok (true, cb1))
    (hsel : (variable_pick as lib cb).root ≠ none) :
    (∃ v ∈ cb._variables.varset, ∃ ts,
      cb._variables._simple_typemap.lookup v = some ts ∧
      (variable_pick as lib cb).ptypes = ts ∧
      cb1._search_set = cb._search_set ++ (ts.map as.get_handles_by_type).flatten ∧
      0 < typeset_population as ts ∧ eligible_variable lib cb v ∧
      ∀ v2 ∈ cb._variables.varset, ∀ ts2,
        cb._variables._simple_typemap.lookup v2 = some ts2 →
        0 < typeset_population as ts2 → eligible_variable lib cb v2 →
        typeset_population as ts ≤ typeset_population as ts2) ∧
    (∀ ts : List AtomType, ts.Nodup →
      typeset_population as ts = (ts.map as.get_num_atoms_of_type).sum) := by
  refine ⟨?_, fun ts hn => typeset_population_nodup as ts hn⟩
  obtain ⟨hset, _⟩ := setup_variable_search_set as lib cb cb1 hs
  rcases variable_pick_cases as lib cb with hp | ⟨v, hv, ts, cl, st, h1, h2, h3, _, hp⟩
  · rw [hp] at hsel
    exact absurd rfl hsel
  · refine ⟨v, hv, ts, h1, by rw [hp], ?_, h2, h3, ?_⟩
    · rw [hset, hp]
      simp only
      obtain ⟨t, ht, _⟩ := typeset_population_pos as ts h2
      have hts : ts ≠ [] := List.ne_nil_of_mem ht
      unfold variable_search_set
      rw [if_neg (by simpa [List.isEmpty_iff] using hts)]
    · intro v2 hv2 ts2 hl2 hpos2 hel2
      have := (variable_loop_spec as lib
        (all_clauses_are_evaluatable cb._pattern.evaluatable_holders cb._pattern.mandatory)
        cb._variables cb._pattern cb._variables.varset ⟨SIZE_MAX, [], none, none⟩).2.2
        v2 hv2 ts2 hl2 hpos2 hel2
      have hc : (variable_pick as lib cb).count = typeset_population as ts := by rw [hp]
      unfold variable_pick at hc
      omega

/-- Witness for C19 (amended): the two-variable pattern of the counterexample;
the selected `$x` is the only eligible variable. -/
theorem variable_pick_smallest_eligible_witness :
    (∃ v ∈ plannerTwoVars._variables.varset, ∃ ts,
      plannerTwoVars._variables._simple_typemap.lookup v = some ts ∧
      (variable_pick spaceFive libEmpty plannerTwoVars).ptypes = ts ∧
      [Atom.node (.other 0) "c1", .node (.other 0) "c2", .node (.other 0) "c3",
          .node (.other 0) "c4", .node (.other 0) "c5"] =
        plannerTwoVars._search_set ++ (ts.map spaceFive.get_handles_by_type).flatten ∧
      0 < typeset_population spaceFive ts ∧ eligible_variable libEmpty plannerTwoVars v ∧
      ∀ v2 ∈ plannerTwoVars._variables.varset, ∀ ts2,
        plannerTwoVars._variables._simple_typemap.lookup v2 = some ts2 →
        0 < typeset_population spaceFive ts2 → eligible_variable libEmpty plannerTwoVars v2 →
        typeset_population spaceFive ts ≤ typeset_population spaceFive ts2) ∧
    (∀ ts : List AtomType, ts.Nodup →
      typeset_population spaceFive ts = (ts.map spaceFive.get_num_atoms_of_type).sum) :=
  variable_pick_smallest_eligible spaceFive libEmpty plannerTwoVars
    { plannerTwoVars with
        _root := some varX, _starter_term := some varX,
        _search_set := [.node (.other 0) "c1", .node (.other 0) "c2", .node (.other 0) "c3",
          .node (.other 0) "c4", .node (.other 0) "c5"] } (by decide) (by decide)

/-! ## Link-type strategy -/

mutual
theorem atom_induct (P : Atom → Prop) (hn : ∀ t n, P (.node t n))
    (hl : ∀ t out, (∀ c ∈ out, P c) → P (.link t out)) : ∀ h, P h
  | .node t n => hn t n
  | .link t out => hl t out (atom_induct_out P hn hl out)
theorem atom_induct_out (P : Atom → Prop) (hn : ∀ t n, P (.node t n))
    (hl : ∀ t out, (∀ c ∈ out, P c) → P (.link t out)) :
    ∀ (l : List Atom), ∀ c ∈ l, P c
  | [], _, hm => absurd hm (List.not_mem_nil _)
  | x :: rest, c, hm => by
    rcases List.mem_cons.1 hm with e | hm2
    · subst e
      exact atom_induct P hn hl c
    · exact atom_induct_out P hn hl rest c hm2
end

theorem QuoteFree_child {t : LinkType} {out : List Atom}
    (hp : QuoteFree (.link t out)) {c : Atom} (hc : c ∈ out) : QuoteFree c := by
  intro x hx
  exact hp x ((mem_subterms_link x t out).2 (Or.inr ⟨c, hc, hx⟩))

theorem get_num_atoms_of_type_lt (as : AtomSpace) (t : AtomType) :
    as.get_num_atoms_of_type t < SIZE_MAX := by
  have h1 := as.atoms_bound
  have h2 := List.length_filter_le (fun a => decide (a.get_type = t)) as.atoms
  unfold AtomSpace.get_num_atoms_of_type
  omega

theorem find_rarest_loop_spec {Q : Type} (as : AtomSpace) (qo : QuotationOps Q) :
    ∀ (rest : List Atom),
    (∀ c ∈ rest, ∀ rarest count,
      (find_rarest as qo c rarest count qo.init).2 ≤ count ∧
      (find_rarest as qo c rarest count qo.init = (rarest, count) ∨
        ((find_rarest as qo c rarest count qo.init).2 < count ∧
          ∃ l, (find_rarest as qo c rarest count qo.init).1 = some l ∧ OutsideChoice c l ∧
            (find_rarest as qo c rarest count qo.init).2 =
              as.get_num_atoms_of_type l.get_type)) ∧
      (∀ l, OutsideChoice c l →
        (find_rarest as qo c rarest count qo.init).2 ≤ as.get_num_atoms_of_type l.get_type)) →
    ∀ rarest count,
      (find_rarest_loop as qo rest rarest count qo.init).2 ≤ count ∧
      (find_rarest_loop as qo rest rarest count qo.init = (rarest, count) ∨
        ((find_rarest_loop as qo rest rarest count qo.init).2 < count ∧
          ∃ c ∈ rest, ∃ l, (find_rarest_loop as qo rest rarest count qo.init).1 = some l ∧
            OutsideChoice c l ∧
            (find_rarest_loop as qo rest rarest count qo.init).2 =
              as.get_num_atoms_of_type l.get_type)) ∧
      (∀ c ∈ rest, ∀ l, OutsideChoice c l →
        (find_rarest_loop as qo rest rarest count qo.init).2 ≤
          as.get_num_atoms_of_type l.get_type) := by
  intro rest
  induction rest with
  | nil =>
    intro _ rarest count
    rw [find_rarest_loop]
    exact ⟨Nat.le_refl _, Or.inl rfl, fun c hc => absurd hc (List.not_mem_nil _)⟩
  | cons x rest ihr =>
    intro ih rarest count
    have ih2 := fun c hc => ih c (List.mem_cons_of_mem _ hc)
    rw [find_rarest_loop]
    obtain ⟨a1, a2, a3⟩ := ih x (List.mem_cons_self _ _) rarest count
    generalize find_rarest as qo x rarest count qo.init = r at a1 a2 a3
    obtain ⟨b1, b2, b3⟩ := ihr ih2 r.1 r.2
    generalize find_rarest_loop as qo rest r.1 r.2 qo.init = r2 at b1 b2 b3
    refine ⟨by omega, ?_, ?_⟩
    · rcases b2 with e2 | ⟨hlt, c, hc, l, h1, h2, h3⟩
      · rcases a2 with e1 | ⟨hlt1, l, h1, h2, h3⟩
        · left
          rw [e2, e1]
        · right
          rw [e2]
          exact ⟨hlt1, x, List.mem_cons_self _ _, l, h1, h2, h3⟩
      · right
        exact ⟨by omega, c, List.mem_cons_of_mem _ hc, l, h1, h2, h3⟩
    · intro c hc l hl
      rcases List.mem_cons.1 hc with e | hc2
      · subst e
        have := a3 l hl
        omega
      · exact b3 c hc2 l hl

theorem find_rarest_spec {Q : Type} (as : AtomSpace) (qo : QuotationOps Q)
    (hq : qo.Neutral) :
    ∀ h : Atom, QuoteFree h → ∀ rarest count,
      (find_rarest as qo h rarest count qo.init).2 ≤ count ∧
      (find_rarest as qo h rarest count qo.init = (rarest, count) ∨
        ((find_rarest as qo h rarest count qo.init).2 < count ∧
          ∃ l, (find_rarest as qo h rarest count qo.init).1 = some l ∧ OutsideChoice h l ∧
            (find_rarest as qo h rarest count qo.init).2 =
              as.get_num_atoms_of_type l.get_type)) ∧
      (∀ l, OutsideChoice h l →
        (find_rarest as qo h rarest count qo.init).2 ≤ as.get_num_atoms_of_type l.get_type) := by
  intro h
  induction h using atom_induct with
  | hn t n =>
    intro _ rarest count
    rw [find_rarest]
    refine ⟨Nat.le_refl _, Or.inl rfl, ?_⟩
    intro l hl
    cases hl
  | hl t out ih =>
    intro hfree rarest count
    rw [find_rarest]
    by_cases htc : LinkType.CHOICE_LINK = t
    · rw [if_pos ⟨hq.1, htc⟩]
      refine ⟨Nat.le_refl _, Or.inl rfl, ?_⟩
      intro l hl
      cases hl with
      | here _ _ hne => exact absurd htc.symm hne
      | down _ _ _ _ hne _ _ => exact absurd htc.symm hne
    · rw [if_neg (fun hc => htc hc.2)]
      have hnq : is_quotation_type t = false := hfree _ (self_mem_subterms _)
      obtain ⟨hcons, hupd⟩ := hq.2 t hnq
      simp only [hcons, hupd]
      have hloop := find_rarest_loop_spec as qo out
        (fun c hc => ih c hc (QuoteFree_child hfree hc))
      have hne : t ≠ .CHOICE_LINK := fun e => htc e.symm
      by_cases hnum : as.get_num_atoms_of_type (.link t) < count
      · rw [if_pos ⟨by simp, hnum⟩]
        obtain ⟨b1, b2, b3⟩ := hloop (some (.link t out)) (as.get_num_atoms_of_type (.link t))
        generalize find_rarest_loop as qo out (some (Atom.link t out))
          (as.get_num_atoms_of_type (.link t)) qo.init = r at b1 b2 b3
        refine ⟨by omega, Or.inr ⟨by omega, ?_⟩, ?_⟩
        · rcases b2 with e | ⟨_, c, hc, l, h1, h2, h3⟩
          · rw [e]
            exact ⟨.link t out, rfl, OutsideChoice.here t out hne, rfl⟩
          · exact ⟨l, h1, OutsideChoice.down t out c l hne hc h2, h3⟩
        · intro l hl
          cases hl with
          | here _ _ _ => exact b1
          | down _ _ c _ _ hc hcl => exact b3 c hc l hcl
      · rw [if_neg (fun hc => hnum hc.2)]
        obtain ⟨b1, b2, b3⟩ := hloop rarest count
        generalize find_rarest_loop as qo out rarest count qo.init = r at b1 b2 b3
        refine ⟨b1, ?_, ?_⟩
        · rcases b2 with e | ⟨hlt, c, hc, l, h1, h2, h3⟩
          · exact Or.inl e
          · exact Or.inr ⟨hlt, l, h1, OutsideChoice.down t out c l hne hc h2, h3⟩
        · intro l hl
          cases hl with
          | here _ _ _ =>
            show r.2 ≤ as.get_num_atoms_of_type (.link t)
            omega
          | down _ _ c _ _ hc hcl => exact b3 c hc l hcl
theorem OutsideChoice_root {h l : Atom} (ho : OutsideChoice h l) :
    ∃ t out, h = .link t out ∧ t ≠ .CHOICE_LINK := by
  cases ho with
  | here t out hne => exact ⟨t, out, rfl, hne⟩
  | down t out _ _ hne _ _ => exact ⟨t, out, rfl, hne⟩

theorem link_type_loop_spec {Q : Type} (as : AtomSpace) (qo : QuotationOps Q)
    (hq : qo.Neutral) (holders : List Atom) :
    ∀ (clauses : List Atom) (root starter : Handle) (count : Nat),
      (∀ cl ∈ clauses, cl ∉ holders → QuoteFree cl) → (root = none → count = SIZE_MAX) →
      (link_type_loop as qo holders clauses root starter count).2.2 ≤ count ∧
      (link_type_loop as qo holders clauses root starter count = (root, starter, count) ∨
        ∃ cl ∈ clauses, cl ∉ holders ∧
          (link_type_loop as qo holders clauses root starter count).1 = some cl ∧
          ∃ l, (link_type_loop as qo holders clauses root starter count).2.1 = some l ∧
            OutsideChoice cl l ∧
            (link_type_loop as qo holders clauses root starter count).2.2 =
              as.get_num_atoms_of_type l.get_type) ∧
      (∀ cl ∈ clauses, cl ∉ holders → ∀ l, OutsideChoice cl l →
        (link_type_loop as qo holders clauses root starter count).1 ≠ none ∧
        (link_type_loop as qo holders clauses root starter count).2.2 ≤
          as.get_num_atoms_of_type l.get_type) ∧
      (root ≠ none → (link_type_loop as qo holders clauses root starter count).1 ≠ none) := by
  intro clauses
  induction clauses with
  | nil =>
    intro root starter count _ _
    rw [link_type_loop]
    exact ⟨Nat.le_refl _, Or.inl rfl, fun cl hc => absurd hc (List.not_mem_nil _), fun h => h⟩
  | cons cl rest ih =>
    intro root starter count hfree hinv
    have hfree2 := fun c hc => hfree c (List.mem_cons_of_mem _ hc)
    by_cases hev : cl ∈ holders
    · have hu : link_type_loop as qo holders (cl :: rest) root starter count =
          link_type_loop as qo holders rest root starter count := by
        rw [link_type_loop]
        exact if_pos hev
      rw [hu]
      obtain ⟨r1, r2, r3, r4⟩ := ih root starter count hfree2 hinv
      refine ⟨r1, ?_, ?_, r4⟩
      · rcases r2 with e | ⟨c, hc, h⟩
        · exact Or.inl e
        · exact Or.inr ⟨c, List.mem_cons_of_mem _ hc, h⟩
      · intro c hc hce
        rcases List.mem_cons.1 hc with e | hc2
        · subst e
          exact absurd hev hce
        · exact r3 c hc2 hce
    · obtain ⟨a1, a2, a3⟩ := find_rarest_spec as qo hq cl
        (hfree cl (List.mem_cons_self _ _) hev) starter count
      by_cases hlt : (find_rarest as qo cl starter count qo.init).2 < count
      · have hu : link_type_loop as qo holders (cl :: rest) root starter count =
            link_type_loop as qo holders rest (some cl)
              (find_rarest as qo cl starter count qo.init).1
              (find_rarest as qo cl starter count qo.init).2 := by
          rw [link_type_loop, if_neg hev]
          exact if_pos hlt
        rw [hu]
        obtain ⟨r1, r2, r3, r4⟩ := ih (some cl) (find_rarest as qo cl starter count qo.init).1
          (find_rarest as qo cl starter count qo.init).2 hfree2 (fun e => by cases e)
        have hne := r4 (by simp)
        refine ⟨by omega, Or.inr ?_, ?_, fun _ => hne⟩
        · rcases r2 with e | ⟨c, hc, h⟩
          · rcases a2 with e1 | ⟨_, l, h1, h2, h3⟩
            · rw [e1] at hlt
              simp at hlt
            · refine ⟨cl, List.mem_cons_self _ _, hev, by rw [e], l, ?_, h2, ?_⟩
              · rw [e]; exact h1
              · rw [e]; exact h3
          · exact ⟨c, List.mem_cons_of_mem _ hc, h⟩
        · intro c hc hce l hl
          rcases List.mem_cons.1 hc with e | hc2
          · subst e
            have := a3 l hl
            exact ⟨hne, by omega⟩
          · exact r3 c hc2 hce l hl
      · have heq : find_rarest as qo cl starter count qo.init = (starter, count) := by
          rcases a2 with e | ⟨h, _⟩
          · exact e
          · exact absurd h hlt
        have hu : link_type_loop as qo holders (cl :: rest) root starter count =
            link_type_loop as qo holders rest root starter count := by
          rw [link_type_loop, if_neg hev]
          simp only [heq, lt_self_iff_false, if_false]
        rw [hu]
        rw [heq] at a3
        simp only at a3
        obtain ⟨r1, r2, r3, r4⟩ := ih root starter count hfree2 hinv
        refine ⟨r1, ?_, ?_, r4⟩
        · rcases r2 with e | ⟨c, hc, h⟩
          · exact Or.inl e
          · exact Or.inr ⟨c, List.mem_cons_of_mem _ hc, h⟩
        · intro c hc hce l hl
          rcases List.mem_cons.1 hc with e | hc2
          · subst e
            have h1 := a3 l hl
            have h2 := get_num_atoms_of_type_lt as l.get_type
            have hrn : root ≠ none := by
              intro e
              have := hinv e
              omega
            exact ⟨r4 hrn, by omega⟩
          · exact r3 c hc2 hce l hl

theorem setup_link_type_search_spec {Q : Type} (as : AtomSpace) (qo : QuotationOps Q)
    (hq : qo.Neutral) (cb : InitiateSearchCB)
    (hfree : ∀ cl ∈ cb._pattern.mandatory, cl ∉ cb._pattern.evaluatable_holders →
      QuoteFree cl) :
    (setup_link_type_search as qo cb =
        .ok (false, { cb with _root := none, _starter_term := none }) ∧
      ∀ cl ∈ cb._pattern.mandatory, cl ∉ cb._pattern.evaluatable_holders →
        ∀ l, ¬ OutsideChoice cl l) ∨
    (∃ cl ∈ cb._pattern.mandatory, cl ∉ cb._pattern.evaluatable_holders ∧
      ∃ l, OutsideChoice cl l ∧
        setup_link_type_search as qo cb =
          .ok (true, { cb with
            _root := some cl, _starter_term := some l,
            _search_set := cb._search_set ++ as.get_handles_by_type l.get_type }) ∧
        ∀ cl2 ∈ cb._pattern.mandatory, cl2 ∉ cb._pattern.evaluatable_holders →
          ∀ l2, OutsideChoice cl2 l2 →
            as.get_num_atoms_of_type l.get_type ≤ as.get_num_atoms_of_type l2.get_type) := by
  obtain ⟨_, r2, r3, _⟩ := link_type_loop_spec as qo hq cb._pattern.evaluatable_holders
    cb._pattern.mandatory none none SIZE_MAX hfree (fun _ => rfl)
  rcases r2 with e | ⟨cl, hc, hce, h1, l, h2, h3, h4⟩
  · left
    constructor
    · unfold setup_link_type_search
      simp only [e]
    · intro cl hc hce l hl
      have := (r3 cl hc hce l hl).1
      rw [e] at this
      exact this rfl
  · right
    refine ⟨cl, hc, hce, l, h3, ?_, ?_⟩
    · unfold setup_link_type_search
      simp only [h1, h2]
    · intro cl2 hc2 hce2 l2 hl2
      have := (r3 cl2 hc2 hce2 l2 hl2).2
      omega

/-- C16 (as stated) fails: entered with a search set that still holds
`Concept "A"`, `setup_link_type_search` on `(Similarity $x $y)` succeeds and
leaves a search set that holds `Concept "A"` besides the two Similarity links,
so it is not the atoms of exactly the type of the start term. -/
theorem setup_link_type_search_appends_counterexample :
    setup_link_type_search spaceLinks quotationLevel
        { plannerLink with _search_set := [conceptA] } =
      .ok (true, { plannerLink with
        _root := some linkXY, _starter_term := some linkXY,
        _search_set := [conceptA, linkAB, linkBA] }) ∧
    conceptA.get_type ≠ linkXY.get_type ∧
    QuoteFree linkXY := by
  decide

/-- C16 (amended): for a pattern whose mandatory clauses outside the
evaluatable holders contain no quotation links, entered with an empty search
set: whenever `setup_link_type_search` succeeds, the start term is a link whose
type has a population no larger than that of the type of any link, not itself a
choice link, that occurs outside any choice link in a mandatory clause that is
not an evaluatable holder; and the search set is exactly the atoms of the
hypergraph whose type is the type of the start term. -/
theorem setup_link_type_search_rarest {Q : Type} (as : AtomSpace) (qo : QuotationOps Q)
    (hq : qo.Neutral) (cb cb1 : InitiateSearchCB)
    (hfree : ∀ cl ∈ cb._pattern.mandatory, cl ∉ cb._pattern.evaluatable_holders →
      QuoteFree cl)
    (hempty : cb._search_set = [])
    (hs : setup_link_type_search as qo cb = .ok (true, cb1)) :
    ∃ l, cb1._starter_term = some l ∧
      (∀ cl ∈ cb._pattern.mandatory, cl ∉ cb._pattern.evaluatable_holders →
        ∀ l2, OutsideChoice cl l2 →
          as.get_num_atoms_of_type l.get_type ≤ as.get_num_atoms_of_type l2.get_type) ∧
      cb1._search_set = as.get_handles_by_type l.get_type ∧
      ∀ a, a ∈ cb1._search_set ↔ a ∈ as.atoms ∧ a.get_type = l.get_type := by
  rcases setup_link_type_search_spec as qo hq cb hfree with ⟨e, _⟩ | ⟨cl, _, _, l, _, e, hmin⟩
  · rw [e] at hs
    injection hs with hs
    injection hs with hb _
    cases hb
  · rw [e] at hs
    injection hs with hs
    injection hs with _ hcb
    subst hcb
    refine ⟨l, rfl, hmin, ?_, ?_⟩
    · simp only [hempty, List.nil_append]
    · intro a
      simp only [hempty, List.nil_append, AtomSpace.get_handles_by_type, List.mem_filter,
        decide_eq_true_eq]

theorem quotationLevel_neutral : quotationLevel.Neutral := by
  refine ⟨rfl, ?_⟩
  intro t ht
  cases t <;> simp [is_quotation_type] at ht <;> exact ⟨by simp [quotationLevel], by simp [quotationLevel]⟩

/-- Witness for C16 (amended): `(Similarity $x $y)` from an empty search set;
the search set is the two Similarity links. -/
theorem setup_link_type_search_rarest_witness :
    ∃ l, (some linkXY : Handle) = some l ∧
      (∀ cl ∈ plannerLink._pattern.mandatory, cl ∉ plannerLink._pattern.evaluatable_holders →
        ∀ l2, OutsideChoice cl l2 →
          spaceLinks.get_num_atoms_of_type l.get_type ≤
            spaceLinks.get_num_atoms_of_type l2.get_type) ∧
      [linkAB, linkBA] = spaceLinks.get_handles_by_type l.get_type ∧
      ∀ a, a ∈ [linkAB, linkBA] ↔ a ∈ spaceLinks.atoms ∧ a.get_type = l.get_type :=
  setup_link_type_search_rarest spaceLinks quotationLevel quotationLevel_neutral plannerLink
    { plannerLink with
      _root := some linkXY, _starter_term := some linkXY,
      _search_set := [linkAB, linkBA] } (by decide) (by decide) (by decide)

/-- C17: for a pattern whose mandatory clauses outside the evaluatable holders
contain no quotation links, `setup_link_type_search` returns, and it returns
`false` exactly when every mandatory clause that is not an evaluatable holder
is a bare node or a choice link; in particular it succeeds whenever such a
clause is a link other than a choice link. -/
theorem setup_link_type_search_fails_iff {Q : Type} (as : AtomSpace) (qo : QuotationOps Q)
    (hq : qo.Neutral) (cb : InitiateSearchCB)
    (hfree : ∀ cl ∈ cb._pattern.mandatory, cl ∉ cb._pattern.evaluatable_holders →
      QuoteFree cl) :
    ∃ b cb1, setup_link_type_search as qo cb = .ok (b, cb1) ∧
      (b = false ↔
        ∀ cl ∈ cb._pattern.mandatory, cl ∉ cb._pattern.evaluatable_holders →
          (cl.isChoice = true ∨ ∃ t n, cl = .node t n)) ∧
      ((∃ cl ∈ cb._pattern.mandatory, cl ∉ cb._pattern.evaluatable_holders ∧
          ∃ t out, cl = .link t out ∧ t ≠ .CHOICE_LINK) → b = true) := by
  have hshape : ∀ cl : Atom, (∀ l, ¬ OutsideChoice cl l) ↔
      (cl.isChoice = true ∨ ∃ t n, cl = .node t n) := by
    intro cl
    constructor
    · intro hno
      cases cl with
      | node t n => exact Or.inr ⟨t, n, rfl⟩
      | link t out =>
        left
        by_cases ht : t = .CHOICE_LINK
        · subst ht
          rfl
        · exact absurd (OutsideChoice.here t out ht) (hno _)
    · rintro (hc | ⟨t, n, e⟩) l hl
      · obtain ⟨t, out, e, hne⟩ := OutsideChoice_root hl
        subst e
        cases t <;> first | exact hne rfl | simp [Atom.isChoice] at hc
      · subst e
        cases hl
  rcases setup_link_type_search_spec as qo hq cb hfree with ⟨e, hno⟩ | ⟨cl, hc, hce, l, hl, e, _⟩
  · refine ⟨false, _, e, ?_, ?_⟩
    · simp only [true_iff]
      intro cl hc hce
      exact (hshape cl).1 (hno cl hc hce)
    · rintro ⟨cl, hc, hce, t, out, e2, hne⟩
      subst e2
      exact absurd (OutsideChoice.here t out hne) (hno _ hc hce _)
  · refine ⟨true, _, e, ?_, fun _ => rfl⟩
    simp only [Bool.true_eq_false, false_iff]
    intro hall
    exact (hshape cl).2 (hall cl hc hce) l hl

/-- Witness for C17: `(Similarity $x $y)` is a link other than a choice link, so
the setup succeeds. -/
theorem setup_link_type_search_fails_iff_witness :
    ∃ b cb1, setup_link_type_search spaceLinks quotationLevel plannerLink = .ok (b, cb1) ∧
      (b = false ↔
        ∀ cl ∈ plannerLink._pattern.mandatory,
          cl ∉ plannerLink._pattern.evaluatable_holders →
          (cl.isChoice = true ∨ ∃ t n, cl = .node t n)) ∧
      ((∃ cl ∈ plannerLink._pattern.mandatory,
          cl ∉ plannerLink._pattern.evaluatable_holders ∧
          ∃ t out, cl = .link t out ∧ t ≠ .CHOICE_LINK) → b = true) :=
  setup_link_type_search_fails_iff spaceLinks quotationLevel quotationLevel_neutral
    plannerLink (by decide)

/-- A link that is a choice link is not counted by `find_rarest`: on
`(List (Choice (Concept "A") (Concept "B")) $x)` the start term is the List link
(population 2) although the Choice link in it has population 1. -/
theorem setup_link_type_search_skips_choice_example :
    setup_link_type_search spaceList quotationLevel plannerListChoice =
      .ok (true, { plannerListChoice with
        _root := some listChoiceX, _starter_term := some listChoiceX,
        _search_set := [listUA, listVA] }) ∧
    spaceList.get_num_atoms_of_type listChoiceX.get_type = 2 ∧
    spaceList.get_num_atoms_of_type choiceAB.get_type = 1 ∧
    choiceAB ∈ listChoiceX.getOutgoingSet := by
  decide

/-! ## The start term -/

theorem subterms_trans : ∀ z x y : Atom, x ∈ y.subterms → y ∈ z.subterms → x ∈ z.subterms := by
  intro z
  induction z using atom_induct with
  | hn t n =>
    intro x y hx hy
    simp only [Atom.subterms, List.mem_singleton] at hy
    subst hy
    exact hx
  | hl t out ih =>
    intro x y hx hy
    rcases (mem_subterms_link y t out).1 hy with e | ⟨c, hc, hyc⟩
    · subst e
      exact hx
    · exact (mem_subterms_link x t out).2 (Or.inr ⟨c, hc, ih c hc x y hx hyc⟩)

theorem find_starter_loop_start_term (as : AtomSpace) (dyn : List Atom) (curr : Handle)
    (t : LinkType) (out : List Atom) (depth : Nat) (ht : t ≠ .CHOICE_LINK) :
    ∀ rest : List Atom, (∀ x ∈ rest, x ∈ out) →
    (∀ hunt ∈ rest, ∀ g, hunt_target hunt = some g →
      ∀ d st w ch b, find_starter_recursive as dyn curr g d st w ch = .ok b →
        ∀ s, b.ret = some s → s ∈ g.subterms ∧
          ((g.isLink = false ∧ b.startrm = st) ∨
            ∃ l, b.startrm = some l ∧ l.isLink = true ∧ s ∈ l.subterms ∧ l ∈ g.subterms)) →
    ∀ deepest hdeepest thinnest startrm choices b,
      find_starter_loop as dyn curr (.link t out) t depth rest deepest hdeepest thinnest
        startrm choices = .ok b →
      (b.ret = hdeepest ∧ b.startrm = startrm) ∨
      (∃ s l, b.ret = some s ∧ b.startrm = some l ∧ l.isLink = true ∧ s ∈ l.subterms ∧
        l ∈ (Atom.link t out).subterms) := by
  intro rest
  induction rest with
  | nil =>
    intro _ _ deepest hdeepest thinnest startrm choices b hb
    rw [find_starter_loop] at hb
    injection hb with hb
    subst hb
    exact Or.inl ⟨rfl, rfl⟩
  | cons hunt rest ihr =>
    intro hsub ih deepest hdeepest thinnest startrm choices b hb
    have hsub2 : ∀ x ∈ rest, x ∈ out := fun x hx => hsub x (List.mem_cons_of_mem _ hx)
    have ih2 := fun x hx => ih x (List.mem_cons_of_mem _ hx)
    rw [find_starter_loop_cons] at hb
    split at hb
    · cases hb
    · rename_i g hg
      split at hb
      · cases hb
      · rename_i br hbr
        split at hb
        · exact ihr hsub2 ih2 _ _ _ _ _ _ hb
        · rename_i s hs
          split_ifs at hb with hc hsel
          · exact absurd hc.symm ht
          · rcases ihr hsub2 ih2 _ _ _ _ _ _ hb with ⟨h1, h2⟩ | h4
            · right
              rw [if_pos (Ne.symm ht)] at hbr
              obtain ⟨hsg, hcase⟩ := ih hunt (List.mem_cons_self _ _) g hg _ _ _ _ _ hbr s hs
              have hgin : ∀ x, x ∈ g.subterms → x ∈ (Atom.link t out).subterms := fun x hx =>
                (mem_subterms_link x t out).2
                  (Or.inr ⟨hunt, hsub hunt (List.mem_cons_self _ _), hunt_target_subterms hg hx⟩)
              rcases hcase with ⟨_, e⟩ | ⟨l, e, hl1, hl2, hl3⟩
              · exact ⟨s, .link t out, h1, by rw [h2, e], rfl, hgin s hsg,
                  self_mem_subterms _⟩
              · exact ⟨s, l, h1, by rw [h2, e], hl1, hl2, hgin l hl3⟩
            · exact Or.inr h4
          · exact ihr hsub2 ih2 _ _ _ _ _ _ hb

theorem find_starter_recursive_start_term (as : AtomSpace) (dyn : List Atom) (curr : Handle) :
    ∀ (h : Atom) (d : Nat) (st : Handle) (w : Nat) (ch : List Choice) (b : Found),
      find_starter_recursive as dyn curr h d st w ch = .ok b →
      ∀ s, b.ret = some s → s ∈ h.subterms ∧
        ((h.isLink = false ∧ b.startrm = st) ∨
          ∃ l, b.startrm = some l ∧ l.isLink = true ∧ s ∈ l.subterms ∧ l ∈ h.subterms) := by
  intro h
  induction h using target_induct_atom with
  | hn t n =>
    intro d st w ch b hb s hs
    rw [find_starter_recursive] at hb
    split_ifs at hb with hc
    · injection hb with hb
      subst hb
      simp only [Option.some.injEq] at hs
      subst hs
      exact ⟨self_mem_subterms _, Or.inl ⟨rfl, rfl⟩⟩
    · injection hb with hb
      subst hb
      cases hs
  | hl t out ih =>
    intro d st w ch b hb s hs
    rw [find_starter_recursive] at hb
    split_ifs at hb with hdyn
    · injection hb with hb
      subst hb
      cases hs
    · by_cases ht : t = .CHOICE_LINK
      · subst ht
        have := (find_starter_loop_choice_link as dyn curr _ d out _ _ _ _ _ _ hb).1
        rw [this] at hs
        cases hs
      · rcases find_starter_loop_start_term as dyn curr t out d ht out (fun _ hx => hx) ih
          _ _ _ _ _ _ hb with ⟨h1, _⟩ | ⟨s2, l, h1, h2, h3, h4, h5⟩
        · rw [h1] at hs
          cases hs
        · rw [h1] at hs
          injection hs with hs
          subst hs
          exact ⟨subterms_trans _ _ _ h4 h5, Or.inr ⟨l, h2, h3, h4, h5⟩⟩

theorem find_starter_link_start_term (as : AtomSpace) (dyn : List Atom) (curr : Handle)
    (t : LinkType) (out : List Atom) (d : Nat) (st : Handle) (w : Nat) (ch : List Choice)
    (b : Found) (hb : find_starter as dyn curr (.link t out) d st w ch = .ok b)
    (s : Atom) (hs : b.ret = some s) :
    ∃ l, b.startrm = some l ∧ l.isLink = true ∧ s ∈ l.subterms ∧ s ≠ l ∧
      l ∈ (Atom.link t out).subterms := by
  rw [find_starter_link] at hb
  have hk := (find_starter_recursive_sound as dyn curr _ d st w ch b hb s hs).1
  rcases (find_starter_recursive_start_term as dyn curr _ d st w ch b hb s hs).2 with
    ⟨h1, _⟩ | ⟨l, h1, h2, h3, h4⟩
  · cases h1
  · refine ⟨l, h1, h2, h3, ?_, h4⟩
    intro e
    subst e
    cases s with
    | node _ _ => cases h2
    | link _ _ => cases hk

/-- C12 (failing input): on the clause that is the bare node `(Concept "A")`
the starter finder returns that node as starter and reports the same node, not
a link, as the start term; the neighbourhood setup then succeeds with a choice
whose start term is the node, and the search set built for that choice is
empty although `(Concept "A")` has three incoming links. -/
theorem find_starter_node_clause_start_term :
    find_starter spaceList [] none conceptA 0 none SIZE_MAX [] =
      .ok ⟨some conceptA, 0, some conceptA, 3, []⟩ ∧
    conceptA.isLink = false ∧
    setup_neighbor_search spaceList plannerNode =
      .ok (true, { plannerNode with
        _starter_term := some conceptA, _curr_clause := some conceptA,
        _choices := [⟨some conceptA, some conceptA, some conceptA⟩] }) ∧
    spaceList.getIncomingSetSize conceptA = 3 ∧
    spaceList.get_incoming_set conceptA conceptA.get_type = [] := by
  decide

/-! ## Evaluatable terms on the way to the starter -/

theorem Reached_finderPath {dyn : List Atom} {h s : Atom} (hr : Reached dyn h s) :
    ∃ p, FinderPath h s p ∧ ∀ x ∈ p, x ∉ dyn := by
  induction hr with
  | node t n _ => exact ⟨[], FinderPath.node t n, fun x hx => absurd hx (List.not_mem_nil _)⟩
  | link t out hunt g s hd hm hg _ ih =>
    obtain ⟨p, hp, hall⟩ := ih
    refine ⟨.link t out :: p, FinderPath.link t out hunt g s p hm hg hp, ?_⟩
    intro x hx
    rcases List.mem_cons.1 hx with e | hx2
    · subst e
      exact hd
    · exact hall x hx2

/-- C13 (as stated) fails: with `(Concept "A")` itself in the evaluatable-terms
set, the finder on `(List $x (Concept "A"))` still returns `(Concept "A")`; and
with `(Quote (Concept "A"))` in the set, the finder on
`(List $x (Quote (Concept "A")))` returns `(Concept "A")`, which lies inside
that quotation link. -/
theorem find_starter_evaluatable_on_path_counterexample :
    (find_starter spaceList [conceptA] none listXA 0 none SIZE_MAX [] =
        .ok ⟨some conceptA, 1, some listXA, 3, []⟩ ∧
      conceptA ∈ [conceptA] ∧ conceptA ∈ listXA.getOutgoingSet) ∧
    (find_starter spaceList [quoteA] none listXQuoteA 0 none SIZE_MAX [] =
        .ok ⟨some conceptA, 1, some listXQuoteA, 3, []⟩ ∧
      quoteA ∈ [quoteA] ∧ quoteA ∈ listXQuoteA.getOutgoingSet ∧
      conceptA ∈ quoteA.getOutgoingSet) := by
  decide

/-- C13 (amended): whenever `find_starter` or `find_starter_recursive` returns,
for any clause and evaluatable-terms set, every link the finder enters on its
way from the clause root down to the returned starter (the root included) is
not a member of the evaluatable-terms set, and the same holds for the
`best_start` of every choice record the call appends; the starter node itself
and a quotation link stepped over in an outgoing set are not tested.  On a link
that is a member of the set the finder returns no starter and appends nothing. -/
theorem starter_path_avoids_evaluatable (as : AtomSpace) (dyn : List Atom) (curr : Handle)
    (h : Atom) (d : Nat) (st : Handle) (w : Nat) (ch : List Choice) (b : Found)
    (hb : find_starter as dyn curr h d st w ch = .ok b ∨
      find_starter_recursive as dyn curr h d st w ch = .ok b) :
    (∀ s, b.ret = some s → ∃ p, FinderPath h s p ∧ ∀ x ∈ p, x ∉ dyn) ∧
    (∃ added, b.choices = ch ++ added ∧
      ∀ c ∈ added, ∃ s, c.best_start = some s ∧
        ∃ p, FinderPath h s p ∧ ∀ x ∈ p, x ∉ dyn) ∧
    (h.isLink = true → h ∈ dyn → b = ⟨none, d, st, w, ch⟩) := by
  have hrec : h.isLink = true → find_starter_recursive as dyn curr h d st w ch = .ok b := by
    intro hl
    rcases hb with hb | hb
    · cases h with
      | node _ _ => cases hl
      | link t out => exact hb
    · exact hb
  refine ⟨?_, ?_, ?_⟩
  · intro s hs
    rcases hb with hb | hb
    · exact Reached_finderPath
        (Candidate_reached (find_starter_sound as dyn curr h d st w ch b hb s hs).2.2)
    · exact Reached_finderPath
        (Candidate_reached (find_starter_recursive_sound as dyn curr h d st w ch b hb s hs).2.2)
  · have hch : ∃ added, b.choices = ch ++ added ∧
        ∀ c ∈ added, c.clause = curr ∧ ∃ s, c.best_start = some s ∧ Reached dyn h s := by
      rcases hb with hb | hb
      · exact find_starter_choices as dyn curr h d st w ch b hb
      · exact find_starter_recursive_choices as dyn curr h d st w ch b hb
    obtain ⟨added, h1, h2⟩ := hch
    refine ⟨added, h1, fun c hc => ?_⟩
    obtain ⟨_, s, h3, h4⟩ := h2 c hc
    exact ⟨s, h3, Reached_finderPath h4⟩
  · intro hl hd
    have hr := hrec hl
    cases h with
    | node _ _ => cases hl
    | link t out =>
      rw [find_starter_recursive, if_pos hd] at hr
      injection hr with hr
      exact hr.symm

/-- Witness for C13 (amended): `(List $x (Concept "A"))` with the evaluatable
term `(Eval (GroundedPredicate "f") (List $x (Concept "B")))`. -/
theorem starter_path_avoids_evaluatable_witness :
    (∀ s, (some conceptA : Handle) = some s →
      ∃ p, FinderPath listXA s p ∧ ∀ x ∈ p, x ∉ [evalGpnB]) ∧
    (∃ added, ([] : List Choice) = [] ++ added ∧
      ∀ c ∈ added, ∃ s, c.best_start = some s ∧
        ∃ p, FinderPath listXA s p ∧ ∀ x ∈ p, x ∉ [evalGpnB]) ∧
    (listXA.isLink = true → listXA ∈ [evalGpnB] →
      (⟨some conceptA, 1, some listXA, 3, []⟩ : Found) = ⟨none, 0, none, SIZE_MAX, []⟩) :=
  starter_path_avoids_evaluatable spaceList [evalGpnB] none listXA 0 none SIZE_MAX []
    ⟨some conceptA, 1, some listXA, 3, []⟩ (Or.inl (by decide))

/-! ## Emptiness of the search set -/

theorem outcome_ok (b : Found) : outcome (.ok b) = .ok b.key := rfl

theorem outcome_error (e : Err) : outcome (.error e) = .error e := rfl

theorem outcome_eq_error {r : Except Err Found} {e : Err} (h : outcome r = .error e) :
    r = .error e := by
  cases r with
  | error e2 =>
    rw [outcome_error] at h
    injection h with h
    rw [h]
  | ok b =>
    rw [outcome_ok] at h
    cases h

theorem outcome_eq_ok {r : Except Err Found} {k : Handle × Nat × Nat}
    (h : outcome r = .ok k) : ∃ b, r = .ok b ∧ b.key = k := by
  cases r with
  | error e =>
    rw [outcome_error] at h
    cases h
  | ok b =>
    rw [outcome_ok] at h
    injection h with h
    exact ⟨b, rfl, h⟩

theorem find_starter_loop_call (as : AtomSpace) (dyn : List Atom) (curr : Handle)
    (h : Atom) (t : LinkType) (depth : Nat) (hunt : Atom) (rest : List Atom)
    (deepest : Nat) (hdeepest : Handle) (thinnest : Nat) (startrm : Handle)
    (choices : List Choice) :
    find_starter_loop as dyn curr h t depth (hunt :: rest) deepest hdeepest thinnest startrm
        choices =
      match hunt_call as dyn curr hunt (depth + 1)
          (if LinkType.CHOICE_LINK ≠ t then some h else startrm) SIZE_MAX choices with
      | .error e => .error e
      | .ok b =>
        match b.ret with
        | none =>
          find_starter_loop as dyn curr h t depth rest deepest hdeepest thinnest startrm
            b.choices
        | some s =>
          if LinkType.CHOICE_LINK = t then
            find_starter_loop as dyn curr h t depth rest deepest hdeepest thinnest startrm
              (b.choices ++ [⟨curr, some s, b.startrm⟩])
          else if b.width < thinnest ∨ (b.width = thinnest ∧ deepest < b.depth) then
            find_starter_loop as dyn curr h t depth rest b.depth (some s) b.width b.startrm
              b.choices
          else
            find_starter_loop as dyn curr h t depth rest deepest hdeepest thinnest startrm
              b.choices := by
  rw [find_starter_loop_cons]
  unfold hunt_call
  cases hunt_target hunt <;> rfl

theorem find_starter_loop_sim (as : AtomSpace) (dyn : List Atom) (curr curr2 : Handle)
    (h h2 : Atom) (t : LinkType) (depth : Nat) :
    ∀ (rest rest2 : List Atom),
      List.Forall₂ (fun x x2 => ∀ d st st2 w ch ch2,
        outcome (hunt_call as dyn curr x d st w ch) =
          outcome (hunt_call as dyn curr2 x2 d st2 w ch2)) rest rest2 →
      ∀ deepest hdeepest thinnest startrm startrm2 choices choices2,
        outcome (find_starter_loop as dyn curr h t depth rest deepest hdeepest thinnest
            startrm choices) =
          outcome (find_starter_loop as dyn curr2 h2 t depth rest2 deepest hdeepest thinnest
            startrm2 choices2) := by
  intro rest rest2 hall
  induction hall with
  | nil =>
    intro deepest hdeepest thinnest startrm startrm2 choices choices2
    rw [find_starter_loop, find_starter_loop]
    rfl
  | @cons x x2 l l2 hx _ ih =>
    intro deepest hdeepest thinnest startrm startrm2 choices choices2
    rw [find_starter_loop_call, find_starter_loop_call]
    have hc := hx (depth + 1) (if LinkType.CHOICE_LINK ≠ t then some h else startrm)
      (if LinkType.CHOICE_LINK ≠ t then some h2 else startrm2) SIZE_MAX choices choices2
    cases hr : hunt_call as dyn curr x (depth + 1)
        (if LinkType.CHOICE_LINK ≠ t then some h else startrm) SIZE_MAX choices with
    | error e =>
      rw [hr, outcome_error] at hc
      rw [outcome_eq_error hc.symm]
    | ok b =>
      rw [hr, outcome_ok] at hc
      obtain ⟨b2, hr2, hk⟩ := outcome_eq_ok hc.symm
      rw [hr2]
      simp only [Found.key, Prod.mk.injEq] at hk
      obtain ⟨k1, k2, k3⟩ := hk
      simp only [k1, k2, k3]
      cases b.ret with
      | none => exact ih _ _ _ _ _ _ _
      | some s =>
        simp only
        split_ifs
        · exact ih _ _ _ _ _ _ _
        · exact ih _ _ _ _ _ _ _
        · exact ih _ _ _ _ _ _ _

theorem find_starter_recursive_sim (as : AtomSpace) (dyn : List Atom) :
    ∀ (g : Atom) (curr curr2 : Handle) (d : Nat) (st st2 : Handle) (w : Nat)
      (ch ch2 : List Choice),
      outcome (find_starter_recursive as dyn curr g d st w ch) =
        outcome (find_starter_recursive as dyn curr2 g d st2 w ch2) := by
  intro g
  induction g using target_induct_atom with
  | hn t n =>
    intro curr curr2 d st st2 w ch ch2
    rw [find_starter_recursive, find_starter_recursive]
    split_ifs <;> rfl
  | hl t out ih =>
    intro curr curr2 d st st2 w ch ch2
    rw [find_starter_recursive, find_starter_recursive]
    split_ifs
    · rfl
    · apply find_starter_loop_sim
      rw [List.forall₂_same]
      intro x hx d2 s1 s2 w2 c1 c2
      unfold hunt_call
      cases hg : hunt_target x with
      | none => rfl
      | some g => exact ih x hx g hg curr curr2 d2 s1 s2 w2 c1 c2

theorem hunt_call_sim (as : AtomSpace) (dyn : List Atom) (curr curr2 : Handle) (x : Atom)
    (d : Nat) (st st2 : Handle) (w : Nat) (ch ch2 : List Choice) :
    outcome (hunt_call as dyn curr x d st w ch) =
      outcome (hunt_call as dyn curr2 x d st2 w ch2) := by
  unfold hunt_call
  cases hunt_target x with
  | none => rfl
  | some g => exact find_starter_recursive_sim as dyn g curr curr2 d st st2 w ch ch2

theorem hunt_target_link_of_not_quotation (t : LinkType) (out : List Atom)
    (hq : is_quotation_type t = false) : hunt_target (.link t out) = some (.link t out) :=
  hunt_target_of_not_quotation _ (by simp only [Atom.isQuotation]; exact hq)

theorem forall2_middle {R : Atom → Atom → Prop} (hrefl : ∀ x, R x x) (pre post : List Atom)
    (x x2 : Atom) (hx : R x x2) : List.Forall₂ R (pre ++ x :: post) (pre ++ x2 :: post) :=
  List.rel_append (List.forall₂_same.2 fun y _ => hrefl y)
    (List.Forall₂.cons hx (List.forall₂_same.2 fun y _ => hrefl y))

theorem QuoteWrap_sim (as : AtomSpace) (dyn : List Atom) {x x2 : Atom}
    (hw : QuoteWrap dyn x x2) :
    (∀ (curr curr2 : Handle) (d : Nat) (st st2 : Handle) (w : Nat) (ch ch2 : List Choice),
      outcome (find_starter_recursive as dyn curr x d st w ch) =
        outcome (find_starter_recursive as dyn curr2 x2 d st2 w ch2)) ∧
    (∀ (curr curr2 : Handle) (d : Nat) (st st2 : Handle) (w : Nat) (ch ch2 : List Choice),
      outcome (hunt_call as dyn curr x d st w ch) =
        outcome (hunt_call as dyn curr2 x2 d st2 w ch2)) := by
  induction hw with
  | here t pre post nt nn hq _ hmem =>
    have hrec : ∀ (curr curr2 : Handle) (d : Nat) (st st2 : Handle) (w : Nat)
        (ch ch2 : List Choice),
        outcome (find_starter_recursive as dyn curr
            (.link t (pre ++ .node nt nn :: post)) d st w ch) =
          outcome (find_starter_recursive as dyn curr2
            (.link t (pre ++ quote_wrap (.node nt nn) :: post)) d st2 w ch2) := by
      intro curr curr2 d st st2 w ch ch2
      rw [find_starter_recursive, find_starter_recursive]
      by_cases hd : Atom.link t (pre ++ .node nt nn :: post) ∈ dyn
      · rw [if_pos hd, if_pos (hmem.1 hd)]
        rfl
      · rw [if_neg hd, if_neg (fun h => hd (hmem.2 h))]
        apply find_starter_loop_sim
        apply forall2_middle
        · intro y d2 s1 s2 w2 c1 c2
          exact hunt_call_sim as dyn curr curr2 y d2 s1 s2 w2 c1 c2
        · intro d2 s1 s2 w2 c1 c2
          have e1 : hunt_call as dyn curr (.node nt nn) d2 s1 w2 c1 =
              find_starter_recursive as dyn curr (.node nt nn) d2 s1 w2 c1 := rfl
          have e2 : hunt_call as dyn curr2 (quote_wrap (.node nt nn)) d2 s2 w2 c2 =
              find_starter_recursive as dyn curr2 (.node nt nn) d2 s2 w2 c2 := rfl
          rw [e1, e2]
          exact find_starter_recursive_sim as dyn _ curr curr2 d2 s1 s2 w2 c1 c2
    refine ⟨hrec, ?_⟩
    intro curr curr2 d st st2 w ch ch2
    unfold hunt_call
    rw [hunt_target_link_of_not_quotation t _ hq, hunt_target_link_of_not_quotation t _ hq]
    exact hrec curr curr2 d st st2 w ch ch2
  | down t pre post y y2 _ hmem ih =>
    have hrec : ∀ (curr curr2 : Handle) (d : Nat) (st st2 : Handle) (w : Nat)
        (ch ch2 : List Choice),
        outcome (find_starter_recursive as dyn curr (.link t (pre ++ y :: post)) d st w ch) =
          outcome (find_starter_recursive as dyn curr2 (.link t (pre ++ y2 :: post))
            d st2 w ch2) := by
      intro curr curr2 d st st2 w ch ch2
      rw [find_starter_recursive, find_starter_recursive]
      by_cases hd : Atom.link t (pre ++ y :: post) ∈ dyn
      · rw [if_pos hd, if_pos (hmem.1 hd)]
        rfl
      · rw [if_neg hd, if_neg (fun h => hd (hmem.2 h))]
        apply find_starter_loop_sim
        apply forall2_middle
        · intro z d2 s1 s2 w2 c1 c2
          exact hunt_call_sim as dyn curr curr2 z d2 s1 s2 w2 c1 c2
        · intro d2 s1 s2 w2 c1 c2
          exact ih.2 curr curr2 d2 s1 s2 w2 c1 c2
    refine ⟨hrec, ?_⟩
    intro curr curr2 d st st2 w ch ch2
    by_cases hq : is_quotation_type t = true
    · unfold hunt_call
      cases pre with
      | nil =>
        simp only [List.nil_append, hunt_target, hq, if_true]
        exact ih.1 curr curr2 d st st2 w ch ch2
      | cons p ps =>
        simp only [List.cons_append, hunt_target, hq, if_true]
        exact find_starter_recursive_sim as dyn p curr curr2 d st st2 w ch ch2
    · have hq2 : is_quotation_type t = false := by simpa using hq
      unfold hunt_call
      rw [hunt_target_link_of_not_quotation t _ hq2, hunt_target_link_of_not_quotation t _ hq2]
      exact hrec curr curr2 d st st2 w ch ch2

theorem QuoteWrap_link {dyn : List Atom} {x x2 : Atom} (hw : QuoteWrap dyn x x2) :
    x.isLink = true ∧ x2.isLink = true := by
  cases hw <;> exact ⟨rfl, rfl⟩

theorem find_starter_sim (as : AtomSpace) (dyn : List Atom) (h : Atom) (curr curr2 : Handle)
    (d : Nat) (st st2 : Handle) (w : Nat) (ch ch2 : List Choice) :
    outcome (find_starter as dyn curr h d st w ch) =
      outcome (find_starter as dyn curr2 h d st2 w ch2) := by
  cases h with
  | node t n =>
    rw [find_starter_node, find_starter_node]
    split_ifs <;> rfl
  | link t out =>
    rw [find_starter_link, find_starter_link]
    exact find_starter_recursive_sim as dyn _ curr curr2 d st st2 w ch ch2

theorem find_thinnest_loop_sim (as : AtomSpace) (dyn evl : List Atom) :
    ∀ (cls cls2 : List Atom),
      List.Forall₂ (fun c c2 => (c ∈ evl ↔ c2 ∈ evl) ∧ ∀ ch ch2,
        outcome (find_starter as dyn (some c) c 0 none SIZE_MAX ch) =
          outcome (find_starter as dyn (some c2) c2 0 none SIZE_MAX ch2)) cls cls2 →
      ∀ thinnest deepest bestclause bestclause2 best_start starter_term starter_term2
        curr curr2 choices choices2,
        (find_thinnest_loop as dyn evl cls thinnest deepest bestclause best_start starter_term
            curr choices).map (fun th => th.best_start) =
          (find_thinnest_loop as dyn evl cls2 thinnest deepest bestclause2 best_start
            starter_term2 curr2 choices2).map (fun th => th.best_start) := by
  intro cls cls2 hall
  induction hall with
  | nil =>
    intro thinnest deepest bestclause bestclause2 best_start starter_term starter_term2
      curr curr2 choices choices2
    rw [find_thinnest_loop, find_thinnest_loop]
    rfl
  | @cons c c2 l l2 hx _ ih =>
    intro thinnest deepest bestclause bestclause2 best_start starter_term starter_term2
      curr curr2 choices choices2
    rw [find_thinnest_loop, find_thinnest_loop]
    by_cases he : c ∈ evl
    · rw [if_pos he, if_pos (hx.1.1 he)]
      exact ih _ _ _ _ _ _ _ _ _ _ _
    · rw [if_neg he, if_neg (fun h => he (hx.1.2 h))]
      have hc := hx.2 choices choices2
      cases hr : find_starter as dyn (some c) c 0 none SIZE_MAX choices with
      | error e =>
        rw [hr, outcome_error] at hc
        rw [outcome_eq_error hc.symm]
      | ok b =>
        rw [hr, outcome_ok] at hc
        obtain ⟨b2, hr2, hk⟩ := outcome_eq_ok hc.symm
        rw [hr2]
        simp only [Found.key, Prod.mk.injEq] at hk
        obtain ⟨k1, k2, k3⟩ := hk
        simp only [k1, k2, k3]
        split_ifs
        · exact ih _ _ _ _ _ _ _ _ _ _ _
        · exact ih _ _ _ _ _ _ _ _ _ _ _

/-- C14 (as stated) fails: with `(Concept "A")` and `(Concept "B")` of equal
incoming-set size, thinnest-clause selection on
`(List (Concept "A") (Quote (Concept "B")))` chooses `(Concept "A")`, and after
wrapping the occurrence of `(Concept "B")` in a quote link it chooses
`(Concept "B")`, now found one level deeper; likewise for the candidate clauses
`(Concept "A")`, `(Concept "B")` when the second clause is wrapped. -/
theorem find_thinnest_quote_wrap_counterexample :
    spaceLinks.getIncomingSetSize conceptA = spaceLinks.getIncomingSetSize conceptB ∧
    listAQuoteQuoteB = .link (.other 0) [conceptA, .link .QUOTE_LINK [quote_wrap conceptB]] ∧
    (find_thinnest spaceLinks [] none [listAQuoteB] []).map (fun th => th.best_start) =
      .ok (some conceptA) ∧
    (find_thinnest spaceLinks [] none [listAQuoteQuoteB] []).map (fun th => th.best_start) =
      .ok (some conceptB) ∧
    (find_thinnest spaceLinks [] none [conceptA, conceptB] []).map (fun th => th.best_start) =
      .ok (some conceptA) ∧
    (find_thinnest spaceLinks [] none [conceptA, quote_wrap conceptB] []).map
      (fun th => th.best_start) = .ok (some conceptB) := by
  decide

/-- C14 (amended): for every list of candidate clauses and every occurrence of
a constant node in one of them that is an outgoing atom of a link other than a
quotation link, replacing that occurrence by a quote link wrapping it changes
neither whether thinnest-clause selection returns nor the starter node
(`best_start`) it chooses, the hypergraph being held fixed, provided every link
rewritten by the replacement is in the evaluatable-terms set, and the rewritten
clause in the evaluatable-holder set, after the replacement exactly when the
one it replaces was before. -/
theorem find_thinnest_quote_transparent (as : AtomSpace) (dyn evl : List Atom)
    (curr : Handle) (pre post : List Atom) (cl cl2 : Atom)
    (hw : QuoteWrap dyn cl cl2) (hevl : cl ∈ evl ↔ cl2 ∈ evl) :
    (find_thinnest as dyn curr (pre ++ cl :: post) evl).map (fun th => th.best_start) =
      (find_thinnest as dyn curr (pre ++ cl2 :: post) evl).map (fun th => th.best_start) := by
  have hsame : ∀ l : List Atom, List.Forall₂ (fun c c2 => (c ∈ evl ↔ c2 ∈ evl) ∧ ∀ ch ch2,
      outcome (find_starter as dyn (some c) c 0 none SIZE_MAX ch) =
        outcome (find_starter as dyn (some c2) c2 0 none SIZE_MAX ch2)) l l := fun l =>
    List.forall₂_same.2 fun y _ =>
      ⟨Iff.rfl, fun ch ch2 => find_starter_sim as dyn y _ _ 0 none none SIZE_MAX ch ch2⟩
  have hmid : ∀ ch ch2, outcome (find_starter as dyn (some cl) cl 0 none SIZE_MAX ch) =
      outcome (find_starter as dyn (some cl2) cl2 0 none SIZE_MAX ch2) := by
    intro ch ch2
    have hs := (QuoteWrap_sim as dyn hw).1 (some cl) (some cl2) 0 none none SIZE_MAX ch ch2
    cases hw with
    | here t p q nt nn _ _ _ => exact hs
    | down t p q x x2 _ _ => exact hs
  unfold find_thinnest
  apply find_thinnest_loop_sim
  exact List.rel_append (hsame pre) (List.Forall₂.cons ⟨hevl, hmid⟩ (hsame post))

/-- Witness for C14 (amended): the occurrence of `(Concept "B")` in
`(Similarity (Concept "A") (Concept "B"))`, with the clause
`(List $x (Concept "A"))` before it. -/
theorem find_thinnest_quote_transparent_witness :
    (find_thinnest spaceLinks [] none ([listXA] ++ linkAB :: []) []).map
        (fun th => th.best_start) =
      (find_thinnest spaceLinks [] none ([listXA] ++ linkAQuoteB :: []) []).map
        (fun th => th.best_start) :=
  find_thinnest_quote_transparent spaceLinks [] [] none [listXA] [] linkAB linkAQuoteB
    (QuoteWrap.here (.other 7) [conceptA] [] (.other 0) "B" (by decide) (by decide)
      (by decide)) (by decide)

/-! ## The clause that owns the rarest link -/

theorem find_rarest_loop_owner {Q : Type} (as : AtomSpace) (qo : QuotationOps Q) :
    ∀ (rest : List Atom),
    (∀ c ∈ rest, ∀ rarest count q,
      (find_rarest as qo c rarest count q).2 ≤ count ∧
      (find_rarest as qo c rarest count q = (rarest, count) ∨
        ((find_rarest as qo c rarest count q).2 < count ∧
          ∃ l, (find_rarest as qo c rarest count q).1 = some l ∧ l.isLink = true ∧
            l ∈ c.subterms))) →
    ∀ rarest count q,
      (find_rarest_loop as qo rest rarest count q).2 ≤ count ∧
      (find_rarest_loop as qo rest rarest count q = (rarest, count) ∨
        ((find_rarest_loop as qo rest rarest count q).2 < count ∧
          ∃ c ∈ rest, ∃ l, (find_rarest_loop as qo rest rarest count q).1 = some l ∧
            l.isLink = true ∧ l ∈ c.subterms)) := by
  intro rest
  induction rest with
  | nil =>
    intro _ rarest count q
    rw [find_rarest_loop]
    exact ⟨Nat.le_refl _, Or.inl rfl⟩
  | cons x rest ihr =>
    intro ih rarest count q
    have ih2 := fun c hc => ih c (List.mem_cons_of_mem _ hc)
    rw [find_rarest_loop]
    obtain ⟨a1, a2⟩ := ih x (List.mem_cons_self _ _) rarest count q
    generalize find_rarest as qo x rarest count q = r at a1 a2
    obtain ⟨b1, b2⟩ := ihr ih2 r.1 r.2 q
    generalize find_rarest_loop as qo rest r.1 r.2 q = r2 at b1 b2
    refine ⟨by omega, ?_⟩
    rcases b2 with e2 | ⟨hlt, c, hc, l, h1, h2, h3⟩
    · rcases a2 with e1 | ⟨hlt1, l, h1, h2, h3⟩
      · left
        rw [e2, e1]
      · right
        rw [e2]
        exact ⟨hlt1, x, List.mem_cons_self _ _, l, h1, h2, h3⟩
    · right
      exact ⟨by omega, c, List.mem_cons_of_mem _ hc, l, h1, h2, h3⟩

theorem find_rarest_owner {Q : Type} (as : AtomSpace) (qo : QuotationOps Q) :
    ∀ (h : Atom) (rarest : Handle) (count : Nat) (q : Q),
      (find_rarest as qo h rarest count q).2 ≤ count ∧
      (find_rarest as qo h rarest count q = (rarest, count) ∨
        ((find_rarest as qo h rarest count q).2 < count ∧
          ∃ l, (find_rarest as qo h rarest count q).1 = some l ∧ l.isLink = true ∧
            l ∈ h.subterms)) := by
  intro h
  induction h using atom_induct with
  | hn t n =>
    intro rarest count q
    rw [find_rarest]
    exact ⟨Nat.le_refl _, Or.inl rfl⟩
  | hl t out ih =>
    intro rarest count q
    rw [find_rarest]
    split_ifs with hc
    · exact ⟨Nat.le_refl _, Or.inl rfl⟩
    · have hloop := find_rarest_loop_owner as qo out ih
      have hin : ∀ c ∈ out, ∀ l, l ∈ c.subterms → l ∈ (Atom.link t out).subterms :=
        fun c hc l hl => (mem_subterms_link l t out).2 (Or.inr ⟨c, hc, hl⟩)
      simp only
      split_ifs with hupd
      · obtain ⟨b1, b2⟩ := hloop (some (.link t out)) (as.get_num_atoms_of_type (.link t))
          (qo.update q (.link t))
        generalize find_rarest_loop as qo out (some (Atom.link t out))
          (as.get_num_atoms_of_type (.link t)) (qo.update q (.link t)) = r at b1 b2
        refine ⟨by omega, Or.inr ⟨by omega, ?_⟩⟩
        rcases b2 with e | ⟨_, c, hc2, l, h1, h2, h3⟩
        · rw [e]
          exact ⟨.link t out, rfl, rfl, self_mem_subterms _⟩
        · exact ⟨l, h1, h2, hin c hc2 l h3⟩
      · obtain ⟨b1, b2⟩ := hloop rarest count (qo.update q (.link t))
        generalize find_rarest_loop as qo out rarest count (qo.update q (.link t)) = r
          at b1 b2
        refine ⟨b1, ?_⟩
        rcases b2 with e | ⟨hlt, c, hc2, l, h1, h2, h3⟩
        · exact Or.inl e
        · exact Or.inr ⟨hlt, l, h1, h2, hin c hc2 l h3⟩

theorem link_type_loop_owner {Q : Type} (as : AtomSpace) (qo : QuotationOps Q)
    (holders : List Atom) :
    ∀ (clauses : List Atom) (root starter : Handle) (count : Nat),
      (link_type_loop as qo holders clauses root starter count).2.2 ≤ count ∧
      (link_type_loop as qo holders clauses root starter count = (root, starter, count) ∨
        ∃ cl ∈ clauses, cl ∉ holders ∧
          (link_type_loop as qo holders clauses root starter count).1 = some cl ∧
          ∃ l, (link_type_loop as qo holders clauses root starter count).2.1 = some l ∧
            l.isLink = true ∧ l ∈ cl.subterms) := by
  intro clauses
  induction clauses with
  | nil =>
    intro root starter count
    rw [link_type_loop]
    exact ⟨Nat.le_refl _, Or.inl rfl⟩
  | cons cl rest ih =>
    intro root starter count
    have lift : ∀ r : Handle × Handle × Nat,
        (∃ c ∈ rest, c ∉ holders ∧ r.1 = some c ∧
          ∃ l, r.2.1 = some l ∧ l.isLink = true ∧ l ∈ c.subterms) →
        ∃ c ∈ cl :: rest, c ∉ holders ∧ r.1 = some c ∧
          ∃ l, r.2.1 = some l ∧ l.isLink = true ∧ l ∈ c.subterms := by
      rintro r ⟨c, hc, h⟩
      exact ⟨c, List.mem_cons_of_mem _ hc, h⟩
    by_cases hev : cl ∈ holders
    · have hu : link_type_loop as qo holders (cl :: rest) root starter count =
          link_type_loop as qo holders rest root starter count := by
        rw [link_type_loop]
        exact if_pos hev
      rw [hu]
      obtain ⟨r1, r2⟩ := ih root starter count
      exact ⟨r1, r2.imp id (lift _)⟩
    · obtain ⟨a1, a2⟩ := find_rarest_owner as qo cl starter count qo.init
      by_cases hlt : (find_rarest as qo cl starter count qo.init).2 < count
      · have hu : link_type_loop as qo holders (cl :: rest) root starter count =
            link_type_loop as qo holders rest (some cl)
              (find_rarest as qo cl starter count qo.init).1
              (find_rarest as qo cl starter count qo.init).2 := by
          rw [link_type_loop, if_neg hev]
          exact if_pos hlt
        rw [hu]
        obtain ⟨r1, r2⟩ := ih (some cl) (find_rarest as qo cl starter count qo.init).1
          (find_rarest as qo cl starter count qo.init).2
        refine ⟨by omega, Or.inr ?_⟩
        rcases r2 with e | h
        · rcases a2 with e1 | ⟨_, l, h1, h2, h3⟩
          · rw [e1] at hlt
            simp at hlt
          · refine ⟨cl, List.mem_cons_self _ _, hev, by rw [e], l, ?_, h2, h3⟩
            rw [e]
            exact h1
        · exact lift _ h
      · have heq : find_rarest as qo cl starter count qo.init = (starter, count) := by
          rcases a2 with e | ⟨h, _⟩
          · exact e
          · exact absurd h hlt
        have hu : link_type_loop as qo holders (cl :: rest) root starter count =
            link_type_loop as qo holders rest root starter count := by
          rw [link_type_loop, if_neg hev]
          simp only [heq, lt_self_iff_false, if_false]
        rw [hu]
        obtain ⟨r1, r2⟩ := ih root starter count
        exact ⟨r1, r2.imp id (lift _)⟩

/-- C22: `setup_link_type_search` always returns, and whenever it succeeds
the clause recorded as root is a mandatory clause that is not an evaluatable
holder, and the start term is a link that occurs inside that root clause
(possibly the root clause itself). -/
theorem setup_link_type_search_root_owns_start {Q : Type} (as : AtomSpace)
    (qo : QuotationOps Q) (cb : InitiateSearchCB) :
    (∃ b cb1, setup_link_type_search as qo cb = .ok (b, cb1)) ∧
    ∀ cb1, setup_link_type_search as qo cb = .ok (true, cb1) →
      ∃ cl l, cb1._root = some cl ∧ cl ∈ cb._pattern.mandatory ∧
        cl ∉ cb._pattern.evaluatable_holders ∧
        cb1._starter_term = some l ∧ l.isLink = true ∧ l ∈ cl.subterms := by
  obtain ⟨_, r2⟩ := link_type_loop_owner as qo cb._pattern.evaluatable_holders
    cb._pattern.mandatory none none SIZE_MAX
  rcases r2 with e | ⟨cl, hc, hce, h1, l, h2, h3, h4⟩
  · have hres : setup_link_type_search as qo cb =
        .ok (false, { cb with _root := none, _starter_term := none }) := by
      unfold setup_link_type_search
      simp only [e]
    refine ⟨⟨_, _, hres⟩, ?_⟩
    intro cb1 hs
    rw [hres] at hs
    injection hs with hs
    injection hs with hb _
    cases hb
  · have hres : setup_link_type_search as qo cb =
        .ok (true, { cb with
          _root := some cl, _starter_term := some l,
          _search_set := cb._search_set ++ as.get_handles_by_type l.get_type }) := by
      unfold setup_link_type_search
      simp only [h1, h2]
    refine ⟨⟨_, _, hres⟩, ?_⟩
    intro cb1 hs
    rw [hres] at hs
    injection hs with hs
    injection hs with _ hcb
    subst hcb
    exact ⟨cl, l, rfl, hc, hce, rfl, h3, h4⟩

/-- Witness for C22: `(Similarity $x $y)`, which is root and start term. -/
theorem setup_link_type_search_root_owns_start_witness :
    ∃ cl l, (some linkXY : Handle) = some cl ∧ cl ∈ plannerLink._pattern.mandatory ∧
      cl ∉ plannerLink._pattern.evaluatable_holders ∧
      (some linkXY : Handle) = some l ∧ l.isLink = true ∧ l ∈ cl.subterms :=
  (setup_link_type_search_root_owns_start spaceLinks quotationLevel plannerLink).2
    { plannerLink with
      _root := some linkXY, _starter_term := some linkXY,
      _search_set := [linkAB, linkBA] } (by decide)

/-! ## Which errors each step can raise -/

theorem find_starter_loop_error (as : AtomSpace) (dyn : List Atom) (curr : Handle)
    (h : Atom) (t : LinkType) (depth : Nat) :
    ∀ rest : List Atom,
    (∀ hunt ∈ rest, ∀ g, hunt_target hunt = some g →
      ∀ d st w ch e, find_starter_recursive as dyn curr g d st w ch = .error e →
        e = .invalid_outgoing_index) →
    ∀ deepest hdeepest thinnest startrm choices e,
      find_starter_loop as dyn curr h t depth rest deepest hdeepest thinnest startrm
        choices = .error e → e = .invalid_outgoing_index := by
  intro rest
  induction rest with
  | nil =>
    intro _ deepest hdeepest thinnest startrm choices e he
    rw [find_starter_loop] at he
    cases he
  | cons hunt rest ihr =>
    intro ih deepest hdeepest thinnest startrm choices e he
    have ih2 := fun x hx => ih x (List.mem_cons_of_mem _ hx)
    rw [find_starter_loop_cons] at he
    split at he
    · injection he with he
      exact he.symm
    · rename_i g hg
      split at he
      · rename_i e2 hbr
        injection he with he
        subst he
        exact ih hunt (List.mem_cons_self _ _) g hg _ _ _ _ _ hbr
      · split at he
        · exact ihr ih2 _ _ _ _ _ _ he
        · split_ifs at he <;> exact ihr ih2 _ _ _ _ _ _ he

theorem find_starter_recursive_error (as : AtomSpace) (dyn : List Atom) (curr : Handle) :
    ∀ (h : Atom) (d : Nat) (st : Handle) (w : Nat) (ch : List Choice) (e : Err),
      find_starter_recursive as dyn curr h d st w ch = .error e →
      e = .invalid_outgoing_index := by
  intro h
  induction h using target_induct_atom with
  | hn t n =>
    intro d st w ch e he
    rw [find_starter_recursive] at he
    split_ifs at he
  | hl t out ih =>
    intro d st w ch e he
    rw [find_starter_recursive] at he
    split_ifs at he
    exact find_starter_loop_error as dyn curr _ t d out ih _ _ _ _ _ _ he

theorem find_starter_error (as : AtomSpace) (dyn : List Atom) (curr : Handle)
    (h : Atom) (d : Nat) (st : Handle) (w : Nat) (ch : List Choice) (e : Err)
    (he : find_starter as dyn curr h d st w ch = .error e) : e = .invalid_outgoing_index := by
  cases h with
  | node t n =>
    rw [find_starter_node] at he
    split_ifs at he
  | link t out => exact find_starter_recursive_error as dyn curr _ d st w ch e he

theorem find_thinnest_loop_error (as : AtomSpace) (dyn evl : List Atom) :
    ∀ (clauses : List Atom) (thinnest deepest : Nat)
      (bestclause best_start starter_term curr : Handle) (choices : List Choice) (e : Err),
      find_thinnest_loop as dyn evl clauses thinnest deepest bestclause best_start
        starter_term curr choices = .error e → e = .invalid_outgoing_index := by
  intro clauses
  induction clauses with
  | nil =>
    intro thinnest deepest bestclause best_start starter_term curr choices e he
    rw [find_thinnest_loop] at he
    cases he
  | cons h rest ih =>
    intro thinnest deepest bestclause best_start starter_term curr choices e he
    rw [find_thinnest_loop] at he
    split_ifs at he with hev
    · exact ih _ _ _ _ _ _ _ _ he
    · split at he
      · rename_i e2 hf
        injection he with he
        subst he
        exact find_starter_error as dyn _ _ _ _ _ _ _ hf
      · split_ifs at he <;> exact ih _ _ _ _ _ _ _ _ he

theorem setup_neighbor_search_error (as : AtomSpace) (cb : InitiateSearchCB) (e : Err)
    (he : setup_neighbor_search as cb = .error e) : e = .invalid_outgoing_index := by
  unfold setup_neighbor_search at he
  split_ifs at he
  split at he
  · rename_i e2 hf
    injection he with he
    subst he
    exact find_thinnest_loop_error as _ _ _ _ _ _ _ _ _ _ _ hf
  · split_ifs at he

theorem choice_loop_over_error {σ : Type} (as : AtomSpace) (eng : PatternMatchEngine σ) :
    ∀ (l : List Choice) (cb : InitiateSearchCB) (pmc : σ) (e : Err),
      choice_loop_over as eng l cb pmc = .error e → e = .null_handle := by
  intro l
  induction l with
  | nil =>
    intro cb pmc e he
    rw [choice_loop_over] at he
    cases he
  | cons ch rest ih =>
    intro cb pmc e he
    rw [choice_loop_over] at he
    split at he
    · simp only [] at he
      split at he
      · cases he
      · exact ih _ _ _ he
    · injection he with he
      exact he.symm

theorem jit_loop_error (lib : Library) :
    ∀ (fuel : Nat) (cb : InitiateSearchCB) (e : Err),
      jit_loop lib fuel cb = .error e → e = .out_of_fuel := by
  intro fuel
  induction fuel with
  | zero =>
    intro cb e he
    rw [jit_loop] at he
    split_ifs at he
    injection he with he
    exact he.symm
  | succ n ih =>
    intro cb e he
    rw [jit_loop] at he
    split_ifs at he
    exact ih _ _ he

theorem jit_analyze_error (lib : Library) (fuel : Nat) (cb : InitiateSearchCB) (e : Err)
    (he : jit_analyze lib fuel cb = .error e) : e = .out_of_fuel := by
  unfold jit_analyze at he
  split_ifs at he
  split at he
  · rename_i e2 hj
    injection he with he
    subst he
    exact jit_loop_error lib fuel cb _ hj
  · cases he

theorem setup_link_type_search_cases {Q : Type} (as : AtomSpace) (qo : QuotationOps Q)
    (cb : InitiateSearchCB) :
    setup_link_type_search as qo cb =
        .ok (false, { cb with _root := none, _starter_term := none }) ∨
    ∃ cl l, setup_link_type_search as qo cb =
      .ok (true, { cb with
        _root := some cl, _starter_term := some l,
        _search_set := cb._search_set ++ as.get_handles_by_type l.get_type }) := by
  obtain ⟨_, r2⟩ := link_type_loop_owner as qo cb._pattern.evaluatable_holders
    cb._pattern.mandatory none none SIZE_MAX
  rcases r2 with e | ⟨cl, _, _, h1, l, h2, _, _⟩
  · left
    unfold setup_link_type_search
    simp only [e]
  · right
    refine ⟨cl, l, ?_⟩
    unfold setup_link_type_search
    simp only [h1, h2]

theorem setup_variable_search_no_variables (as : AtomSpace) (lib : Library)
    (cb : InitiateSearchCB) (he : setup_variable_search as lib cb = .error .no_variables) :
    cb._variables.varset = [] := by
  unfold setup_variable_search at he
  simp only [] at he
  split at he
  · cases he
  · split at he
    · rename_i e hg
      injection he with he
      subst he
      split_ifs at hg
      cases hg
    · rename_i cb2 hg
      have hv : cb2._variables = cb._variables := by
        split_ifs at hg <;>
        · injection hg with hg
          subst hg
          rfl
      split_ifs at he
      split at he
      · cases he
      · split at he
        · rename_i hh
          rw [hv] at hh
          cases hvs : cb._variables.varset with
          | nil => rfl
          | cons a l =>
            rw [hvs] at hh
            cases hh
        · cases he

theorem setup_no_search_false (cb : InitiateSearchCB) (h : setup_no_search cb = false) :
    cb._variables.varset ≠ [] := by
  unfold setup_no_search at h
  intro e
  rw [e] at h
  simp at h

/-- C27: `initiate_search` never raises the fatal "There were no variables!"
error of `setup_variable_search`.  Whenever it gets as far as the variable-type
strategy, the variable set is not empty; and a pattern without variables (after
`jit_analyze`) is resolved by the neighbourhood strategy or by the no-search
strategy: the outcome of `initiate_search` is then the error of the
neighbourhood setup, the outcome of `choice_loop`, or the constant evaluation
of the mandatory clauses. -/
theorem initiate_search_never_no_variables {σ Q : Type} (as : AtomSpace) (lib : Library)
    (qo : QuotationOps Q) (eng : PatternMatchEngine σ) (fuel : Nat) (cb : InitiateSearchCB)
    (pmc : σ) :
    initiate_search as lib qo eng fuel cb pmc ≠ .error .no_variables ∧
    (∀ cb0 cb1 cb2, jit_analyze lib fuel cb = .ok cb0 →
      setup_neighbor_search as cb0 = .ok (false, cb1) → setup_no_search cb1 = false →
      setup_link_type_search as qo cb1 = .ok (false, cb2) →
      cb2._variables.varset ≠ [] ∧ setup_variable_search as lib cb2 ≠ .error .no_variables) ∧
    (∀ cb0, jit_analyze lib fuel cb = .ok cb0 → cb0._variables.varset = [] →
      (∃ e, setup_neighbor_search as cb0 = .error e ∧
        initiate_search as lib qo eng fuel cb pmc = .error e) ∨
      (∃ cb1, setup_neighbor_search as cb0 = .ok (true, cb1) ∧
        initiate_search as lib qo eng fuel cb pmc = choice_loop as eng cb1 pmc) ∨
      (∃ cb1, setup_neighbor_search as cb0 = .ok (false, cb1) ∧
        initiate_search as lib qo eng fuel cb pmc =
          .ok ((eng.explore_constant_evaluatables cb1._variables cb1._pattern
                cb1._pattern.mandatory pmc).1, cb1,
              (eng.explore_constant_evaluatables cb1._variables cb1._pattern
                cb1._pattern.mandatory pmc).2))) := by
  have h2 : ∀ cb0 cb1 cb2, jit_analyze lib fuel cb = .ok cb0 →
      setup_neighbor_search as cb0 = .ok (false, cb1) → setup_no_search cb1 = false →
      setup_link_type_search as qo cb1 = .ok (false, cb2) →
      cb2._variables.varset ≠ [] ∧
        setup_variable_search as lib cb2 ≠ .error .no_variables := by
    intro cb0 cb1 cb2 _ _ hno hl
    have hv : cb2._variables = cb1._variables := by
      rcases setup_link_type_search_cases as qo cb1 with e | ⟨cl, l, e⟩
      · rw [e] at hl
        injection hl with hl
        injection hl with _ hcb
        rw [← hcb]
      · rw [e] at hl
        injection hl with hl
        injection hl with hb _
        cases hb
    have hne : cb2._variables.varset ≠ [] := by
      rw [hv]
      exact setup_no_search_false cb1 hno
    exact ⟨hne, fun he => hne (setup_variable_search_no_variables as lib cb2 he)⟩
  refine ⟨?_, h2, ?_⟩
  · intro he
    unfold initiate_search at he
    cases hj : jit_analyze lib fuel cb with
    | error e =>
      rw [hj] at he
      injection he with he
      subst he
      cases jit_analyze_error lib fuel cb _ hj
    | ok cb0 =>
      rw [hj] at he
      simp only [] at he
      cases hn : setup_neighbor_search as cb0 with
      | error e =>
        rw [hn] at he
        simp only [] at he
        injection he with he
        subst he
        cases setup_neighbor_search_error as cb0 _ hn
      | ok r =>
        obtain ⟨b, cb1⟩ := r
        rw [hn] at he
        cases b with
        | true =>
          simp only [] at he
          cases choice_loop_over_error as eng _ _ _ _ he
        | false =>
          simp only [] at he
          cases hno : setup_no_search cb1 with
          | true =>
            rw [hno] at he
            simp at he
          | false =>
            rw [hno] at he
            simp only [Bool.false_eq_true, if_false] at he
            rcases setup_link_type_search_cases as qo cb1 with e | ⟨cl, l, e⟩
            · have h3 := (h2 cb0 cb1 _ hj hn hno e).2
              rw [e] at he
              simp only [] at he
              split at he
              · rename_i e2 hv
                injection he with he
                subst he
                exact h3 hv
              · cases he
              · cases he
            · rw [e] at he
              simp at he
  · intro cb0 hj hvs
    unfold initiate_search
    rw [hj]
    simp only []
    cases hn : setup_neighbor_search as cb0 with
    | error e => exact Or.inl ⟨e, rfl, rfl⟩
    | ok r =>
      obtain ⟨b, cb1⟩ := r
      cases b with
      | true => exact Or.inr (Or.inl ⟨cb1, rfl, rfl⟩)
      | false =>
        right
        right
        refine ⟨cb1, rfl, ?_⟩
        have hv := (setup_neighbor_search_preserves as cb0 false cb1 hn).1
        have hno : setup_no_search cb1 = true := by
          unfold setup_no_search
          rw [hv, hvs]
          rfl
        simp only [hno, if_true]

/-- Witness for C27: the pattern whose only clause is the typed variable `$x`
reaches the variable-type strategy, with one variable. -/
theorem initiate_search_never_no_variables_witness :
    ({ plannerTyped with _curr_clause := some varX } : InitiateSearchCB)._variables.varset ≠ [] ∧
      setup_variable_search spaceFive libEmpty { plannerTyped with _curr_clause := some varX } ≠
        .error .no_variables :=
  (initiate_search_never_no_variables spaceFive libEmpty quotationLevel (engineAccepting [])
    0 plannerTyped []).2.1 plannerTyped { plannerTyped with _curr_clause := some varX }
    { plannerTyped with _curr_clause := some varX } (by decide) (by decide)
    (by decide) (by decide)

/-! ## Self-referential definitions -/

theorem jit_loop_succ (lib : Library) (fuel : Nat) (cb : InitiateSearchCB) :
    jit_loop lib (fuel + 1) cb =
      if 0 < cb._pattern.defined_terms.length then jit_loop lib fuel (jit_round lib cb)
      else .ok cb := by
  rw [jit_loop]
  rfl

theorem jit_loop_diverges (lib : Library) (P : InitiateSearchCB → Prop)
    (hP : ∀ cb, P cb → 0 < cb._pattern.defined_terms.length ∧ P (jit_round lib cb)) :
    ∀ (fuel : Nat) (cb : InitiateSearchCB), P cb → jit_loop lib fuel cb = .error .out_of_fuel := by
  intro fuel
  induction fuel with
  | zero =>
    intro cb h
    rw [jit_loop, if_pos (hP cb h).1]
  | succ n ih =>
    intro cb h
    rw [jit_loop_succ, if_pos (hP cb h).1]
    exact ih _ (hP cb h).2

theorem mem_substitute_out (map : List (Atom × Handle)) (c : Atom) :
    ∀ out : List Atom, c ∈ out → substitute_atom map c ∈ substitute_out map out := by
  intro out
  induction out with
  | nil => intro h; cases h
  | cons x rest ih =>
    intro h
    rw [substitute_out]
    rcases List.mem_cons.1 h with e | h2
    · subst e
      exact List.mem_cons_self _ _
    · exact List.mem_cons_of_mem _ (ih h2)

theorem substitute_keeps_self :
    ∀ b : Atom, definedDN ∈ b.subterms →
      definedDN ∈ (substitute_atom [(definedDN, some andSelf)] b).subterms := by
  intro b
  induction b using atom_induct with
  | hn t n =>
    intro h
    simp only [Atom.subterms, List.mem_singleton] at h
    rw [← h]
    decide
  | hl t out ih =>
    intro h
    rcases (mem_subterms_link _ t out).1 h with e | ⟨c, hc, hcs⟩
    · cases e
    · rw [substitute_atom]
      exact (mem_subterms_link _ t _).2
        (Or.inr ⟨_, mem_substitute_out _ c out hc, ih c hc hcs⟩)

theorem jit_round_self (cb : InitiateSearchCB)
    (h : cb._pattern.defined_terms = [definedDN] ∧
      ∃ b, cb._pattern.body = some b ∧ definedDN ∈ b.subterms) :
    0 < cb._pattern.defined_terms.length ∧
    ((jit_round libSelf cb)._pattern.defined_terms = [definedDN] ∧
      ∃ b, (jit_round libSelf cb)._pattern.body = some b ∧ definedDN ∈ b.subterms) := by
  obtain ⟨hd, b, hb, hm⟩ := h
  have hmap : (jit_definitions libSelf [definedDN] ⟨[], [], []⟩ []).2 =
      [(definedDN, some andSelf)] := by decide
  have hk := substitute_keeps_self b hm
  refine ⟨by rw [hd]; decide, ?_, ?_⟩
  · show (match (cb._pattern.body.map (substitute_atom
        (jit_definitions libSelf cb._pattern.defined_terms ⟨[], [], []⟩ []).2)) with
      | some b => if definedDN ∈ b.subterms then [definedDN] else []
      | none => []) = [definedDN]
    rw [hd, hb, hmap]
    simp only [Option.map_some']
    rw [if_pos hk]
  · refine ⟨substitute_atom [(definedDN, some andSelf)] b, ?_, hk⟩
    show cb._pattern.body.map (substitute_atom
        (jit_definitions libSelf cb._pattern.defined_terms ⟨[], [], []⟩ []).2) = _
    rw [hd, hb, hmap]
    rfl

/-- C21 (failing input): with `DN` defined as `(And DN (Concept "C"))`, a
directly self-referential definition, `jit_analyze` on the pattern whose body
is `DN` reports no error and never finishes: whatever the number of rounds
allowed, the loop is still running when they are used up, each round leaving a
body that holds `DN` again. -/
theorem jit_analyze_self_reference_loops :
    (jit_round libSelf plannerDefined)._pattern.body = some andSelf ∧
    (jit_round libSelf (jit_round libSelf plannerDefined))._pattern.body =
      some (.link (.other 2) [andSelf, conceptC]) ∧
    ∀ fuel, jit_analyze libSelf fuel plannerDefined = .error .out_of_fuel := by
  refine ⟨by decide, by decide, ?_⟩
  intro fuel
  have hl := jit_loop_diverges libSelf
    (fun cb => cb._pattern.defined_terms = [definedDN] ∧
      ∃ b, cb._pattern.body = some b ∧ definedDN ∈ b.subterms)
    jit_round_self fuel plannerDefined ⟨rfl, definedDN, rfl, by decide⟩
  unfold jit_analyze
  rw [if_neg (by decide), hl]

/-! ## Choice records without a start term -/

/-- C26 (failing input): for the pattern whose mandatory clause is
`(Choice (Concept "A") (Concept "B"))`, a choice link at the clause root with
constant-node branches, `setup_neighbor_search` succeeds with two choice
records whose start term is undefined, and `choice_loop` then asks an
undefined handle for its type. -/
theorem setup_neighbor_search_undefined_start_term :
    setup_neighbor_search spaceAB plannerChoiceRoot =
      .ok (true, { plannerChoiceRoot with
        _curr_clause := some choiceAB,
        _choices := [⟨some choiceAB, some conceptA, none⟩,
                     ⟨some choiceAB, some conceptB, none⟩] }) ∧
    choice_loop spaceAB (engineAccepting [])
        { plannerChoiceRoot with
          _curr_clause := some choiceAB,
          _choices := [⟨some choiceAB, some conceptA, none⟩,
                       ⟨some choiceAB, some conceptB, none⟩] } [] = .error .null_handle ∧
    initiate_search spaceAB libEmpty quotationLevel (engineAccepting []) 0
        plannerChoiceRoot [] = .error .null_handle := by
  decide

/-! ## Deep types -/

theorem variable_loop_simple_types (as : AtomSpace) (lib : Library) (ae : Bool)
    (vars vars2 : Variables) (pat : Pattern)
    (h : vars2._simple_typemap = vars._simple_typemap) :
    ∀ (vs : List Atom) (st : VarPick),
      variable_loop as lib ae vars2 pat vs st = variable_loop as lib ae vars pat vs st := by
  intro vs
  induction vs with
  | nil =>
    intro st
    rw [variable_loop, variable_loop]
  | cons v rest ih =>
    intro st
    rw [variable_loop, variable_loop, h]
    split
    · exact ih _
    · simp only []
      split_ifs
      · split
        · exact ih _
        · exact ih _
      · exact ih _

theorem variable_pick_with_deep_types (as : AtomSpace) (lib : Library)
    (cb : InitiateSearchCB) (dm : List (Atom × List Atom)) :
    variable_pick as lib (with_deep_types cb dm) = variable_pick as lib cb := by
  exact variable_loop_simple_types as lib
    (all_clauses_are_evaluatable cb._pattern.evaluatable_holders cb._pattern.mandatory)
    cb._variables { cb._variables with _deep_typemap := dm } cb._pattern rfl
    cb._variables.varset ⟨SIZE_MAX, [], none, none⟩

theorem setup_variable_search_selected (as : AtomSpace) (lib : Library)
    (cb : InitiateSearchCB) (h : (variable_pick as lib cb).root ≠ none) :
    setup_variable_search as lib cb =
      .ok (true, { cb with
        _root := (variable_pick as lib cb).root,
        _starter_term := (variable_pick as lib cb).starter_term,
        _search_set := cb._search_set ++
          variable_search_set as (variable_pick as lib cb).ptypes }) := by
  obtain ⟨x, hx⟩ := Option.ne_none_iff_exists'.1 h
  unfold setup_variable_search
  simp only []
  change (match (variable_pick as lib cb).root with
    | some _ => _
    | none => _) = _
  rw [hx]
  simp only []
  rw [← hx]
  rfl

/-- C24 (as stated) fails: `$x` carries the deep type `(List $x (Concept "A"))`
and the simple type restriction ConceptNode (5 atoms); `setup_variable_search`
selects `$x` all the same, with the five ConceptNodes as search set. -/
theorem setup_variable_search_deep_type_counterexample :
    plannerDeep._variables._deep_typemap.lookup varX = some [listXA] ∧
    variable_pick spaceFive libEmpty plannerDeep = ⟨5, [conceptType], some varX, some varX⟩ ∧
    setup_variable_search spaceFive libEmpty plannerDeep =
      .ok (true, { plannerDeep with
        _root := some varX, _starter_term := some varX,
        _search_set := [.node (.other 0) "c1", .node (.other 0) "c2", .node (.other 0) "c3",
          .node (.other 0) "c4", .node (.other 0) "c5"] }) := by
  decide

/-- C24 (amended): in `setup_variable_search` the deep structural type
constraints play no part in choosing the rarest variable: the variable selected
is the same whatever deep constraints the variables carry, and when one is
selected the method returns true with the same root, start term and search
set; so a variable that carries a deep constraint is selected like any other
when its simple type restriction makes it the rarest. -/
theorem variable_pick_ignores_deep_types (as : AtomSpace) (lib : Library)
    (cb : InitiateSearchCB) (dm : List (Atom × List Atom)) :
    variable_pick as lib (with_deep_types cb dm) = variable_pick as lib cb ∧
    ((variable_pick as lib cb).root ≠ none →
      setup_variable_search as lib (with_deep_types cb dm) =
        .ok (true, { with_deep_types cb dm with
          _root := (variable_pick as lib cb).root,
          _starter_term := (variable_pick as lib cb).starter_term,
          _search_set := cb._search_set ++
            variable_search_set as (variable_pick as lib cb).ptypes })) := by
  have hp := variable_pick_with_deep_types as lib cb dm
  refine ⟨hp, fun h => ?_⟩
  have hs := setup_variable_search_selected as lib (with_deep_types cb dm) (by rw [hp]; exact h)
  rw [hp] at hs
  exact hs

/-- Witness for C24 (amended): `$x : {ConceptNode}` given the deep type
`(List $x (Concept "A"))`. -/
theorem variable_pick_ignores_deep_types_witness :
    setup_variable_search spaceFive libEmpty (with_deep_types plannerTyped [(varX, [listXA])]) =
      .ok (true, { with_deep_types plannerTyped [(varX, [listXA])] with
        _root := (variable_pick spaceFive libEmpty plannerTyped).root,
        _starter_term := (variable_pick spaceFive libEmpty plannerTyped).starter_term,
        _search_set := plannerTyped._search_set ++
          variable_search_set spaceFive (variable_pick spaceFive libEmpty plannerTyped).ptypes }) :=
  (variable_pick_ignores_deep_types spaceFive libEmpty plannerTyped [(varX, [listXA])]).2
    (by decide)

/-! ## The clause chosen for the selected variable -/

theorem variable_clause_loop_first (lib : Library) (ae : Bool) (holders : List Atom)
    (var : Atom) :
    ∀ (l : List Atom) (r : Handle × Handle),
      variable_clause_loop lib ae holders var l = some r →
      ∃ pre cl post, l = pre ++ cl :: post ∧ r.1 = some cl ∧
        (ae = true ∨ cl ∉ holders) ∧
        (cl = var ∨ lib.least_holders var cl ≠ []) ∧
        (∀ c ∈ pre, (ae = true ∨ c ∉ holders) → c ≠ var ∧ lib.least_holders var c = []) ∧
        (cl = var → r.2 = some var) ∧
        (cl ≠ var →
          r.2 = if ae = true then some var else (lib.least_holders var cl).head?) := by
  intro l
  induction l with
  | nil =>
    intro r h
    rw [variable_clause_loop] at h
    cases h
  | cons c rest ih =>
    intro r h
    rw [variable_clause_loop] at h
    have helig : ∀ x : Atom, (ae = true ∨ x ∉ holders) ↔ ¬ (¬ ae = true ∧ x ∈ holders) := by
      intro x
      by_cases h1 : ae = true <;> by_cases h2 : x ∈ holders <;> simp [h1, h2]
    by_cases h1 : ¬ ae = true ∧ c ∈ holders
    · rw [if_pos h1] at h
      obtain ⟨pre, cl, post, e, q1, q2, q3, q4, q5⟩ := ih r h
      refine ⟨c :: pre, cl, post, by rw [e]; rfl, q1, q2, q3, ?_, q5⟩
      intro x hx hel
      rcases List.mem_cons.1 hx with e2 | hx2
      · subst e2
        exact absurd h1 ((helig x).1 hel)
      · exact q4 x hx2 hel
    · rw [if_neg h1] at h
      by_cases h2 : c = var
      · rw [if_pos h2] at h
        injection h with h
        subst h
        exact ⟨[], c, rest, rfl, rfl, (helig c).2 h1, Or.inl h2,
          fun x hx => absurd hx (List.not_mem_nil _), fun _ => by rw [h2],
          fun hne => absurd h2 hne⟩
      · rw [if_neg h2] at h
        by_cases h3 : 0 < (lib.least_holders var c).length
        · rw [if_pos h3] at h
          injection h with h
          subst h
          refine ⟨[], c, rest, rfl, rfl, (helig c).2 h1, Or.inr ?_,
            fun x hx => absurd hx (List.not_mem_nil _), fun e => absurd e h2, fun _ => rfl⟩
          intro e
          rw [e] at h3
          simp at h3
        · rw [if_neg h3] at h
          obtain ⟨pre, cl, post, e, q1, q2, q3, q4, q5⟩ := ih r h
          refine ⟨c :: pre, cl, post, by rw [e]; rfl, q1, q2, q3, ?_, q5⟩
          intro x hx hel
          rcases List.mem_cons.1 hx with e2 | hx2
          · subst e2
            refine ⟨h2, ?_⟩
            cases hl : lib.least_holders var x with
            | nil => rfl
            | cons a b =>
              rw [hl] at h3
              simp at h3
          · exact q4 x hx2 hel

theorem variable_clause_loop_self (lib : Library) (ae : Bool) (holders : List Atom)
    (var : Atom) (post : List Atom) (hel : ae = true ∨ var ∉ holders) :
    ∀ pre : List Atom,
      (∀ c ∈ pre, (ae = true ∨ c ∉ holders) → c ≠ var → lib.least_holders var c = []) →
      variable_clause_loop lib ae holders var (pre ++ var :: post) =
        some (some var, some var) := by
  intro pre
  induction pre with
  | nil =>
    intro _
    rw [List.nil_append, variable_clause_loop]
    have h1 : ¬ (¬ ae = true ∧ var ∈ holders) := by
      rcases hel with h | h
      · simp [h]
      · simp [h]
    rw [if_neg h1, if_pos rfl]
  | cons c rest ih =>
    intro hall
    have hall2 := fun x hx => hall x (List.mem_cons_of_mem _ hx)
    rw [List.cons_append, variable_clause_loop]
    by_cases h1 : ¬ ae = true ∧ c ∈ holders
    · rw [if_pos h1]
      exact ih hall2
    · rw [if_neg h1]
      by_cases h2 : c = var
      · rw [if_pos h2, h2]
      · rw [if_neg h2]
        have hc : ae = true ∨ c ∉ holders := by
          by_cases ha : ae = true
          · exact Or.inl ha
          · right
            intro hm
            exact h1 ⟨ha, hm⟩
        rw [hall c (List.mem_cons_self _ _) hc h2]
        simp only [List.length_nil, lt_self_iff_false, if_false]
        exact ih hall2

theorem variable_pick_selected (as : AtomSpace) (lib : Library) (cb : InitiateSearchCB)
    (h : (variable_pick as lib cb).root ≠ none) :
    ∃ v ∈ cb._variables.varset, ∃ ts r,
      cb._variables._simple_typemap.lookup v = some ts ∧
      0 < typeset_population as ts ∧
      variable_clause_loop lib
        (all_clauses_are_evaluatable cb._pattern.evaluatable_holders cb._pattern.mandatory)
        cb._pattern.evaluatable_holders v cb._pattern.mandatory = some r ∧
      variable_pick as lib cb = ⟨typeset_population as ts, ts, r.1, r.2⟩ := by
  rcases (variable_loop_spec as lib
    (all_clauses_are_evaluatable cb._pattern.evaluatable_holders cb._pattern.mandatory)
    cb._variables cb._pattern cb._variables.varset ⟨SIZE_MAX, [], none, none⟩).1
    with e | ⟨v, hv, ts, r, h1, h2, h3, h4⟩
  · unfold variable_pick at h
    rw [e] at h
    exact absurd rfl h
  · exact ⟨v, hv, ts, r, h1, h2, h3, h4⟩

/-- C23 (as stated) fails: with the mandatory clauses `(Choice $x $y)` and
`$x`, in this order, the selected variable `$x` is itself an eligible mandatory
clause, yet root and start term are the clause `(Choice $x $y)` that merely
contains it; with the two clauses in the other order they are `$x`. -/
theorem setup_variable_search_clause_order_counterexample :
    varX ∈ plannerChoiceVar._pattern.mandatory ∧ eligible_clause plannerChoiceVar varX ∧
    variable_pick spaceFive libHolders plannerChoiceVar =
      ⟨5, [conceptType], some choiceXY, some choiceXY⟩ ∧
    setup_variable_search spaceFive libHolders plannerChoiceVar =
      .ok (true, { plannerChoiceVar with
        _root := some choiceXY, _starter_term := some choiceXY,
        _search_set := [.node (.other 0) "c1", .node (.other 0) "c2", .node (.other 0) "c3",
          .node (.other 0) "c4", .node (.other 0) "c5"] }) ∧
    variable_pick spaceFive libHolders plannerVarChoice =
      ⟨5, [conceptType], some varX, some varX⟩ := by
  decide

/-- C23 (amended): when `setup_variable_search` selects a variable, root is
the first eligible mandatory clause, in the order of the clauses, that is the
variable or contains it (has a least holder of it); when that clause is the
variable itself, root = start term = that clause, otherwise the start term is
the first least holder (the variable, when all clauses are evaluatable).  So if
the selected variable is itself an eligible mandatory clause and no eligible
clause before it contains the variable, then root = start term = that
clause. -/
theorem setup_variable_search_first_clause (as : AtomSpace) (lib : Library)
    (cb cb1 : InitiateSearchCB) (hs : setup_variable_search as lib cb = .ok (true, cb1))
    (hsel : (variable_pick as lib cb).root ≠ none) :
    ∃ v ∈ cb._variables.varset, ∃ ts,
      cb._variables._simple_typemap.lookup v = some ts ∧
      (variable_pick as lib cb).ptypes = ts ∧
      (∃ pre cl post, cb._pattern.mandatory = pre ++ cl :: post ∧ cb1._root = some cl ∧
        eligible_clause cb cl ∧ (cl = v ∨ lib.least_holders v cl ≠ []) ∧
        (∀ c ∈ pre, eligible_clause cb c → c ≠ v ∧ lib.least_holders v c = []) ∧
        (cl = v → cb1._starter_term = some v) ∧
        (cl ≠ v → cb1._starter_term =
          if all_clauses_are_evaluatable cb._pattern.evaluatable_holders
              cb._pattern.mandatory = true
          then some v else (lib.least_holders v cl).head?)) ∧
      (∀ pre post, cb._pattern.mandatory = pre ++ v :: post → eligible_clause cb v →
        (∀ c ∈ pre, eligible_clause cb c → c ≠ v → lib.least_holders v c = []) →
        cb1._root = some v ∧ cb1._starter_term = some v) := by
  obtain ⟨v, hv, ts, r, h1, _, h3, h4⟩ := variable_pick_selected as lib cb hsel
  obtain ⟨hroot, hst⟩ := (setup_variable_search_set as lib cb cb1 hs).2 hsel
  rw [h4] at hroot hst
  simp only at hroot hst
  refine ⟨v, hv, ts, h1, by rw [h4], ?_, ?_⟩
  · obtain ⟨pre, cl, post, e, q1, q2, q3, q4, q5, q6⟩ :=
      variable_clause_loop_first lib _ _ v _ r h3
    exact ⟨pre, cl, post, e, by rw [hroot, q1], q2, q3, q4,
      fun hc => by rw [hst, q5 hc], fun hc => by rw [hst, q6 hc]⟩
  · intro pre post e hel hall
    have h5 := variable_clause_loop_self lib
      (all_clauses_are_evaluatable cb._pattern.evaluatable_holders cb._pattern.mandatory)
      cb._pattern.evaluatable_holders v post hel pre hall
    rw [← e, h3] at h5
    injection h5 with h5
    rw [hroot, hst, h5]
    exact ⟨rfl, rfl⟩

/-- Witness for C23 (amended): the clauses `$x`, `(Choice $x $y)`, in this
order; root and start term are `$x`. -/
theorem setup_variable_search_first_clause_witness :
    ∃ v ∈ plannerVarChoice._variables.varset, ∃ ts,
      plannerVarChoice._variables._simple_typemap.lookup v = some ts ∧
      (variable_pick spaceFive libHolders plannerVarChoice).ptypes = ts ∧
      (∃ pre cl post, plannerVarChoice._pattern.mandatory = pre ++ cl :: post ∧
        (some varX : Handle) = some cl ∧
        eligible_clause plannerVarChoice cl ∧ (cl = v ∨ libHolders.least_holders v cl ≠ []) ∧
        (∀ c ∈ pre, eligible_clause plannerVarChoice c →
          c ≠ v ∧ libHolders.least_holders v c = []) ∧
        (cl = v → (some varX : Handle) = some v) ∧
        (cl ≠ v → (some varX : Handle) =
          if all_clauses_are_evaluatable plannerVarChoice._pattern.evaluatable_holders
              plannerVarChoice._pattern.mandatory = true
          then some v else (libHolders.least_holders v cl).head?)) ∧
      (∀ pre post, plannerVarChoice._pattern.mandatory = pre ++ v :: post →
        eligible_clause plannerVarChoice v →
        (∀ c ∈ pre, eligible_clause plannerVarChoice c → c ≠ v →
          libHolders.least_holders v c = []) →
        (some varX : Handle) = some v ∧ (some varX : Handle) = some v) :=
  setup_variable_search_first_clause spaceFive libHolders plannerVarChoice
    { plannerVarChoice with
      _root := some varX, _starter_term := some varX,
      _search_set := [.node (.other 0) "c1", .node (.other 0) "c2", .node (.other 0) "c3",
        .node (.other 0) "c4", .node (.other 0) "c5"] } (by decide) (by decide)

/-! ## The infinite-loop guard -/

theorem guard_state_snoc (hist : List Nat) (a : Nat) :
    guard_state (hist ++ [a]) =
      ((infinite_loop_guard (guard_state hist).1 (guard_state hist).2 a).1,
        (infinite_loop_guard (guard_state hist).1 (guard_state hist).2 a).2.1) := by
  unfold guard_state
  rw [List.foldl_append]
  rfl

theorem reentries_nil (a : Nat) : reentries [] a = 0 := rfl

theorem reentries_snoc (hist : List Nat) (b a : Nat) :
    reentries (hist ++ [b]) a = if b = a then reentries hist a + 1 else 0 := by
  unfold reentries
  rw [List.reverse_append, List.reverse_singleton, List.singleton_append, List.takeWhile_cons]
  by_cases h : b = a
  · simp [h]
  · simp [h]

theorem reentries_replicate (n a : Nat) : reentries (List.replicate n a) a = n := by
  unfold reentries
  rw [List.reverse_replicate, List.takeWhile_replicate]
  simp

theorem guard_state_last (hist : List Nat) (a : Nat) :
    guard_state (hist ++ [a]) = (some a, reentries hist a % 2 ^ 32) := by
  induction hist using List.reverseRecOn generalizing a with
  | nil =>
    rw [guard_state_snoc]
    rfl
  | append_singleton h2 b ih =>
    rw [guard_state_snoc, ih b, reentries_snoc]
    unfold infinite_loop_guard
    by_cases hb : b = a
    · subst hb
      simp only [ne_eq, not_true_eq_false, if_false, if_true]
      congr 1
      omega
    · have : (some b : Option Nat) ≠ some a := fun e => hb (Option.some.inj e)
      simp only [ne_eq, this, not_false_eq_true, if_true, hb, if_false]
      rfl

theorem guard_raises_iff (hist : List Nat) (a : Nat) :
    guard_raises hist a = true ↔ 300 < reentries hist a % 2 ^ 32 := by
  unfold guard_raises
  induction hist using List.reverseRecOn with
  | nil =>
    rw [reentries_nil]
    simp [guard_state, infinite_loop_guard]
  | append_singleton h2 b _ =>
    rw [guard_state_last, reentries_snoc]
    unfold infinite_loop_guard
    by_cases hb : b = a
    · subst hb
      simp only [ne_eq, not_true_eq_false, if_false, if_true, decide_eq_true_eq]
      have : (reentries h2 b % 2 ^ 32 + 1) % 2 ^ 32 = (reentries h2 b + 1) % 2 ^ 32 := by omega
      rw [this]
    · have : (some b : Option Nat) ≠ some a := fun e => hb (Option.some.inj e)
      simp [this, hb]
theorem setup_variable_search_infinite_loop (as : AtomSpace) (lib : Library)
    (cb : InitiateSearchCB) :
    (∃ n, setup_variable_search as lib cb = .error (.infinite_loop n)) ↔
      ((variable_pick as lib cb).root = none ∧ cb._variables._deep_typemap.isEmpty = true ∧
        (infinite_loop_guard cb.prev cb.count cb._pattern.addr).2.2 = true) := by
  have hp : variable_loop as lib
      (all_clauses_are_evaluatable cb._pattern.evaluatable_holders cb._pattern.mandatory)
      cb._variables cb._pattern cb._variables.varset ⟨SIZE_MAX, [], none, none⟩ =
      variable_pick as lib cb := rfl
  unfold setup_variable_search
  simp only [hp]
  cases hroot : (variable_pick as lib cb).root with
  | some x =>
    simp only []
    constructor
    · rintro ⟨n, h⟩
      cases h
    · rintro ⟨h, _⟩
      cases h
  | none =>
    simp only [true_and]
    have tail : ∀ (n : Nat) (c2 : InitiateSearchCB),
        (if 0 = cb._pattern.mandatory.length then
            (Except.ok (false, c2) : Except Err (Bool × InitiateSearchCB))
          else
            match first_non_evaluatable c2._pattern.evaluatable_holders
                c2._pattern.mandatory with
            | some m =>
              Except.ok (true, { c2 with
                _root := some m, _starter_term := some m,
                _search_set := c2._search_set ++
                  variable_search_set as (variable_pick as lib cb).ptypes })
            | none =>
              match c2._variables.varset.head? with
              | none => Except.error Err.no_variables
              | some some_var =>
                Except.ok (true, { c2 with
                  _root := cb._pattern.mandatory.head?, _starter_term := some some_var,
                  _search_set := c2._search_set ++
                    variable_search_set as (variable_pick as lib cb).ptypes })) ≠
          .error (.infinite_loop n) := by
      intro n c2 h
      split_ifs at h
      split at h
      · cases h
      · split at h
        · cases h
        · cases h
    by_cases hd : cb._variables._deep_typemap.isEmpty = true
    · by_cases hg : (infinite_loop_guard cb.prev cb.count cb._pattern.addr).2.2 = true
      · simp only [hd, not_true_eq_false, if_false, hg, if_true, and_self, iff_true]
        exact ⟨_, rfl⟩
      · constructor
        · rintro ⟨n, h⟩
          rw [if_neg (by simp [hd]), if_neg hg] at h
          exact absurd h (tail n _)
        · rintro ⟨_, h⟩
          exact absurd h hg
    · constructor
      · rintro ⟨n, h⟩
        rw [if_pos hd] at h
        exact absurd h (tail n _)
      · rintro ⟨h, _⟩
        exact absurd h hd

/-- C25 (as stated) fails: the counter of the guard is an `unsigned int`.
Entered with the same pattern for the 2^32-th time in a row after the first
entry, it has wrapped to zero and the guard does not raise, although the path
has been re-entered more than 300 consecutive times with that pattern. -/
theorem guard_wraps_counterexample :
    reentries (List.replicate (2 ^ 32) 7) 7 = 2 ^ 32 ∧ 300 < 2 ^ 32 ∧
    guard_raises (List.replicate (2 ^ 32) 7) 7 = false := by
  refine ⟨reentries_replicate _ _, by decide, ?_⟩
  cases h : guard_raises (List.replicate (2 ^ 32) 7) 7 with
  | false => rfl
  | true =>
    have := (guard_raises_iff _ _).1 h
    rw [reentries_replicate] at this
    simp at this

/-- C25 (amended): the guard is a counter keyed on the pattern.  Over any
sequence of entries to the guarded path, starting from the initial statics, the
guard raises at an entry exactly when the number of times the path has been
entered with the same pattern directly before, in a row, taken modulo 2^32,
exceeds 300; so for fewer than 2^32 consecutive re-entries it raises exactly
when the path has been re-entered more than 300 consecutive times with the
same pattern.  An entry with a pattern other than that of the entry before
does not raise and leaves the count at zero.  `setup_variable_search` raises
the infinite-loop error exactly when no variable was selected, there are no
deep types, and the guard raises on its statics. -/
theorem guard_raises_after_300 :
    (∀ (hist : List Nat) (addr : Nat),
      (guard_raises hist addr = true ↔ 300 < reentries hist addr % 2 ^ 32) ∧
      (reentries hist addr < 2 ^ 32 →
        (guard_raises hist addr = true ↔ 300 < reentries hist addr))) ∧
    (∀ (addr : Nat), guard_raises [] addr = false ∧ guard_state [addr] = (some addr, 0)) ∧
    (∀ (hist : List Nat) (b addr : Nat), b ≠ addr →
      guard_raises (hist ++ [b]) addr = false ∧
      guard_state (hist ++ [b] ++ [addr]) = (some addr, 0)) ∧
    (∀ (as : AtomSpace) (lib : Library) (cb : InitiateSearchCB),
      (∃ n, setup_variable_search as lib cb = .error (.infinite_loop n)) ↔
        ((variable_pick as lib cb).root = none ∧
          cb._variables._deep_typemap.isEmpty = true ∧
          (infinite_loop_guard cb.prev cb.count cb._pattern.addr).2.2 = true)) := by
  refine ⟨?_, ?_, ?_, setup_variable_search_infinite_loop⟩
  · intro hist addr
    refine ⟨guard_raises_iff hist addr, fun hlt => ?_⟩
    rw [guard_raises_iff, Nat.mod_eq_of_lt hlt]
  · intro addr
    constructor
    · cases h : guard_raises [] addr with
      | false => rfl
      | true =>
        have := (guard_raises_iff _ _).1 h
        rw [reentries_nil] at this
        simp at this
    · have := guard_state_last [] addr
      rw [reentries_nil] at this
      exact this
  · intro hist b addr hne
    have hz : reentries (hist ++ [b]) addr = 0 := by
      rw [reentries_snoc, if_neg hne]
    constructor
    · cases h : guard_raises (hist ++ [b]) addr with
      | false => rfl
      | true =>
        have := (guard_raises_iff _ _).1 h
        rw [hz] at this
        simp at this
    · rw [guard_state_last, hz]
      rfl

/-- Witness for C25 (amended): after 301 entries with the pattern at address 7,
the next entry with it is the 301st re-entry and raises. -/
theorem guard_raises_after_300_witness :
    reentries (List.replicate 301 7) 7 < 2 ^ 32 ∧
    (guard_raises (List.replicate 301 7) 7 = true ↔ 300 < reentries (List.replicate 301 7) 7) :=
  ⟨by rw [reentries_replicate]; decide,
    (guard_raises_after_300.1 (List.replicate 301 7) 7).2
      (by rw [reentries_replicate]; decide)⟩

/-! ## The degenerate path of the variable-type strategy -/

theorem variable_pick_none (as : AtomSpace) (lib : Library) (cb : InitiateSearchCB)
    (hnone : ∀ v ∈ cb._variables.varset, ∀ ts,
      cb._variables._simple_typemap.lookup v = some ts → 0 < typeset_population as ts →
      ¬ eligible_variable lib cb v) :
    variable_pick as lib cb = ⟨SIZE_MAX, [], none, none⟩ := by
  rcases variable_pick_cases as lib cb with e | ⟨v, hv, ts, cl, st, h1, h2, h3, _, _⟩
  · exact e
  · exact absurd h3 (hnone v hv ts h1 h2)

theorem setup_variable_search_degenerate_cases (as : AtomSpace) (lib : Library)
    (cb : InitiateSearchCB) (hpk : variable_pick as lib cb = ⟨SIZE_MAX, [], none, none⟩)
    (hm : cb._pattern.mandatory ≠ []) :
    (cb._variables._deep_typemap.isEmpty = true ∧
      (infinite_loop_guard cb.prev cb.count cb._pattern.addr).2.2 = true ∧
      setup_variable_search as lib cb =
        .error (.infinite_loop (infinite_loop_guard cb.prev cb.count cb._pattern.addr).2.1)) ∨
    (¬ (cb._variables._deep_typemap.isEmpty = true ∧
        (infinite_loop_guard cb.prev cb.count cb._pattern.addr).2.2 = true) ∧
      ∃ cb2 : InitiateSearchCB, cb2._search_set = cb._search_set ∧
        ((∃ m, first_non_evaluatable cb._pattern.evaluatable_holders cb._pattern.mandatory =
              some m ∧
            setup_variable_search as lib cb = .ok (true, { cb2 with
              _root := some m, _starter_term := some m,
              _search_set := cb2._search_set ++ as.atoms })) ∨
          (first_non_evaluatable cb._pattern.evaluatable_holders cb._pattern.mandatory = none ∧
            cb._variables.varset = [] ∧
            setup_variable_search as lib cb = .error .no_variables) ∨
          (first_non_evaluatable cb._pattern.evaluatable_holders cb._pattern.mandatory = none ∧
            ∃ v, cb._variables.varset.head? = some v ∧
              setup_variable_search as lib cb = .ok (true, { cb2 with
                _root := cb._pattern.mandatory.head?, _starter_term := some v,
                _search_set := cb2._search_set ++ as.atoms })))) := by
  have hp : variable_loop as lib
      (all_clauses_are_evaluatable cb._pattern.evaluatable_holders cb._pattern.mandatory)
      cb._variables cb._pattern cb._variables.varset ⟨SIZE_MAX, [], none, none⟩ =
      variable_pick as lib cb := rfl
  have hlen : ¬ (0 = cb._pattern.mandatory.length) := by
    intro h
    exact hm (List.length_eq_zero.1 h.symm)
  have hset : variable_search_set as [] = as.atoms := rfl
  have tail : ∀ c2 : InitiateSearchCB, c2._variables = cb._variables →
      c2._pattern = cb._pattern →
      ((∃ m, first_non_evaluatable cb._pattern.evaluatable_holders cb._pattern.mandatory =
            some m ∧
          (if 0 = cb._pattern.mandatory.length then
              (Except.ok (false, c2) : Except Err (Bool × InitiateSearchCB))
            else
              match first_non_evaluatable c2._pattern.evaluatable_holders
                  c2._pattern.mandatory with
              | some m =>
                Except.ok (true, { c2 with
                  _root := some m, _starter_term := some m,
                  _search_set := c2._search_set ++ variable_search_set as [] })
              | none =>
                match c2._variables.varset.head? with
                | none => Except.error Err.no_variables
                | some some_var =>
                  Except.ok (true, { c2 with
                    _root := cb._pattern.mandatory.head?, _starter_term := some some_var,
                    _search_set := c2._search_set ++ variable_search_set as [] })) =
            .ok (true, { c2 with
              _root := some m, _starter_term := some m,
              _search_set := c2._search_set ++ as.atoms })) ∨
        (first_non_evaluatable cb._pattern.evaluatable_holders cb._pattern.mandatory = none ∧
          cb._variables.varset = [] ∧
          (if 0 = cb._pattern.mandatory.length then
              (Except.ok (false, c2) : Except Err (Bool × InitiateSearchCB))
            else
              match first_non_evaluatable c2._pattern.evaluatable_holders
                  c2._pattern.mandatory with
              | some m =>
                Except.ok (true, { c2 with
                  _root := some m, _starter_term := some m,
                  _search_set := c2._search_set ++ variable_search_set as [] })
              | none =>
                match c2._variables.varset.head? with
                | none => Except.error Err.no_variables
                | some some_var =>
                  Except.ok (true, { c2 with
                    _root := cb._pattern.mandatory.head?, _starter_term := some some_var,
                    _search_set := c2._search_set ++ variable_search_set as [] })) =
            .error .no_variables) ∨
        (first_non_evaluatable cb._pattern.evaluatable_holders cb._pattern.mandatory = none ∧
          ∃ v, cb._variables.varset.head? = some v ∧
          (if 0 = cb._pattern.mandatory.length then
              (Except.ok (false, c2) : Except Err (Bool × InitiateSearchCB))
            else
              match first_non_evaluatable c2._pattern.evaluatable_holders
                  c2._pattern.mandatory with
              | some m =>
                Except.ok (true, { c2 with
                  _root := some m, _starter_term := some m,
                  _search_set := c2._search_set ++ variable_search_set as [] })
              | none =>
                match c2._variables.varset.head? with
                | none => Except.error Err.no_variables
                | some some_var =>
                  Except.ok (true, { c2 with
                    _root := cb._pattern.mandatory.head?, _starter_term := some some_var,
                    _search_set := c2._search_set ++ variable_search_set as [] })) =
            .ok (true, { c2 with
              _root := cb._pattern.mandatory.head?, _starter_term := some v,
              _search_set := c2._search_set ++ as.atoms }))) := by
    intro c2 hv hpat
    rw [if_neg hlen, hpat, hv]
    cases hf : first_non_evaluatable cb._pattern.evaluatable_holders cb._pattern.mandatory with
    | some m => exact Or.inl ⟨m, rfl, rfl⟩
    | none =>
      right
      cases hh : cb._variables.varset.head? with
      | none =>
        left
        refine ⟨rfl, ?_, rfl⟩
        cases hvs : cb._variables.varset with
        | nil => rfl
        | cons a l =>
          rw [hvs] at hh
          cases hh
      | some v => exact Or.inr ⟨rfl, v, rfl, rfl⟩
  unfold setup_variable_search
  simp only [hp, hpk]
  by_cases hd : cb._variables._deep_typemap.isEmpty = true
  · by_cases hg : (infinite_loop_guard cb.prev cb.count cb._pattern.addr).2.2 = true
    · left
      refine ⟨hd, hg, ?_⟩
      rw [if_neg (by simp [hd]), if_pos hg]
    · right
      refine ⟨fun h => hg h.2, ?_⟩
      rw [if_neg (by simp [hd]), if_neg hg]
      exact ⟨{ cb with
          _root := none, _starter_term := none,
          prev := (infinite_loop_guard cb.prev cb.count cb._pattern.addr).1,
          count := (infinite_loop_guard cb.prev cb.count cb._pattern.addr).2.1 },
        rfl, tail _ rfl rfl⟩
  · right
    refine ⟨fun h => hd h.1, ?_⟩
    rw [if_pos hd]
    exact ⟨{ cb with _root := none, _starter_term := none }, rfl, tail _ rfl rfl⟩
/-- C28 (as stated) fails: the only variable `$x` is restricted to a type
without atoms and `$x` is the only mandatory clause; entered when the statics
of the guard hold the same pattern with count 300 (as they do after 301
entries in a row with that pattern), `setup_variable_search` takes the
degenerate path and raises the infinite-loop error instead of returning true.
Entered with fresh statics it returns true with all atoms. -/
theorem setup_variable_search_degenerate_counterexample :
    plannerZero._pattern.mandatory = [varX] ∧
    plannerZero._variables._simple_typemap.lookup varX = some [emptyType] ∧
    typeset_population spaceFive [emptyType] = 0 ∧
    guard_state (List.replicate 300 plannerZero._pattern.addr ++ [plannerZero._pattern.addr]) =
      (plannerZero.prev, plannerZero.count) ∧
    setup_variable_search spaceFive libEmpty plannerZero = .error (.infinite_loop 301) ∧
    setup_variable_search spaceFive libEmpty { plannerZero with prev := none, count := 0 } =
      .ok (true, { plannerZero with
        _root := some varX, _starter_term := some varX,
        _search_set := spaceFive.atoms, prev := some 0, count := 0 }) := by
  refine ⟨by decide, by decide, by decide, ?_, by decide, by decide⟩
  rw [guard_state_last, reentries_replicate]
  rfl

/-- C28 (amended): if there is at least one mandatory clause and no
type-restricted variable with a positive aggregate population occurs in an
eligible clause, `setup_variable_search` selects no variable and never returns
false.  It returns true unless the infinite-loop guard raises (no deep types
and the guard fires on its statics) or the fatal no-variables error is raised
(every mandatory clause is an evaluatable holder and there is no variable);
when it returns true, the search set is the one on entry followed by all atoms
of the hypergraph, root and start term are the first mandatory clause that is
not an evaluatable holder or, failing that, the first mandatory clause and the
first variable. -/
theorem setup_variable_search_degenerate (as : AtomSpace) (lib : Library)
    (cb : InitiateSearchCB) (hm : cb._pattern.mandatory ≠ [])
    (hnone : ∀ v ∈ cb._variables.varset, ∀ ts,
      cb._variables._simple_typemap.lookup v = some ts → 0 < typeset_population as ts →
      ¬ eligible_variable lib cb v) :
    variable_pick as lib cb = ⟨SIZE_MAX, [], none, none⟩ ∧
    (∀ cb1, setup_variable_search as lib cb ≠ .ok (false, cb1)) ∧
    (∀ cb1, setup_variable_search as lib cb = .ok (true, cb1) →
      cb1._search_set = cb._search_set ++ as.atoms ∧
      ((∃ m, first_non_evaluatable cb._pattern.evaluatable_holders cb._pattern.mandatory =
            some m ∧ cb1._root = some m ∧ cb1._starter_term = some m) ∨
        (first_non_evaluatable cb._pattern.evaluatable_holders cb._pattern.mandatory = none ∧
          cb1._root = cb._pattern.mandatory.head? ∧
          cb1._starter_term = cb._variables.varset.head?))) ∧
    ((∃ cb1, setup_variable_search as lib cb = .ok (true, cb1)) ↔
      (¬ (cb._variables._deep_typemap.isEmpty = true ∧
          (infinite_loop_guard cb.prev cb.count cb._pattern.addr).2.2 = true) ∧
        ¬ (first_non_evaluatable cb._pattern.evaluatable_holders cb._pattern.mandatory = none ∧
          cb._variables.varset = []))) := by
  have hpk := variable_pick_none as lib cb hnone
  refine ⟨hpk, ?_, ?_, ?_⟩
  · intro cb1 h
    rcases setup_variable_search_degenerate_cases as lib cb hpk hm with
      ⟨_, _, e⟩ | ⟨_, cb2, _, ⟨m, _, e⟩ | ⟨_, _, e⟩ | ⟨_, v, _, e⟩⟩
    · rw [e] at h
      cases h
    · rw [e] at h
      injection h with h
      injection h with hb _
      cases hb
    · rw [e] at h
      cases h
    · rw [e] at h
      injection h with h
      injection h with hb _
      cases hb
  · intro cb1 h
    rcases setup_variable_search_degenerate_cases as lib cb hpk hm with
      ⟨_, _, e⟩ | ⟨_, cb2, hss, ⟨m, hf, e⟩ | ⟨_, _, e⟩ | ⟨hf, v, hh, e⟩⟩
    · rw [e] at h
      cases h
    · rw [e] at h
      injection h with h
      injection h with _ hcb
      subst hcb
      exact ⟨by rw [← hss], Or.inl ⟨m, hf, rfl, rfl⟩⟩
    · rw [e] at h
      cases h
    · rw [e] at h
      injection h with h
      injection h with _ hcb
      subst hcb
      exact ⟨by rw [← hss], Or.inr ⟨hf, rfl, hh.symm⟩⟩
  · rcases setup_variable_search_degenerate_cases as lib cb hpk hm with
      ⟨h1, h2, e⟩ | ⟨hng, cb2, _, ⟨m, hf, e⟩ | ⟨hf, hv, e⟩ | ⟨hf, v, hh, e⟩⟩
    · constructor
      · rintro ⟨cb1, h⟩
        rw [e] at h
        cases h
      · rintro ⟨h, _⟩
        exact absurd ⟨h1, h2⟩ h
    · constructor
      · intro _
        refine ⟨hng, ?_⟩
        rintro ⟨h, _⟩
        rw [hf] at h
        cases h
      · intro _
        exact ⟨_, e⟩
    · constructor
      · rintro ⟨cb1, h⟩
        rw [e] at h
        cases h
      · rintro ⟨_, h⟩
        exact absurd ⟨hf, hv⟩ h
    · constructor
      · intro _
        refine ⟨hng, ?_⟩
        rintro ⟨_, h⟩
        rw [h] at hh
        cases hh
      · intro _
        exact ⟨_, e⟩

/-- Witness for C28 (amended): `$x` restricted to a type without atoms, entered
with fresh statics of the guard; the search set is all seven atoms. -/
theorem setup_variable_search_degenerate_witness :
    spaceFive.atoms = ([] : List Atom) ++ spaceFive.atoms ∧
    ((∃ m, first_non_evaluatable plannerZero._pattern.evaluatable_holders
          plannerZero._pattern.mandatory = some m ∧
        (some varX : Handle) = some m ∧ (some varX : Handle) = some m) ∨
      (first_non_evaluatable plannerZero._pattern.evaluatable_holders
          plannerZero._pattern.mandatory = none ∧
        (some varX : Handle) = plannerZero._pattern.mandatory.head? ∧
        (some varX : Handle) = plannerZero._variables.varset.head?)) :=
  (setup_variable_search_degenerate spaceFive libEmpty
    { plannerZero with prev := none, count := 0 } (by decide)
    (by
      intro v hv ts hl hp
      have hv2 : v = varX := by simpa [plannerZero] using hv
      subst hv2
      have hts : ts = [emptyType] := by
        have : plannerZero._variables._simple_typemap.lookup varX = some [emptyType] := by
          decide
        have h2 : some ts = some [emptyType] := hl.symm.trans this
        exact Option.some.inj h2
      subst hts
      exact absurd hp (by decide))).2.2.1
    { plannerZero with
      _root := some varX, _starter_term := some varX,
      _search_set := spaceFive.atoms, prev := some 0, count := 0 } (by decide)

/-! ## Success of the neighbourhood setup and usable constants -/

theorem QuotesUnary_filled {h : Atom} (hu : QuotesUnary h) : QuotesFilled h := by
  intro x hx
  cases x with
  | node t n => rfl
  | link t out =>
    cases out with
    | nil =>
      cases hq : is_quotation_type t with
      | false => simp [Atom.isEmptyQuotation, hq]
      | true =>
        have := hu _ hx (by simp [Atom.isQuotation, hq])
        simp [Atom.isUnaryLink] at this
    | cons g gs => rfl

theorem unary_quotation_shape {x : Atom} (hq : x.isQuotation = true)
    (hu : x.isUnaryLink = true) :
    ∃ t g, x = .link t [g] ∧ is_quotation_type t = true := by
  cases x with
  | node t n => simp [Atom.isQuotation] at hq
  | link t out =>
    cases out with
    | nil => simp [Atom.isUnaryLink] at hu
    | cons g gs =>
      cases gs with
      | nil => exact ⟨t, g, rfl, by simpa [Atom.isQuotation] using hq⟩
      | cons g2 gs2 => simp [Atom.isUnaryLink] at hu

theorem Usable_iff_Reached (dyn : List Atom) :
    ∀ h : Atom, QuotesUnary h → (∀ x ∈ h.subterms, x.isQuotation = true → x ∉ dyn) →
      ∀ s, Usable dyn h s ↔ Reached dyn h s := by
  intro h
  induction h using target_induct_atom with
  | hn t n =>
    intro _ _ s
    constructor
    · intro hu
      cases hu with
      | node _ _ hk => exact Reached.node t n hk
    · intro hr
      cases hr with
      | node _ _ hk => exact Usable.node t n hk
  | hl t out ih =>
    intro hun hnd s
    have hsub : ∀ hunt ∈ out, ∀ g, hunt_target hunt = some g →
        ∀ x ∈ g.subterms, x ∈ (Atom.link t out).subterms := fun hunt hm g hg x hx =>
      (mem_subterms_link x t out).2 (Or.inr ⟨hunt, hm, hunt_target_subterms hg hx⟩)
    have ihg : ∀ hunt ∈ out, ∀ g, hunt_target hunt = some g →
        ∀ s, Usable dyn g s ↔ Reached dyn g s := fun hunt hm g hg =>
      ih hunt hm g hg (fun x hx => hun x (hsub hunt hm g hg x hx))
        (fun x hx => hnd x (hsub hunt hm g hg x hx))
    have hchild : ∀ c ∈ out, c ∈ (Atom.link t out).subterms := fun c hc =>
      (mem_subterms_link c t out).2 (Or.inr ⟨c, hc, self_mem_subterms c⟩)
    constructor
    · intro hu
      cases hu with
      | link _ _ c _ hd hc hcs =>
        cases hq : c.isQuotation with
        | false =>
          have hg := hunt_target_of_not_quotation c hq
          exact Reached.link t out c c s hd hc hg ((ihg c hc c hg s).1 hcs)
        | true =>
          obtain ⟨qt, g, e, hqt⟩ := unary_quotation_shape hq (hun c (hchild c hc) hq)
          subst e
          have hg : hunt_target (.link qt [g]) = some g := by simp [hunt_target, hqt]
          cases hcs with
          | link _ _ c2 _ _ hc2 hu2 =>
            have e2 : c2 = g := by simpa using hc2
            subst e2
            exact Reached.link t out _ c2 s hd hc hg ((ihg _ hc c2 hg s).1 hu2)
    · intro hr
      cases hr with
      | link _ _ hunt g _ hd hm hg hrg =>
        have hug := (ihg hunt hm g hg s).2 hrg
        cases hq : hunt.isQuotation with
        | false =>
          have hg2 := hunt_target_of_not_quotation hunt hq
          rw [hg2] at hg
          injection hg with hg
          subst hg
          exact Usable.link t out hunt s hd hm hug
        | true =>
          obtain ⟨qt, g2, e, hqt⟩ := unary_quotation_shape hq (hun hunt (hchild hunt hm) hq)
          subst e
          have hg2 : hunt_target (.link qt [g2]) = some g2 := by simp [hunt_target, hqt]
          rw [hg2] at hg
          injection hg with hg
          subst hg
          exact Usable.link t out _ s hd hm
            (Usable.link qt [g2] g2 s (hnd _ (hchild _ hm) hq) (List.mem_singleton_self _) hug)

end InitiateSearch
